import Mathlib

/-!
# Single-precision vector log (`math/aarch64/v_logf.c`)

A shallow embedding of the AdvSIMD routine `V_NAME_F1 (log)` and of its special-case handler.

* A 32-bit lane (an unsigned integer, or the bit pattern of a binary32 float) is a natural
  number below `2^32`; unsigned lane arithmetic wraps with an explicit `% 2^32`.  Sums are
  written with the constant operand on the left.
* A vector of four lanes is a function on `Fin 4`; every NEON intrinsic used by the source is a
  lane-wise definition of the same name.
* The floating-point intrinsics (`vsubq_f32`, `vmulq_f32`, `vfmaq_f32`, `vcvtq_f32_s32`) are
  modelled on bit patterns, in IEEE-754 binary32 arithmetic with round-to-nearest-even, no
  flush-to-zero and no default-NaN mode: each operation computes the exact result as an integer
  times a power of two and rounds once.
* The scalar reference `logf` is external to the routine and is a parameter.
-/

namespace VLogf

/-! ## Lane and vector types -/

/-- Four unsigned 32-bit lanes. -/
abbrev uint32x4_t := Fin 4 → Nat

/-- Four signed 32-bit lanes. -/
abbrev int32x4_t := Fin 4 → Int

/-- Four binary32 lanes, each kept as its bit pattern. -/
abbrev float32x4_t := Fin 4 → Nat

/-- Four unsigned 16-bit lanes. -/
abbrev uint16x4_t := Fin 4 → Nat

/-- Eight unsigned 16-bit lanes. -/
abbrev uint16x8_t := Fin 8 → Nat

/-- Broadcast of one 32-bit scalar to four lanes (`V4`). -/
def V4 (a : Nat) : Fin 4 → Nat := fun _ => a

/-- Broadcast of one 16-bit scalar to eight lanes (`V8`). -/
def V8 (a : Nat) : uint16x8_t := fun _ => a

/-! ## IEEE-754 binary32 on bit patterns -/

/-- Sign bit of a binary32 pattern. -/
def f32Sign (u : Nat) : Bool := u / 2 ^ 31 % 2 = 1

/-- Biased exponent field of a binary32 pattern. -/
def f32Exp (u : Nat) : Nat := u / 2 ^ 23 % 256

/-- Fraction (mantissa) field of a binary32 pattern. -/
def f32Man (u : Nat) : Nat := u % 2 ^ 23

/-- The pattern is a NaN. -/
def f32IsNaN (u : Nat) : Bool := f32Exp u = 255 && f32Man u ≠ 0

/-- The pattern is a signalling NaN (quiet bit clear). -/
def f32IsSNaN (u : Nat) : Bool := f32IsNaN u && f32Man u < 2 ^ 22

/-- The pattern is an infinity. -/
def f32IsInf (u : Nat) : Bool := f32Exp u = 255 && f32Man u = 0

/-- The pattern is a zero of either sign. -/
def f32IsZero (u : Nat) : Bool := f32Exp u = 0 && f32Man u = 0

/-- Integer significand of a finite pattern: the value is `±f32Sig u * 2 ^ f32Scale u`. -/
def f32Sig (u : Nat) : Nat := if f32Exp u = 0 then f32Man u else 2 ^ 23 + f32Man u

/-- Power-of-two scale of a finite pattern: the value is `±f32Sig u * 2 ^ f32Scale u`. -/
def f32Scale (u : Nat) : Int := if f32Exp u = 0 then -149 else (f32Exp u : Int) - 150

/-- Signed integer significand of a finite pattern. -/
def f32SInt (u : Nat) : Int := if f32Sign u then -(f32Sig u : Int) else (f32Sig u : Int)

/-- The rational number a finite pattern denotes. -/
def f32Val (u : Nat) : ℚ := (f32SInt u : ℚ) * (2 : ℚ) ^ f32Scale u

/-- Positive infinity. -/
def f32PosInf : Nat := 0x7f800000

/-- The default (quiet, positive) NaN. -/
def f32DefaultNaN : Nat := 0x7fc00000

/-- A NaN with its quiet bit set. -/
def f32Quiet (u : Nat) : Nat := if f32Man u < 2 ^ 22 then 2 ^ 22 + u else u

/-- A pattern with the sign bit set according to `neg`; `mag` is below `2^31`. -/
def f32WithSign (neg : Bool) (mag : Nat) : Nat := if neg then 2 ^ 31 + mag else mag

/-- Floor of the base-2 logarithm, by halving (`fuel` bounds the number of halvings). -/
def ilog2Aux : Nat → Nat → Nat
  | 0, _ => 0
  | fuel + 1, n => if n < 2 then 0 else ilog2Aux fuel (n / 2) + 1

/-- Floor of the base-2 logarithm of a positive natural number. -/
def ilog2 (n : Nat) : Nat := ilog2Aux n n

/-- Division by `2^k` rounded to nearest, ties to even. -/
def rneShift (N k : Nat) : Nat :=
  let q := N / 2 ^ k
  let r := N % 2 ^ k
  if 2 * r < 2 ^ k then q
  else if 2 * r = 2 ^ k then (if q % 2 = 0 then q else q + 1)
  else q + 1

/-- Round the nonzero real `±N * 2^e` (with `0 < N`) to binary32, nearest-even; the result
overflows to infinity and underflows gradually through the subnormals. -/
def f32Round (neg : Bool) (N : Nat) (e : Int) : Nat :=
  let ex : Int := (ilog2 N : Int) + e
  let q : Int := max ex (-126) - 23
  let mant : Nat := if q ≤ e then N * 2 ^ (e - q).toNat else rneShift N (q - e).toNat
  let bits : Nat := (q + 149).toNat * 2 ^ 23 + mant
  f32WithSign neg (if bits ≥ f32PosInf then f32PosInf else bits)

/-- Round the exact real `T * 2^e` to binary32; an exact zero takes the sign `zneg`. -/
def f32OfInt (T : Int) (e : Int) (zneg : Bool) : Nat :=
  if T = 0 then f32WithSign zneg 0 else f32Round (decide (T < 0)) T.natAbs e

/-- Scalar `a + b * c` with a single rounding (one lane of `vfmaq_f32 (a, b, c)`). -/
def fmaf32 (a b c : Nat) : Nat :=
  if f32IsNaN a || f32IsNaN b || f32IsNaN c then
    if !f32IsSNaN a && !f32IsSNaN b && !f32IsSNaN c && f32IsNaN a
        && ((f32IsInf b && f32IsZero c) || (f32IsZero b && f32IsInf c)) then f32DefaultNaN
    else if f32IsSNaN a then f32Quiet a
    else if f32IsSNaN b then f32Quiet b
    else if f32IsSNaN c then f32Quiet c
    else if f32IsNaN a then a
    else if f32IsNaN b then b
    else c
  else
    let pneg : Bool := xor (f32Sign b) (f32Sign c)
    if (f32IsInf b && f32IsZero c) || (f32IsZero b && f32IsInf c) then f32DefaultNaN
    else if f32IsInf b || f32IsInf c then
      if f32IsInf a && f32Sign a ≠ pneg then f32DefaultNaN else f32WithSign pneg f32PosInf
    else if f32IsInf a then a
    else
      let ep : Int := f32Scale b + f32Scale c
      let e0 : Int := min (f32Scale a) ep
      let T : Int := f32SInt a * 2 ^ (f32Scale a - e0).toNat
                      + f32SInt b * f32SInt c * 2 ^ (ep - e0).toNat
      f32OfInt T e0 (f32Sign a && pneg)

/-- Scalar `a - b` (one lane of `vsubq_f32`). -/
def subf32 (a b : Nat) : Nat :=
  if f32IsSNaN a then f32Quiet a
  else if f32IsSNaN b then f32Quiet b
  else if f32IsNaN a then a
  else if f32IsNaN b then b
  else if f32IsInf a then
    if f32IsInf b && f32Sign a = f32Sign b then f32DefaultNaN else a
  else if f32IsInf b then f32WithSign (!f32Sign b) f32PosInf
  else
    let e0 : Int := min (f32Scale a) (f32Scale b)
    let T : Int := f32SInt a * 2 ^ (f32Scale a - e0).toNat
                    - f32SInt b * 2 ^ (f32Scale b - e0).toNat
    f32OfInt T e0 (f32Sign a && !f32Sign b)

/-- Scalar `a * b` (one lane of `vmulq_f32`). -/
def mulf32 (a b : Nat) : Nat :=
  if f32IsSNaN a then f32Quiet a
  else if f32IsSNaN b then f32Quiet b
  else if f32IsNaN a then a
  else if f32IsNaN b then b
  else if (f32IsInf a && f32IsZero b) || (f32IsZero a && f32IsInf b) then f32DefaultNaN
  else if f32IsInf a || f32IsInf b then f32WithSign (xor (f32Sign a) (f32Sign b)) f32PosInf
  else f32OfInt (f32SInt a * f32SInt b) (f32Scale a + f32Scale b) (xor (f32Sign a) (f32Sign b))

/-- Signed 32-bit integer to binary32, round-to-nearest-even (one lane of `vcvtq_f32_s32`). -/
def cvtf32s32 (n : Int) : Nat := f32OfInt n 0 false

/-- A hexadecimal float literal `±0xH.HHHHp±e f`: the integer `sig` read with `frac` fractional
bits, times `2^e`, rounded to binary32. -/
def hexf (neg : Bool) (sig frac : Nat) (e : Int) : Nat :=
  f32OfInt (if neg then -(sig : Int) else (sig : Int)) (e - (frac : Int)) neg

/-! ## NEON intrinsics, lane-wise -/

/-- Reinterpret float lanes as unsigned lanes (`vreinterpretq_u32_f32`): the bits are kept. -/
def vreinterpretq_u32_f32 (a : float32x4_t) : uint32x4_t := a

/-- Reinterpret unsigned lanes as float lanes (`vreinterpretq_f32_u32`): the bits are kept. -/
def vreinterpretq_f32_u32 (a : uint32x4_t) : float32x4_t := a

/-- Reinterpret unsigned lanes as two's-complement signed lanes (`vreinterpretq_s32_u32`). -/
def vreinterpretq_s32_u32 (a : uint32x4_t) : int32x4_t :=
  fun i => if a i < 2 ^ 31 then (a i : Int) else (a i : Int) - 2 ^ 32

/-- Wrapping lane-wise subtraction `a - b` (`vsubq_u32`): the two's complement of `b` is added
to `a` modulo `2^32`. -/
def vsubq_u32 (a b : uint32x4_t) : uint32x4_t :=
  fun i => ((2 ^ 32 - b i % 2 ^ 32) + a i) % 2 ^ 32

/-- Wrapping lane-wise addition `a + b` (`vaddq_u32`); the sum is written with the second
operand, a table constant at both call sites, on the left. -/
def vaddq_u32 (a b : uint32x4_t) : uint32x4_t := fun i => (b i + a i) % 2 ^ 32

/-- Lane-wise bitwise and (`vandq_u32`). -/
def vandq_u32 (a b : uint32x4_t) : uint32x4_t := fun i => a i &&& b i

/-- Lane-wise arithmetic (sign-extending) shift right by an immediate (`vshrq_n_s32`). -/
def vshrq_n_s32 (a : int32x4_t) (k : Nat) : int32x4_t := fun i => a i >>> k

/-- Lane-wise signed integer to float conversion (`vcvtq_f32_s32`). -/
def vcvtq_f32_s32 (a : int32x4_t) : float32x4_t := fun i => cvtf32s32 (a i)

/-- Lane-wise float subtraction (`vsubq_f32`). -/
def vsubq_f32 (a b : float32x4_t) : float32x4_t := fun i => subf32 (a i) (b i)

/-- Lane-wise float multiplication (`vmulq_f32`). -/
def vmulq_f32 (a b : float32x4_t) : float32x4_t := fun i => mulf32 (a i) (b i)

/-- Lane-wise fused multiply-add `a + b * c` (`vfmaq_f32`). -/
def vfmaq_f32 (a b c : float32x4_t) : float32x4_t := fun i => fmaf32 (a i) (b i) (c i)

/-- Subtract and keep the high half of each 32-bit difference (`vsubhn_u32`). -/
def vsubhn_u32 (a b : uint32x4_t) : uint16x4_t :=
  fun i => ((2 ^ 32 - b i % 2 ^ 32) + a i) % 2 ^ 32 / 2 ^ 16

/-- The low four lanes of an eight-lane vector (`vget_low_u16`). -/
def vget_low_u16 (a : uint16x8_t) : uint16x4_t := fun i => a (Fin.castLE (by decide) i)

/-- Lane-wise unsigned `>=`, all ones where it holds and zero elsewhere (`vcge_u16`). -/
def vcge_u16 (a b : uint16x4_t) : uint16x4_t := fun i => if a i ≥ b i then 0xffff else 0

/-- Zero-extension of 16-bit lanes to 32-bit lanes (`vmovl_u16`). -/
def vmovl_u16 (a : uint16x4_t) : uint32x4_t := fun i => a i

/-- Broadcast of a float scalar (`v_f32`). -/
def v_f32 (c : Nat) : float32x4_t := fun _ => c

/-- Modelled from the spec: the helper `v_any_u16h` of `v_math.h` is not part of the sources;
it tells whether the predicate vector "has at least one lane set". -/
def v_any_u16h (c : uint16x4_t) : Bool := decide (∃ i, c i ≠ 0)

/-- Modelled from the spec: the helper `v_call_f32` of `v_math.h` is not part of the sources;
it merges per lane "using the predicate as a select mask: true → scalar-reference value,
false → fast-path value". -/
def v_call_f32 (f : Nat → Nat) (x y : float32x4_t) (p : uint32x4_t) : float32x4_t :=
  fun i => if p i ≠ 0 then f (x i) else y i

/-! ## The constant table -/

/-- The type of the constant table (`struct data`). -/
structure struct_data where
  /-- The bit-pattern offset. -/
  off : uint32x4_t
  /-- The smallest positive normal pattern, relative to the offset. -/
  offset_lower_bound : uint32x4_t
  /-- The threshold of the 16-bit comparison. -/
  special_bound : uint16x8_t
  /-- The mask of the 23 fraction bits. -/
  mantissa_mask : uint32x4_t
  /-- The seven polynomial coefficients. -/
  poly : Fin 7 → float32x4_t
  /-- The constant log 2. -/
  ln2 : float32x4_t

/-- The constant table (`data`). The initialiser `0x00800000 - 0x3f2aaaab` is a negative `int`
converted to `uint32_t`, hence reduced modulo `2^32`. -/
def data : struct_data where
  poly := fun k =>
    match k with
    | 0 => V4 (hexf true 0x13e737c 24 (-3))
    | 1 => V4 (hexf false 0x15a9aa2 24 (-3))
    | 2 => V4 (hexf true 0x14f9934 24 (-3))
    | 3 => V4 (hexf false 0x1961348 24 (-3))
    | 4 => V4 (hexf true 0x100187c 24 (-2))
    | 5 => V4 (hexf false 0x1555d7c 24 (-2))
    | 6 => V4 (hexf true 0x1ffffc8 24 (-2))
  ln2 := V4 (hexf false 0x162e43 20 (-1))
  offset_lower_bound := V4 (((0x00800000 : Int) - 0x3f2aaaab) % 2 ^ 32).toNat
  special_bound := V8 0x7f00
  off := V4 0x3f2aaaab
  mantissa_mask := V4 0x007fffff

/-- The coefficient accessor `#define P(i) d->poly[7 - i]`, used with `1 ≤ i ≤ 7`. -/
def P (d : struct_data) (i : Nat) : float32x4_t :=
  if h : 7 - i < 7 then d.poly ⟨7 - i, h⟩ else V4 0

/-! ## The routine -/

/-- The special-case handler `special_case`: fall back to the scalar `logf` in flagged lanes. -/
def special_case (logf : Nat → Nat) (p : float32x4_t) (u_off : uint32x4_t) (y r2 : float32x4_t)
    (cmp : uint16x4_t) (d : struct_data) : float32x4_t :=
  v_call_f32 logf (vreinterpretq_f32_u32 (vaddq_u32 u_off d.off)) (vfmaq_f32 p y r2)
    (vmovl_u16 cmp)

/-- The vector routine `V_NAME_F1 (log)`. -/
def V_NAME_F1_log (logf : Nat → Nat) (x : float32x4_t) : float32x4_t :=
  let d := data
  let u_off := vreinterpretq_u32_f32 x
  let u_off := vsubq_u32 u_off d.off
  let n := vcvtq_f32_s32 (vshrq_n_s32 (vreinterpretq_s32_u32 u_off) 23)
  let u := vandq_u32 u_off d.mantissa_mask
  let u := vaddq_u32 u d.off
  let r := vsubq_f32 (vreinterpretq_f32_u32 u) (v_f32 (hexf false 1 0 0))
  let cmp := vcge_u16 (vsubhn_u32 u_off d.offset_lower_bound) (vget_low_u16 d.special_bound)
  let r2 := vmulq_f32 r r
  let p := vfmaq_f32 (P d 5) (P d 6) r
  let q := vfmaq_f32 (P d 3) (P d 4) r
  let y := vfmaq_f32 (P d 1) (P d 2) r
  let p := vfmaq_f32 p (P d 7) r2
  let q := vfmaq_f32 q p r2
  let y := vfmaq_f32 y q r2
  let p := vfmaq_f32 r d.ln2 n
  if v_any_u16h cmp then special_case logf p u_off y r2 cmp d
  else vfmaq_f32 p y r2

/-! ## Intermediate values of the routine, as functions of the input vector -/

/-- The offset-adjusted patterns `u_off` after `vsubq_u32 (u_off, d->off)`. -/
def u_off_of (x : float32x4_t) : uint32x4_t := vsubq_u32 (vreinterpretq_u32_f32 x) data.off

/-- The exponents `n` as signed integers, before `vcvtq_f32_s32`. -/
def n_int_of (x : float32x4_t) : int32x4_t :=
  vshrq_n_s32 (vreinterpretq_s32_u32 (u_off_of x)) 23

/-- The exponents `n` as floats. -/
def n_of (x : float32x4_t) : float32x4_t := vcvtq_f32_s32 (n_int_of x)

/-- The reduced patterns `u` (the bits of `1 + r`). -/
def u_of (x : float32x4_t) : uint32x4_t :=
  vaddq_u32 (vandq_u32 (u_off_of x) data.mantissa_mask) data.off

/-- The reduced remainders `r`. -/
def r_of (x : float32x4_t) : float32x4_t :=
  vsubq_f32 (vreinterpretq_f32_u32 (u_of x)) (v_f32 (hexf false 1 0 0))

/-- The special-lane predicate `cmp`. -/
def cmp_of (x : float32x4_t) : uint16x4_t :=
  vcge_u16 (vsubhn_u32 (u_off_of x) data.offset_lower_bound) (vget_low_u16 data.special_bound)

/-- The fast-path value `vfmaq_f32 (p, y, r2)`, the result of the branch-free return. -/
def fast_of (x : float32x4_t) : float32x4_t :=
  let d := data
  let r := r_of x
  let n := n_of x
  let r2 := vmulq_f32 r r
  let p := vfmaq_f32 (P d 5) (P d 6) r
  let q := vfmaq_f32 (P d 3) (P d 4) r
  let y := vfmaq_f32 (P d 1) (P d 2) r
  let p := vfmaq_f32 p (P d 7) r2
  let q := vfmaq_f32 q p r2
  let y := vfmaq_f32 y q r2
  let p := vfmaq_f32 r d.ln2 n
  vfmaq_f32 p y r2

/-- The pattern is a positive normal finite float. -/
def posNormal (u : Nat) : Prop := 0x00800000 ≤ u ∧ u ≤ 0x7f7fffff

instance (u : Nat) : Decidable (posNormal u) := by unfold posNormal; infer_instance

/-! ## One lane of the routine, in closed form

The intrinsics are lane-wise, so every intermediate value of lane `i` is a function of the
input pattern `x i` alone; these are those functions, with the table constants written as bit
patterns. The theorems `*_lane` below prove that they are the lanes of the vector routine. -/

/-- One lane of `u_off`. -/
def lane_u_off (u : Nat) : Nat := ((2 ^ 32 - 0x3f2aaaab % 2 ^ 32) + u) % 2 ^ 32

/-- One lane of the exponent `n`, as a signed integer. -/
def lane_n (u : Nat) : Int :=
  (if lane_u_off u < 2 ^ 31 then (lane_u_off u : Int) else (lane_u_off u : Int) - 2 ^ 32) >>> (23 : Nat)

/-- One lane of the reduced pattern `u` (the bits of `1 + r`). -/
def lane_u (u : Nat) : Nat := (0x3f2aaaab + (lane_u_off u &&& 0x007fffff)) % 2 ^ 32

/-- One lane of the reduced remainder `r`. -/
def lane_r (u : Nat) : Nat := subf32 (lane_u u) 0x3f800000

/-- One lane of the predicate `cmp`. -/
def lane_cmp (u : Nat) : Nat :=
  if ((2 ^ 32 - 0xc1555555 % 2 ^ 32) + lane_u_off u) % 2 ^ 32 / 2 ^ 16 ≥ 0x7f00 then 0xffff
  else 0

/-- One lane of the polynomial part `y` before the last fused multiply-add. -/
def lane_y (u : Nat) : Nat :=
  let r := lane_r u
  let r2 := mulf32 r r
  let p := fmaf32 0xbe27cc9a 0x3e2d4d51 r
  let q := fmaf32 0xbe800c3e 0x3e4b09a4 r
  let y := fmaf32 0xbeffffe4 0x3eaaaebe r
  let p := fmaf32 p 0xbe1f39be r2
  let q := fmaf32 q p r2
  fmaf32 y q r2

/-- One lane of `p = r + ln2 * n`. -/
def lane_p (u : Nat) : Nat := fmaf32 (lane_r u) 0x3f317218 (cvtf32s32 (lane_n u))

/-- One lane of the fast-path value `p + y * r2`. -/
def lane_fast (u : Nat) : Nat := fmaf32 (lane_p u) (lane_y u) (mulf32 (lane_r u) (lane_r u))

/-- One lane of the result: the scalar reference on the restored pattern in a flagged lane, the
fast-path value in the others. -/
def lane_result (logf : Nat → Nat) (u : Nat) : Nat :=
  if lane_cmp u ≠ 0 then logf ((0x3f2aaaab + lane_u_off u) % 2 ^ 32) else lane_fast u

/-! ## A sample scalar reference -/

/-- A sample scalar reference, standard on the special values the scenarios use: `-inf` at
`+0`, `+inf` at `+inf`, the input itself at a NaN, and the default NaN elsewhere. -/
def logf_sample (u : Nat) : Nat :=
  if u = 0 then 0xff800000
  else if u = 0x7f800000 then 0x7f800000
  else if f32IsNaN u then u
  else f32DefaultNaN

/-! ## Accuracy against the exact logarithm -/

/-- The unit in the last place of binary32 at the magnitude of the real number `y`: the gap
between adjacent floats in the binade of `|y|` (the subnormal gap below `2^-126`). -/
noncomputable def ulp32 (y : ℝ) : ℝ := (2 : ℝ) ^ (max (Int.log 2 |y|) (-126) - 23)


/-! ## The fast path over an arbitrary arithmetic -/

/-- The chain of fused multiply-adds that computes the fast-path value of one lane, over an
arithmetic given by `fma a b c` (for `a + b * c`) and by the product `mul`: `P i` stands for
the macro `P (i)`, `ln2` for the table constant, `n` and `r` for the reduced exponent and
remainder. -/
def fast_chain {α : Type} (fma : α → α → α → α) (mul : α → α → α) (P : Nat → α)
    (ln2 n r : α) : α :=
  let r2 := mul r r
  let p := fma (P 5) (P 6) r
  let q := fma (P 3) (P 4) r
  let y := fma (P 1) (P 2) r
  let p := fma p (P 7) r2
  let q := fma q p r2
  let y := fma y q r2
  let p := fma r ln2 n
  fma p y r2

/-- The fast-path value over exact rational arithmetic, each fused multiply-add `a + b * c`
taken without rounding; `c k` stands for `poly[k]`, so that `P (i)` is `c (7 - i)`. -/
def fast_exact (c : Nat → ℚ) (ln2 n r : ℚ) : ℚ :=
  fast_chain (fun a b d => a + b * d) (fun a b => a * b) (fun i => c (7 - i)) ln2 n r

/-- The fast-path approximation of `log (1 + r)` as a polynomial in `r` over exact arithmetic:
the chain with the values of the table coefficients, at `n = 0`. -/
noncomputable def fast_poly : Polynomial ℚ :=
  fast_chain (fun a b d => a + b * d) (fun a b => a * b)
    (fun i => Polynomial.C (f32Val (P data i 0))) 0 0 Polynomial.X

/-! ## The polynomial of the fast path over exact arithmetic -/

/-- The polynomial part of the fast path over exact arithmetic,
`P1 + P2*r + r2*(P3 + P4*r + r2*(P5 + P6*r + P7*r2))` with `r2 = r*r`, each coefficient the
value of its table entry, in the order of the fused multiply-adds. -/
def poly_exact (r : ℚ) : ℚ :=
  (f32Val 0xbeffffe4 + f32Val 0x3eaaaebe * r)
    + ((f32Val 0xbe800c3e + f32Val 0x3e4b09a4 * r)
        + ((f32Val 0xbe27cc9a + f32Val 0x3e2d4d51 * r) + f32Val 0xbe1f39be * (r * r)) * (r * r))
      * (r * r)

/-- Value at the rational `x` of the polynomial with the integer coefficients `p`. -/
def polyEvalQ : List Int → ℚ → ℚ
  | [], _ => 0
  | a :: p, x => (a : ℚ) + x * polyEvalQ p x

/-- The polynomial `Q (r) = r + r^2 * (P1 + ...)` that the fast path evaluates for
`log (1 + r)`, over exact arithmetic. -/
def log_poly (r : ℚ) : ℚ := r + poly_exact r * (r * r)

/-! ## A certificate for the accuracy of the fast path

The approximation error of the polynomial is bounded on intervals of the reduced remainder
`r = X / 2^24` by a Taylor shift of the polynomial `T - Q`, where `T` is the Taylor polynomial
of `log (1 + r)` of degree 18 and `Q = r + r^2 * (P1 + ...)`; the bounds are evaluated in
exact integer and rational arithmetic. -/

/-- Value at `x` of the polynomial with the integer coefficients `p`, lowest degree first. -/
def polyEval : List Int → Int → Int
  | [], _ => 0
  | a :: p, x => a + x * polyEval p x

/-- Sum of two coefficient lists. -/
def polyAdd : List Int → List Int → List Int
  | [], q => q
  | a :: p, [] => a :: p
  | a :: p, b :: q => (a + b) :: polyAdd p q

/-- Coefficients of `s ↦ p (c + s)`. -/
def polyShift (c : Int) : List Int → List Int
  | [] => []
  | a :: p => polyAdd (polyAdd [a] ((polyShift c p).map (fun b => c * b))) (0 :: polyShift c p)

/-- The bound `sum |p_j| * h^j` on the polynomial `p` over `|s| <= h`. -/
def polyAbs : List Int → Int → Int
  | [], _ => 0
  | a :: p, h => (a.natAbs : Int) + h * polyAbs p h

/-- Coefficients of `X ↦ 2^(W * deg p) * p (X / 2^W)`. -/
def polyScale (W : Nat) : List Int → List Int
  | [] => []
  | a :: p => a * 2 ^ (W * p.length) :: polyScale W p

/-- The power `2^k` for an integer `k`, as a rational. -/
def pow2 (k : Int) : ℚ := if 0 ≤ k then ((2 ^ k.toNat : Nat) : ℚ) else 1 / ((2 ^ (-k).toNat : Nat) : ℚ)

/-- The coefficients of `LAM * 2^26 * (T - Q)`, `LAM = lcm (1..18)`. -/
def diffCoeffs : List Int := [0, 0, -686125440, -25566340800, 76797040320, 1415094512832, -2302449108960, -21693086260560, 25072959431520, 91359323095040, -82223390785536, 74748537077760, -68519492321280, 63248762142720, -58730993418240, 54815593857024, -51389619240960, 48366700462080, -45679661547520]

/-- The coefficients of `2^26 * Q`. -/
def polyCoeffs : List Int :=
  [0, 67108864, -33554376, 22371708, -16783484, 13306276, -10996890, 11357521, -10435006]

/-- The common denominator of `diffCoeffs`. -/
def diffDen : Nat := 12252240 * 2 ^ 26

/-- The polynomial `Q` at `X / 2^24`. -/
def polyAt (X : Int) : ℚ :=
  ((polyEval (polyScale 24 polyCoeffs) X : Int) : ℚ) / ((2 ^ (26 + 24 * 8) : Nat) : ℚ)

/-- Bound on `|T - Q|` over `|X - m| <= H` plus the Taylor remainder `3/2 * R^19`,
`R = (|m| + H) / 2^24`. -/
def errBound (m : Int) (H : Nat) : ℚ :=
  ((polyAbs (polyShift m (polyScale 24 diffCoeffs)) H : Int) : ℚ)
      / ((diffDen * 2 ^ (24 * 18) : Nat) : ℚ)
    + 3 / 2 * ((((m.natAbs + H : Nat) : ℚ) / ((2 ^ 24 : Nat) : ℚ)) ^ 19)

/-- One row of the certificate: an interval `|X - m| <= H` of `X = r * 2^24` with the
exponents used on it: `k2` for the square, and for each of `n = -1, 0, 1` the binade `kap` of
the logarithm, the exponent `kv` of `r + n * ln2` and the exponent `kt` of the result. -/
structure CertRow where
  m : Int
  H : Nat
  k2 : Int
  kapm : Int
  kvm : Int
  ktm : Int
  kap0 : Int
  kt0 : Int
  kapp : Int
  kvp : Int
  ktp : Int

/-- Lower bound on `log 2`. -/
def ln2Lo : ℚ := 6931471803 / 10000000000

/-- Upper bound on `log 2`. -/
def ln2Hi : ℚ := 6931471808 / 10000000000

/-- The table constant `ln2` as a rational. -/
def ln2Val : ℚ := 11629080 / 16777216

/-- Bound on the approximation error over the whole range of the remainder. -/
def errMax : ℚ := 11 / 134217728

/-- Bound on the round-off of `y * r2` for `|r| <= R` with `R^2 < 2^(k2+1)`. -/
def chainBound (R : ℚ) (k2 : Int) : ℚ := 3 / 4 * pow2 (k2 - 24) + R * R * (9 / 134217728)

/-- The budget for one exponent `n`: with `lam <= |L| <= lmax` for the logarithm `L` and `p3`
the rounding error of `r + n * ln2`, the errors sum to at most `9/2` units in the last place
of the binade `kap`. -/
def rowBudget (R eE : ℚ) (k2 : Int) (absn : ℚ) (p3 lam lmax : ℚ) (kap kt : Int) : Bool :=
  decide (-126 ≤ kap) && decide (-126 ≤ kt) && decide (kt ≤ 126)
    && decide (pow2 kap ≤ lam)
    && decide (lmax + (p3 + absn * (ln2Val - ln2Lo) + chainBound R k2 + eE) < pow2 (kt + 1))
    && decide (p3 + absn * (ln2Val - ln2Lo) + chainBound R k2 + eE + pow2 (kt - 24)
        ≤ 9 / 2 * pow2 (kap - 23))

/-- The check of one row. -/
def rowCheck (c : CertRow) : Bool :=
  let a : ℚ := ((c.m - c.H : Int) : ℚ) / 16777216
  let b : ℚ := ((c.m + c.H : Int) : ℚ) / 16777216
  let R : ℚ := ((c.m.natAbs + c.H : Nat) : ℚ) / 16777216
  let eE : ℚ := errBound c.m c.H
  let llo : ℚ := polyAt (c.m - c.H) - eE
  let lhi : ℚ := polyAt (c.m + c.H) + eE
  decide (3 * (c.m.natAbs + c.H) ≤ 16777216) && decide (eE ≤ errMax)
    && decide (-126 ≤ c.k2) && decide (c.k2 ≤ 126) && decide (R * R < pow2 (c.k2 + 1))
    && decide (-126 ≤ c.kvm) && decide (c.kvm ≤ 126) && decide (ln2Val - a < pow2 (c.kvm + 1))
    && rowBudget R eE c.k2 1 (pow2 (c.kvm - 24)) (ln2Lo - lhi) (ln2Hi - llo) c.kapm c.ktm
    && decide (-126 ≤ c.kvp) && decide (c.kvp ≤ 126) && decide (b + ln2Val < pow2 (c.kvp + 1))
    && rowBudget R eE c.k2 1 (pow2 (c.kvp - 24)) (ln2Lo + llo) (ln2Hi + lhi) c.kapp c.ktp
    && ((c.m = 0 && c.H = 0)
      || (decide (0 < c.m - c.H) && rowBudget R eE c.k2 0 0 llo lhi c.kap0 c.kt0)
      || (decide (c.m + c.H < 0) && rowBudget R eE c.k2 0 0 (-lhi) (-llo) c.kap0 c.kt0))

/-- The rows cover the integers from `lo` on without a gap; the result is the last one covered. -/
def rowsCover : List CertRow → Int → Option Int
  | [], lo => some (lo - 1)
  | c :: cs, lo => if c.m - c.H ≤ lo ∧ lo ≤ c.m + c.H + 1 then rowsCover cs (c.m + c.H + 1) else none

/-- The rows of the certificate. -/
def certRows : List CertRow := [⟨-5497745, 94660, -4, 0, 0, 0, -2, -2, -2, -2, -2⟩,
  ⟨-5329494, 73590, -4, 0, 0, 0, -2, -2, -2, -2, -2⟩,
  ⟨-5160966, 94938, -4, 0, 0, 0, -2, -2, -2, -2, -2⟩,
  ⟨-4884068, 181959, -4, 0, -1, 0, -2, -2, -2, -2, -2⟩,
  ⟨-4318332, 383776, -4, -1, -1, 0, -2, -2, -2, -2, -2⟩,
  ⟨-3773302, 161253, -5, -1, -1, -1, -3, -2, -2, -2, -2⟩,
  ⟨-2963437, 648611, -5, -1, -1, -1, -3, -3, -2, -1, -1⟩,
  ⟨-2067764, 247061, -6, -1, -1, -1, -4, -3, -1, -1, -1⟩,
  ⟨-1418592, 402111, -7, -1, -1, -1, -4, -4, -1, -1, -1⟩,
  ⟨-638294, 378187, -9, -1, -1, -1, -6, -4, -1, -1, -1⟩,
  ⟨-146438, 113668, -13, -1, -1, -1, -9, -7, -1, -1, -1⟩,
  ⟨-18433, 14337, -18, -1, -1, -1, -12, -9, -1, -1, -1⟩,
  ⟨-2176, 1919, -25, -1, -1, -1, -16, -13, -1, -1, -1⟩,
  ⟨-144, 112, -32, -1, -1, -1, -19, -16, -1, -1, -1⟩,
  ⟨-17, 14, -39, -1, -1, -1, -23, -20, -1, -1, -1⟩,
  ⟨-2, 1, -45, -1, -1, -1, -24, -23, -1, -1, -1⟩,
  ⟨0, 0, -126, -1, -1, -1, 0, 0, -1, -1, -1⟩,
  ⟨2, 1, -45, -1, -1, -1, -25, -23, -1, -1, -1⟩,
  ⟨18, 14, -38, -1, -1, -1, -23, -20, -1, -1, -1⟩,
  ⟨145, 112, -32, -1, -1, -1, -19, -16, -1, -1, -1⟩,
  ⟨2177, 1919, -24, -1, -1, -1, -16, -13, -1, -1, -1⟩,
  ⟨33200, 29103, -17, -1, -1, -1, -12, -9, -1, -1, -1⟩,
  ⟨163253, 100949, -12, -1, -1, -1, -9, -7, -1, -1, -1⟩,
  ⟨541070, 276867, -9, -1, -1, -1, -6, -5, -1, -1, -1⟩,
  ⟨1057213, 239275, -8, -1, -1, -1, -5, -4, -1, -1, -1⟩,
  ⟨1765173, 468685, -6, -1, -1, -1, -4, -4, -1, -1, -1⟩,
  ⟨2542231, 308372, -6, -1, -1, -1, -4, -3, -1, -1, -1⟩,
  ⟨3306782, 456179, -5, -2, -1, -1, -3, -3, -1, -1, -1⟩,
  ⟨4033971, 271009, -4, -2, -2, -2, -3, -3, -1, -1, -1⟩,
  ⟨4543282, 238302, -4, -2, -2, -2, -3, -2, -1, -1, -1⟩,
  ⟨4961474, 179889, -4, -2, -2, -2, -2, -2, -1, -1, -1⟩,
  ⟨5260285, 118921, -4, -2, -2, -2, -2, -2, -1, 0, -1⟩,
  ⟨5485805, 106599, -4, -2, -2, -2, -2, -2, -1, 0, -1⟩]

/-- The certificate holds: every row passes its check and the rows cover the whole range of
`X = r * 2^24`. -/
def certCheck : Bool :=
  certRows.all rowCheck
    && (match rowsCover certRows (-5592405) with
        | some hi => decide (5592404 ≤ hi)
        | none => false)

/-- The exponents used on a lane with `|n| = N`, `2 <= N <= 128`, as `(N, kap, kv, kt)`: the
binade `kap` of the logarithm, the exponent `kv` of `r + n * ln2` and the exponent `kt` of the
result. -/
def expRows : List (Nat × Int × Int × Int) :=
  [(2, -1, 0, 0), (3, 0, 1, 1), (4, 1, 1, 1), (5, 1, 1, 1), (6, 1, 2, 2), (7, 2, 2, 2),
   (8, 2, 2, 2), (9, 2, 2, 2), (10, 2, 2, 2), (11, 2, 2, 3), (12, 2, 3, 3), (13, 3, 3, 3),
   (14, 3, 3, 3), (15, 3, 3, 3), (16, 3, 3, 3), (17, 3, 3, 3), (18, 3, 3, 3), (19, 3, 3, 3),
   (20, 3, 3, 3), (21, 3, 3, 3), (22, 3, 3, 3), (23, 3, 4, 4), (24, 4, 4, 4), (25, 4, 4, 4),
   (26, 4, 4, 4), (27, 4, 4, 4), (28, 4, 4, 4), (29, 4, 4, 4), (30, 4, 4, 4), (31, 4, 4, 4),
   (32, 4, 4, 4), (33, 4, 4, 4), (34, 4, 4, 4), (35, 4, 4, 4), (36, 4, 4, 4), (37, 4, 4, 4),
   (38, 4, 4, 4), (39, 4, 4, 4), (40, 4, 4, 4), (41, 4, 4, 4), (42, 4, 4, 4), (43, 4, 4, 4),
   (44, 4, 4, 4), (45, 4, 4, 4), (46, 4, 5, 5), (47, 5, 5, 5), (48, 5, 5, 5), (49, 5, 5, 5),
   (50, 5, 5, 5), (51, 5, 5, 5), (52, 5, 5, 5), (53, 5, 5, 5), (54, 5, 5, 5), (55, 5, 5, 5),
   (56, 5, 5, 5), (57, 5, 5, 5), (58, 5, 5, 5), (59, 5, 5, 5), (60, 5, 5, 5), (61, 5, 5, 5),
   (62, 5, 5, 5), (63, 5, 5, 5), (64, 5, 5, 5), (65, 5, 5, 5), (66, 5, 5, 5), (67, 5, 5, 5),
   (68, 5, 5, 5), (69, 5, 5, 5), (70, 5, 5, 5), (71, 5, 5, 5), (72, 5, 5, 5), (73, 5, 5, 5),
   (74, 5, 5, 5), (75, 5, 5, 5), (76, 5, 5, 5), (77, 5, 5, 5), (78, 5, 5, 5), (79, 5, 5, 5),
   (80, 5, 5, 5), (81, 5, 5, 5), (82, 5, 5, 5), (83, 5, 5, 5), (84, 5, 5, 5), (85, 5, 5, 5),
   (86, 5, 5, 5), (87, 5, 5, 5), (88, 5, 5, 5), (89, 5, 5, 5), (90, 5, 5, 5), (91, 5, 5, 5),
   (92, 5, 6, 6), (93, 5, 6, 6), (94, 6, 6, 6), (95, 6, 6, 6), (96, 6, 6, 6), (97, 6, 6, 6),
   (98, 6, 6, 6), (99, 6, 6, 6), (100, 6, 6, 6), (101, 6, 6, 6), (102, 6, 6, 6), (103, 6, 6, 6),
   (104, 6, 6, 6), (105, 6, 6, 6), (106, 6, 6, 6), (107, 6, 6, 6), (108, 6, 6, 6),
   (109, 6, 6, 6), (110, 6, 6, 6), (111, 6, 6, 6), (112, 6, 6, 6), (113, 6, 6, 6),
   (114, 6, 6, 6), (115, 6, 6, 6), (116, 6, 6, 6), (117, 6, 6, 6), (118, 6, 6, 6),
   (119, 6, 6, 6), (120, 6, 6, 6), (121, 6, 6, 6), (122, 6, 6, 6), (123, 6, 6, 6),
   (124, 6, 6, 6), (125, 6, 6, 6), (126, 6, 6, 6), (127, 6, 6, 6), (128, 6, 6, 6)]

/-- The check of one row of exponents, over the whole range `|r| <= 1/3` of the remainder,
where `-1/2 <= log (1 + r) <= 1/2`. -/
def expCheck (e : Nat × Int × Int × Int) : Bool :=
  decide (-126 ≤ e.2.2.1) && decide (e.2.2.1 ≤ 126)
    && decide ((e.1 : ℚ) * ln2Val + 1 / 3 < pow2 (e.2.2.1 + 1))
    && rowBudget (1 / 3) errMax (-4) (e.1 : ℚ) (pow2 (e.2.2.1 - 24))
        ((e.1 : ℚ) * ln2Lo - 1 / 2) ((e.1 : ℚ) * ln2Hi + 1 / 2) e.2.1 e.2.2.2

/-- Every `N` from 2 to 128 has a row of exponents that passes its check. -/
def expAll : Bool :=
  (List.range 129).all (fun N => decide (N < 2) ||
    match expRows.find? (fun e => e.1 == N) with
    | some e => expCheck e
    | none => false)

/-! ## Theorems -/

/-! ## The constant table, evaluated -/

theorem data_off (i : Fin 4) : data.off i = 0x3f2aaaab := rfl

theorem data_mantissa_mask (i : Fin 4) : data.mantissa_mask i = 0x007fffff := rfl

theorem data_offset_lower_bound (i : Fin 4) : data.offset_lower_bound i = 0xc1555555 := by
  show (((0x00800000 : Int) - 0x3f2aaaab) % 2 ^ 32).toNat = 0xc1555555
  decide

theorem data_special_bound (i : Fin 4) : vget_low_u16 data.special_bound i = 0x7f00 := rfl

theorem data_ln2 (i : Fin 4) : data.ln2 i = 0x3f317218 := by
  show hexf false 0x162e43 20 (-1) = 0x3f317218
  decide

theorem one_bits : hexf false 1 0 0 = 0x3f800000 := by decide

theorem P_data_1 (i : Fin 4) : P data 1 i = 0xbeffffe4 := by
  show hexf true 0x1ffffc8 24 (-2) = 0xbeffffe4
  decide

theorem P_data_2 (i : Fin 4) : P data 2 i = 0x3eaaaebe := by
  show hexf false 0x1555d7c 24 (-2) = 0x3eaaaebe
  decide

theorem P_data_3 (i : Fin 4) : P data 3 i = 0xbe800c3e := by
  show hexf true 0x100187c 24 (-2) = 0xbe800c3e
  decide

theorem P_data_4 (i : Fin 4) : P data 4 i = 0x3e4b09a4 := by
  show hexf false 0x1961348 24 (-3) = 0x3e4b09a4
  decide

theorem P_data_5 (i : Fin 4) : P data 5 i = 0xbe27cc9a := by
  show hexf true 0x14f9934 24 (-3) = 0xbe27cc9a
  decide

theorem P_data_6 (i : Fin 4) : P data 6 i = 0x3e2d4d51 := by
  show hexf false 0x15a9aa2 24 (-3) = 0x3e2d4d51
  decide

theorem P_data_7 (i : Fin 4) : P data 7 i = 0xbe1f39be := by
  show hexf true 0x13e737c 24 (-3) = 0xbe1f39be
  decide

/-! ## Lane-wise shape of the routine -/

/-- The routine is its two branches over the intermediate values. -/
theorem V_NAME_F1_log_unfold (logf : Nat → Nat) (x : float32x4_t) :
    V_NAME_F1_log logf x =
      if v_any_u16h (cmp_of x) then
        v_call_f32 logf (vreinterpretq_f32_u32 (vaddq_u32 (u_off_of x) data.off)) (fast_of x)
          (vmovl_u16 (cmp_of x))
      else fast_of x := rfl

theorem u_off_of_lane (x : float32x4_t) (i : Fin 4) : u_off_of x i = lane_u_off (x i) := rfl

theorem cmp_of_lane (x : float32x4_t) (i : Fin 4) : cmp_of x i = lane_cmp (x i) := by
  simp only [cmp_of, vcge_u16, vsubhn_u32, data_offset_lower_bound, data_special_bound,
    u_off_of_lane, lane_cmp]

theorem n_int_of_lane (x : float32x4_t) (i : Fin 4) : n_int_of x i = lane_n (x i) := rfl

theorem n_of_lane (x : float32x4_t) (i : Fin 4) : n_of x i = cvtf32s32 (lane_n (x i)) := by
  simp only [n_of, vcvtq_f32_s32, n_int_of_lane]

theorem u_of_lane (x : float32x4_t) (i : Fin 4) : u_of x i = lane_u (x i) := rfl

theorem r_of_lane (x : float32x4_t) (i : Fin 4) : r_of x i = lane_r (x i) := by
  simp only [r_of, vsubq_f32, vreinterpretq_f32_u32, u_of_lane, v_f32, one_bits, lane_r]

theorem fast_of_lane (x : float32x4_t) (i : Fin 4) : fast_of x i = lane_fast (x i) := by
  simp only [fast_of, vfmaq_f32, vmulq_f32, r_of_lane, n_of_lane, P_data_1, P_data_2, P_data_3,
    P_data_4, P_data_5, P_data_6, P_data_7, data_ln2, lane_fast, lane_p, lane_y]

theorem V_NAME_F1_log_lane (logf : Nat → Nat) (x : float32x4_t) (i : Fin 4) :
    V_NAME_F1_log logf x i = lane_result logf (x i) := by
  rw [V_NAME_F1_log_unfold, lane_result, ← cmp_of_lane, ← u_off_of_lane, ← fast_of_lane]
  by_cases hany : v_any_u16h (cmp_of x) = true
  · rw [if_pos hany]
    simp only [v_call_f32, vmovl_u16, vreinterpretq_f32_u32, vaddq_u32, data_off]
  · rw [if_neg hany]
    have hi : cmp_of x i = 0 := by
      by_contra h
      exact hany (by simp only [v_any_u16h, decide_eq_true_eq]; exact ⟨i, h⟩)
    rw [if_neg (fun h => h hi)]

theorem lane_cmp_ne_zero_iff (u : Nat) (hu : u < 2 ^ 32) :
    lane_cmp u ≠ 0 ↔ (u < 0x00800000 ∨ 0x7f800000 ≤ u) := by
  simp only [lane_cmp, lane_u_off]
  split <;> omega

theorem lane_restore (u : Nat) (hu : u < 2 ^ 32) :
    (0x3f2aaaab + lane_u_off u) % 2 ^ 32 = u := by
  simp only [lane_u_off]
  omega
/-! ## The claims -/

/-- C1: for every 32-bit lane pattern `u = x i`, the special-lane predicate of the routine (the
top 16 bits of `((u - off) - offset_lower_bound) mod 2^32`, compared unsigned `>= 0x7f00`) is
set if and only if `u < 0x00800000` or `u >= 0x7f800000`, that is, if and only if `u` is not a
positive normal finite float. -/
theorem C1_special_iff_not_positive_normal (x : float32x4_t) (i : Fin 4) (hx : x i < 2 ^ 32) :
    (cmp_of x i ≠ 0 ↔
        0x7f00 ≤ ((2 ^ 32 - 0xc1555555) + ((2 ^ 32 - 0x3f2aaaab) + x i) % 2 ^ 32) % 2 ^ 32 / 2 ^ 16)
      ∧ (cmp_of x i ≠ 0 ↔ (x i < 0x00800000 ∨ 0x7f800000 ≤ x i))
      ∧ (cmp_of x i ≠ 0 ↔ ¬ posNormal (x i)) := by
  rw [cmp_of_lane]
  refine ⟨?_, lane_cmp_ne_zero_iff (x i) hx, ?_⟩
  · simp only [lane_cmp, lane_u_off]
    split <;> omega
  · rw [lane_cmp_ne_zero_iff (x i) hx]
    unfold posNormal
    omega

/-- C1 at the input `{0.0, 1.0, -1.0, +inf}`, lane 0. -/
theorem C1_special_iff_not_positive_normal_witness :
    (cmp_of ![0, 0x3f800000, 0xbf800000, 0x7f800000] 0 ≠ 0 ↔
        0x7f00 ≤ ((2 ^ 32 - 0xc1555555) + ((2 ^ 32 - 0x3f2aaaab) +
          (![0, 0x3f800000, 0xbf800000, 0x7f800000] : float32x4_t) 0) % 2 ^ 32) % 2 ^ 32 / 2 ^ 16)
      ∧ (cmp_of ![0, 0x3f800000, 0xbf800000, 0x7f800000] 0 ≠ 0 ↔
          ((![0, 0x3f800000, 0xbf800000, 0x7f800000] : float32x4_t) 0 < 0x00800000
            ∨ 0x7f800000 ≤ (![0, 0x3f800000, 0xbf800000, 0x7f800000] : float32x4_t) 0))
      ∧ (cmp_of ![0, 0x3f800000, 0xbf800000, 0x7f800000] 0 ≠ 0 ↔
          ¬ posNormal ((![0, 0x3f800000, 0xbf800000, 0x7f800000] : float32x4_t) 0)) :=
  C1_special_iff_not_positive_normal ![0, 0x3f800000, 0xbf800000, 0x7f800000] 0 (by decide)

/-- C9: for every 32-bit lane pattern, the value `special_case` passes to the scalar
reference, `((u - off) mod 2^32 + off) mod 2^32`, is the original pattern `u`. -/
theorem C9_offset_add_back_restores_input (x : float32x4_t) (i : Fin 4) (hx : x i < 2 ^ 32) :
    vreinterpretq_f32_u32
      (vaddq_u32 (vsubq_u32 (vreinterpretq_u32_f32 x) data.off) data.off) i = x i := by
  show (data.off i + u_off_of x i) % 2 ^ 32 = x i
  rw [data_off, u_off_of_lane]
  exact lane_restore (x i) hx

/-- C9 at the input `{0.0, 1.0, -1.0, +inf}`, lane 0, where the subtraction wraps. -/
theorem C9_offset_add_back_restores_input_witness :
    vreinterpretq_f32_u32
      (vaddq_u32 (vsubq_u32 (vreinterpretq_u32_f32 ![0, 0x3f800000, 0xbf800000, 0x7f800000])
        data.off) data.off) 0 = (![0, 0x3f800000, 0xbf800000, 0x7f800000] : float32x4_t) 0 :=
  C9_offset_add_back_restores_input ![0, 0x3f800000, 0xbf800000, 0x7f800000] 0 (by decide)
/-- C2: every lane whose value is zero, subnormal, negative, infinite or NaN receives exactly
the scalar reference `logf` applied to that lane's original bit pattern. Hence, for a reference
with `logf(0.0) = -inf`, `logf(-1.0)` a NaN, `logf(+inf) = +inf` and `logf(NaN)` a NaN, the
input `{0.0, -1.0, +inf, NaN}` gives `{-inf, NaN, +inf, NaN}`; and a subnormal lane among three
positive normal lanes receives the reference's value. -/
theorem C2_special_lanes_take_reference (logf : Nat → Nat) :
    (∀ (x : float32x4_t) (i : Fin 4), x i < 2 ^ 32 → (x i < 0x00800000 ∨ 0x7f800000 ≤ x i) →
        V_NAME_F1_log logf x i = logf (x i))
    ∧ (∀ q : Nat, q < 2 ^ 32 → f32IsNaN q = true →
        logf 0 = 0xff800000 → f32IsNaN (logf 0xbf800000) = true →
        logf 0x7f800000 = 0x7f800000 → f32IsNaN (logf q) = true →
        V_NAME_F1_log logf ![0, 0xbf800000, 0x7f800000, q] 0 = 0xff800000
        ∧ f32IsNaN (V_NAME_F1_log logf ![0, 0xbf800000, 0x7f800000, q] 1) = true
        ∧ V_NAME_F1_log logf ![0, 0xbf800000, 0x7f800000, q] 2 = 0x7f800000
        ∧ f32IsNaN (V_NAME_F1_log logf ![0, 0xbf800000, 0x7f800000, q] 3) = true)
    ∧ (∀ (x : float32x4_t) (i : Fin 4), 0 < x i → x i < 0x00800000 →
        (∀ j, j ≠ i → posNormal (x j)) → V_NAME_F1_log logf x i = logf (x i)) := by
  have key : ∀ (x : float32x4_t) (i : Fin 4), x i < 2 ^ 32 →
      (x i < 0x00800000 ∨ 0x7f800000 ≤ x i) → V_NAME_F1_log logf x i = logf (x i) := by
    intro x i hx hs
    rw [V_NAME_F1_log_lane, lane_result, if_pos ((lane_cmp_ne_zero_iff (x i) hx).mpr hs),
      lane_restore (x i) hx]
  refine ⟨key, ?_, ?_⟩
  · intro q hq hnan h0 hneg hinf hq'
    have hqs : 0x7f800000 ≤ q := by
      simp only [f32IsNaN, f32Exp, Bool.and_eq_true, decide_eq_true_eq] at hnan
      omega
    have e0 : V_NAME_F1_log logf ![0, 0xbf800000, 0x7f800000, q] 0 = logf 0 :=
      key ![0, 0xbf800000, 0x7f800000, q] 0
        (show (0 : Nat) < 2 ^ 32 by decide) (Or.inl (show (0 : Nat) < 0x00800000 by decide))
    have e1 : V_NAME_F1_log logf ![0, 0xbf800000, 0x7f800000, q] 1 = logf 0xbf800000 :=
      key ![0, 0xbf800000, 0x7f800000, q] 1
        (show (0xbf800000 : Nat) < 2 ^ 32 by decide)
        (Or.inr (show (0x7f800000 : Nat) ≤ 0xbf800000 by decide))
    have e2 : V_NAME_F1_log logf ![0, 0xbf800000, 0x7f800000, q] 2 = logf 0x7f800000 :=
      key ![0, 0xbf800000, 0x7f800000, q] 2
        (show (0x7f800000 : Nat) < 2 ^ 32 by decide)
        (Or.inr (show (0x7f800000 : Nat) ≤ 0x7f800000 by decide))
    have e3 : V_NAME_F1_log logf ![0, 0xbf800000, 0x7f800000, q] 3 = logf q :=
      key ![0, 0xbf800000, 0x7f800000, q] 3 hq (Or.inr hqs)
    rw [e0, e1, e2, e3]
    exact ⟨h0, hneg, hinf, hq'⟩
  · intro x i _ hsub _
    exact key x i (by omega) (Or.inl hsub)

/-- C2 with the sample reference: the input `{0.0, -1.0, +inf, NaN}`, and a subnormal lane
among three positive normal lanes. -/
theorem C2_special_lanes_take_reference_witness :
    V_NAME_F1_log logf_sample ![0, 0xbf800000, 0x7f800000, 0x7fc00000] 1
        = logf_sample ((![0, 0xbf800000, 0x7f800000, 0x7fc00000] : float32x4_t) 1)
    ∧ (V_NAME_F1_log logf_sample ![0, 0xbf800000, 0x7f800000, 0x7fc00000] 0 = 0xff800000
        ∧ f32IsNaN (V_NAME_F1_log logf_sample ![0, 0xbf800000, 0x7f800000, 0x7fc00000] 1) = true
        ∧ V_NAME_F1_log logf_sample ![0, 0xbf800000, 0x7f800000, 0x7fc00000] 2 = 0x7f800000
        ∧ f32IsNaN (V_NAME_F1_log logf_sample ![0, 0xbf800000, 0x7f800000, 0x7fc00000] 3) = true)
    ∧ V_NAME_F1_log logf_sample ![0x3f800000, 0x00000001, 0x40000000, 0x3f000000] 1
        = logf_sample ((![0x3f800000, 0x00000001, 0x40000000, 0x3f000000] : float32x4_t) 1) :=
  ⟨(C2_special_lanes_take_reference logf_sample).1 _ 1 (by decide) (Or.inr (by decide)),
    (C2_special_lanes_take_reference logf_sample).2.1 0x7fc00000 (by decide) (by decide)
      (by decide) (by decide) (by decide) (by decide),
    (C2_special_lanes_take_reference logf_sample).2.2 _ 1 (by decide) (by decide) (by decide)⟩

/-- C4: when at least one lane is flagged, the result is the lane-wise select of the
special-case handler: a flagged lane takes the scalar reference at the restored pattern, and
every lane that is not flagged takes the unchanged fast-path value `vfmaq_f32 (p, y, r2)`,
which is the value the routine returns for that lane when no lane is flagged. -/
theorem C4_unflagged_lanes_keep_fast_path (logf : Nat → Nat) (x : float32x4_t)
    (hany : v_any_u16h (cmp_of x) = true) :
    V_NAME_F1_log logf x
        = (fun i => if cmp_of x i ≠ 0
            then logf (vreinterpretq_f32_u32 (vaddq_u32 (u_off_of x) data.off) i)
            else fast_of x i)
    ∧ (∀ i, cmp_of x i = 0 → V_NAME_F1_log logf x i = fast_of x i)
    ∧ (∀ (x' : float32x4_t) (i : Fin 4), cmp_of x i = 0 → x' i = x i →
        v_any_u16h (cmp_of x') = false →
        V_NAME_F1_log logf x i = V_NAME_F1_log logf x' i) := by
  have hsel : V_NAME_F1_log logf x
      = (fun i => if cmp_of x i ≠ 0
          then logf (vreinterpretq_f32_u32 (vaddq_u32 (u_off_of x) data.off) i)
          else fast_of x i) := by
    rw [V_NAME_F1_log_unfold, if_pos hany]
    rfl
  refine ⟨hsel, ?_, ?_⟩
  · intro i hi
    rw [hsel]
    exact if_neg (fun h => h hi)
  · intro x' i _ hx' _
    rw [V_NAME_F1_log_lane, V_NAME_F1_log_lane, hx']

/-- C4 at the input `{1.0, 0.0, 2.0, 4.0}`, whose lane 1 is flagged. -/
theorem C4_unflagged_lanes_keep_fast_path_witness :
    V_NAME_F1_log logf_sample ![0x3f800000, 0, 0x40000000, 0x40800000]
        = (fun i => if cmp_of ![0x3f800000, 0, 0x40000000, 0x40800000] i ≠ 0
            then logf_sample (vreinterpretq_f32_u32
              (vaddq_u32 (u_off_of ![0x3f800000, 0, 0x40000000, 0x40800000]) data.off) i)
            else fast_of ![0x3f800000, 0, 0x40000000, 0x40800000] i)
    ∧ V_NAME_F1_log logf_sample ![0x3f800000, 0, 0x40000000, 0x40800000] 2
        = fast_of ![0x3f800000, 0, 0x40000000, 0x40800000] 2
    ∧ V_NAME_F1_log logf_sample ![0x3f800000, 0, 0x40000000, 0x40800000] 2
        = V_NAME_F1_log logf_sample ![0x3f800000, 0x3f800000, 0x40000000, 0x40800000] 2 :=
  ⟨(C4_unflagged_lanes_keep_fast_path logf_sample _ (by decide)).1,
    (C4_unflagged_lanes_keep_fast_path logf_sample _ (by decide)).2.1 2 (by decide),
    (C4_unflagged_lanes_keep_fast_path logf_sample _ (by decide)).2.2
      ![0x3f800000, 0x3f800000, 0x40000000, 0x40800000] 2 (by decide) (by decide) (by decide)⟩

/-- C5: lane independence. If two input vectors agree in every lane other than `i`, the two
results agree in every lane other than `i`, also when the differing lane switches the call
between the branch-free return and the special-case handler. -/
theorem C5_lane_independence (logf : Nat → Nat) (a b : float32x4_t) (i j : Fin 4)
    (hab : ∀ k, k ≠ i → a k = b k) (hj : j ≠ i) :
    V_NAME_F1_log logf a j = V_NAME_F1_log logf b j := by
  rw [V_NAME_F1_log_lane, V_NAME_F1_log_lane, hab j hj]

/-- C5 at `{1.0, 2.0, 4.0, 0.5}` against `{1.0, 0.0, 4.0, 0.5}`: lane 1 switches the call to
the special-case handler, lane 0 is unchanged. -/
theorem C5_lane_independence_witness :
    V_NAME_F1_log logf_sample ![0x3f800000, 0x40000000, 0x40800000, 0x3f000000] 0
      = V_NAME_F1_log logf_sample ![0x3f800000, 0, 0x40800000, 0x3f000000] 0 :=
  C5_lane_independence logf_sample _ _ 1 0 (by decide) (by decide)
/-! ## Range reduction on positive normal patterns -/

/-- The fields of the value of a pattern with a clear sign bit and a nonzero exponent field. -/
theorem f32Val_of_fields (u E M : Nat) (hE : 1 ≤ E) (hE' : E ≤ 254) (hM : M < 2 ^ 23)
    (hu : u = E * 2 ^ 23 + M) :
    f32Val u = ((2 ^ 23 + M : Nat) : ℚ) * (2 : ℚ) ^ ((E : Int) - 150) := by
  have hexp : f32Exp u = E := by
    unfold f32Exp
    omega
  have hman : f32Man u = M := by
    unfold f32Man
    omega
  have hsign : f32Sign u = false := by
    unfold f32Sign
    have h0 : u / 2 ^ 31 % 2 = 0 := by omega
    rw [h0]
    decide
  have hE0 : E ≠ 0 := by omega
  simp only [f32Val, f32SInt, f32Sig, f32Scale, hexp, hman, hsign, hE0, if_false,
    Bool.false_eq_true, Int.cast_natCast]

/-- The reducer on a positive normal pattern, by fields: the exponent and the reduced pattern
as functions of the exponent field `E` and the fraction field `M`. -/
theorem lane_reduce_fields (u : Nat) (h : posNormal u) :
    (0x2aaaab ≤ u % 2 ^ 23 →
      lane_n u = (u / 2 ^ 23 : Nat) - 126 ∧ lane_u u = 126 * 2 ^ 23 + u % 2 ^ 23)
    ∧ (u % 2 ^ 23 < 0x2aaaab →
      lane_n u = (u / 2 ^ 23 : Nat) - 127 ∧ lane_u u = 127 * 2 ^ 23 + u % 2 ^ 23) := by
  unfold posNormal at h
  have hmask : lane_u_off u &&& 0x007fffff = lane_u_off u % 2 ^ 23 :=
    Nat.and_pow_two_sub_one_eq_mod (lane_u_off u) 23
  have hshift : ∀ z : Int, z >>> (23 : Nat) = z / 8388608 := by
    intro z
    rw [Int.shiftRight_eq_div_pow]
    norm_num
  simp only [lane_n, lane_u, hmask, hshift]
  simp only [lane_u_off]
  constructor
  · intro hM
    constructor
    · split <;> omega
    · omega
  · intro hM
    constructor
    · split <;> omega
    · omega

/-! ## Exactness of the reduced remainder -/

/-- The halving loop computes the floor of the base-2 logarithm, given enough fuel. -/
theorem ilog2Aux_spec (fuel n : Nat) (hf : n ≤ fuel) (hn : 1 ≤ n) :
    2 ^ ilog2Aux fuel n ≤ n ∧ n < 2 ^ (ilog2Aux fuel n + 1) := by
  induction fuel generalizing n with
  | zero => omega
  | succ fuel ih =>
    unfold ilog2Aux
    by_cases h2 : n < 2
    · rw [if_pos h2]
      constructor
      · simpa using hn
      · simpa using h2
    · rw [if_neg h2]
      obtain ⟨h1, h3⟩ := ih (n / 2) (by omega) (by omega)
      constructor
      · rw [pow_succ]
        omega
      · rw [pow_succ]
        omega

/-- The floor of the base-2 logarithm of a positive number. -/
theorem ilog2_spec (n : Nat) (hn : 1 ≤ n) : 2 ^ ilog2 n ≤ n ∧ n < 2 ^ (ilog2 n + 1) :=
  ilog2Aux_spec n n le_rfl hn

/-- A pattern built from a sign, an exponent field between 1 and 254 and a significand with
its leading bit: its fields and its value. -/
theorem f32Val_withSign (neg : Bool) (B mant : Nat) (hB : B + 1 ≤ 254) (h1 : 2 ^ 23 ≤ mant)
    (h2 : mant < 2 ^ 24) :
    f32Exp (f32WithSign neg (B * 2 ^ 23 + mant)) = B + 1
      ∧ f32Val (f32WithSign neg (B * 2 ^ 23 + mant))
          = (if neg then -1 else 1) * (mant : ℚ) * (2 : ℚ) ^ ((B : Int) + 1 - 150) := by
  have hexp : f32Exp (f32WithSign neg (B * 2 ^ 23 + mant)) = B + 1 := by
    unfold f32Exp f32WithSign
    split <;> omega
  have hman : f32Man (f32WithSign neg (B * 2 ^ 23 + mant)) = mant - 2 ^ 23 := by
    unfold f32Man f32WithSign
    split <;> omega
  have hsign : f32Sign (f32WithSign neg (B * 2 ^ 23 + mant)) = neg := by
    unfold f32Sign f32WithSign
    cases neg
    · have h0 : (B * 2 ^ 23 + mant) / 2 ^ 31 % 2 = 0 := by omega
      rw [if_neg (by decide), h0]
      decide
    · have h0 : (2 ^ 31 + (B * 2 ^ 23 + mant)) / 2 ^ 31 % 2 = 1 := by omega
      rw [if_pos rfl, h0]
      decide
  refine ⟨hexp, ?_⟩
  have hsig : f32Sig (f32WithSign neg (B * 2 ^ 23 + mant)) = mant := by
    unfold f32Sig
    rw [hexp, hman, if_neg (by omega)]
    omega
  have hscale : f32Scale (f32WithSign neg (B * 2 ^ 23 + mant)) = (B : Int) + 1 - 150 := by
    unfold f32Scale
    rw [hexp, if_neg (by omega)]
    push_cast
    ring
  unfold f32Val f32SInt
  rw [hsign, hsig, hscale]
  cases neg <;> simp

/-- Rounding is exact on a significand below `2^24` whose value lies in the normal range: the
result is a normal pattern of the value `±N * 2^e`. -/
theorem f32Round_exact (neg : Bool) (N : Nat) (e : Int) (hN1 : 1 ≤ N) (hN : N < 2 ^ 24)
    (hlo : -126 ≤ (ilog2 N : Int) + e) (hhi : (ilog2 N : Int) + e ≤ 127) :
    f32Exp (f32Round neg N e) = ((ilog2 N : Int) + e + 127).toNat
      ∧ f32Val (f32Round neg N e) = (if neg then -1 else 1) * (N : ℚ) * (2 : ℚ) ^ e := by
  obtain ⟨hL1, hL2⟩ := ilog2_spec N hN1
  have hL : ilog2 N ≤ 23 := by
    by_contra hc
    have : 2 ^ 24 ≤ 2 ^ ilog2 N := Nat.pow_le_pow_right (by norm_num) (by omega)
    omega
  obtain ⟨L, hLdef⟩ : ∃ L, ilog2 N = L := ⟨_, rfl⟩
  rw [hLdef] at hL1 hL2 hL hlo hhi ⊢
  have hq : max ((L : Int) + e) (-126) - 23 = (L : Int) + e - 23 := by
    rw [max_eq_left hlo]
  have hsh : (e - ((L : Int) + e - 23)).toNat = 23 - L := by omega
  have hB : (((L : Int) + e - 23) + 149).toNat = ((L : Int) + e + 126).toNat := by
    congr 1
    ring
  have hm1 : 2 ^ 23 ≤ N * 2 ^ (23 - L) := by
    calc 2 ^ 23 = 2 ^ L * 2 ^ (23 - L) := by rw [← pow_add]; congr 1; omega
      _ ≤ N * 2 ^ (23 - L) := Nat.mul_le_mul_right _ hL1
  have hm2 : N * 2 ^ (23 - L) < 2 ^ 24 := by
    calc N * 2 ^ (23 - L) < 2 ^ (L + 1) * 2 ^ (23 - L) :=
          Nat.mul_lt_mul_of_pos_right hL2 (by positivity)
      _ = 2 ^ 24 := by rw [← pow_add]; congr 1; omega
  have hres : f32Round neg N e
      = f32WithSign neg (((L : Int) + e + 126).toNat * 2 ^ 23 + N * 2 ^ (23 - L)) := by
    unfold f32Round
    simp only [hLdef, hq, hsh, hB]
    rw [if_pos (show (L : Int) + e - 23 ≤ e by omega)]
    have hb : ¬ (((L : Int) + e + 126).toNat * 2 ^ 23 + N * 2 ^ (23 - L) ≥ f32PosInf) := by
      unfold f32PosInf
      have : ((L : Int) + e + 126).toNat ≤ 253 := by omega
      omega
    rw [if_neg hb]
  obtain ⟨hexp, hval⟩ := f32Val_withSign neg ((L : Int) + e + 126).toNat (N * 2 ^ (23 - L))
    (by omega) hm1 hm2
  rw [hres, hexp, hval]
  constructor
  · omega
  · have hz : (((L : Int) + e + 126).toNat : Int) + 1 - 150 = e - ((23 - L : Nat) : Int) := by
      rw [Int.toNat_of_nonneg (by omega)]
      omega
    rw [hz, zpow_sub₀ (by norm_num : (2 : ℚ) ≠ 0), zpow_natCast]
    push_cast
    field_simp
    cases neg <;> simp <;> ring

/-- The fields of `1.0`. -/
theorem one_fields : f32IsSNaN 0x3f800000 = false ∧ f32IsNaN 0x3f800000 = false
    ∧ f32IsInf 0x3f800000 = false ∧ f32Scale 0x3f800000 = -23 ∧ f32SInt 0x3f800000 = 2 ^ 23
    ∧ f32Sign 0x3f800000 = false := by decide

/-- The subtraction `m - 1.0` is exact on the range of the reduced pattern: the remainder
`r` has the value `value(m) - 1`, and it is `+0.0` or a normal number. -/
theorem subf32_one_exact (m : Nat) (hlo : 0x3f2aaaab ≤ m) (hhi : m ≤ 0x3faaaaaa) :
    f32Val (subf32 m 0x3f800000) = f32Val m - 1
      ∧ (subf32 m 0x3f800000 = 0
          ∨ (1 ≤ f32Exp (subf32 m 0x3f800000) ∧ f32Exp (subf32 m 0x3f800000) ≤ 127)) := by
  obtain ⟨o1, o2, o3, o4, o5, o6⟩ := one_fields
  have hsign : f32Sign m = false := by
    unfold f32Sign
    have h0 : m / 2 ^ 31 % 2 = 0 := by omega
    rw [h0]
    decide
  by_cases hc : m < 0x3f800000
  · obtain ⟨M, hM⟩ : ∃ M, m = 126 * 2 ^ 23 + M := ⟨m - 126 * 2 ^ 23, by omega⟩
    have hMlt : M < 2 ^ 23 := by omega
    have hMlo : 0x2aaaab ≤ M := by omega
    have hv := f32Val_of_fields m 126 M (by norm_num) (by norm_num) hMlt hM
    have hexp : f32Exp m = 126 := by
      unfold f32Exp
      omega
    have hman : f32Man m = M := by
      unfold f32Man
      omega
    have hnan : f32IsNaN m = false := by simp [f32IsNaN, hexp]
    have hsnan : f32IsSNaN m = false := by simp [f32IsSNaN, hnan]
    have hinf : f32IsInf m = false := by simp [f32IsInf, hexp]
    have hscale : f32Scale m = -24 := by simp [f32Scale, hexp]
    have hsint : f32SInt m = 2 ^ 23 + (M : Int) := by
      simp [f32SInt, hsign, f32Sig, hexp, hman]
    have hT : (2 ^ 23 + (M : Int)) * 2 ^ ((-24 : Int) - -24).toNat
        - 2 ^ 23 * 2 ^ ((-23 : Int) - -24).toNat = (M : Int) - 2 ^ 23 := by
      have h1 : ((-24 : Int) - -24).toNat = 0 := by decide
      have h2 : ((-23 : Int) - -24).toNat = 1 := by decide
      rw [h1, h2]
      ring
    have hmin : min (-24 : Int) (-23) = -24 := by decide
    have hsub : subf32 m 0x3f800000 = f32Round true (2 ^ 23 - M) (-24) := by
      unfold subf32
      simp only [hsnan, hnan, hinf, o1, o2, o3, o4, o5, o6, hscale, hsint, hsign, hmin]
      rw [hT]
      unfold f32OfInt
      have hne : ¬ ((M : Int) - 2 ^ 23 = 0) := by omega
      have hneg : decide ((M : Int) - 2 ^ 23 < 0) = true := by
        rw [decide_eq_true_eq]
        omega
      have habs : ((M : Int) - 2 ^ 23).natAbs = 2 ^ 23 - M := by omega
      simp only [hne, hneg, habs, if_false, Bool.false_eq_true]
    obtain ⟨hL1, hL2⟩ := ilog2_spec (2 ^ 23 - M) (by omega)
    have hLhi : ilog2 (2 ^ 23 - M) ≤ 23 := by
      by_contra hcon
      have : 2 ^ 24 ≤ 2 ^ ilog2 (2 ^ 23 - M) := Nat.pow_le_pow_right (by norm_num) (by omega)
      omega
    obtain ⟨he, hval⟩ := f32Round_exact true (2 ^ 23 - M) (-24) (by omega) (by omega)
      (by omega) (by omega)
    rw [hsub]
    refine ⟨?_, Or.inr ?_⟩
    · rw [hval, hv]
      have hp : (2 : ℚ) ^ (((126 : Nat) : Int) - 150) = 1 / 16777216 := by norm_num
      have hq : (2 : ℚ) ^ (-24 : Int) = 1 / 16777216 := by norm_num
      rw [hp, hq, Nat.cast_sub (by omega), if_pos rfl]
      push_cast
      ring
    · rw [he]
      omega
  · obtain ⟨M, hM⟩ : ∃ M, m = 127 * 2 ^ 23 + M := ⟨m - 127 * 2 ^ 23, by omega⟩
    have hMlt : M < 2 ^ 23 := by omega
    have hv := f32Val_of_fields m 127 M (by norm_num) (by norm_num) hMlt hM
    have hexp : f32Exp m = 127 := by
      unfold f32Exp
      omega
    have hman : f32Man m = M := by
      unfold f32Man
      omega
    have hnan : f32IsNaN m = false := by simp [f32IsNaN, hexp]
    have hsnan : f32IsSNaN m = false := by simp [f32IsSNaN, hnan]
    have hinf : f32IsInf m = false := by simp [f32IsInf, hexp]
    have hscale : f32Scale m = -23 := by simp [f32Scale, hexp]
    have hsint : f32SInt m = 2 ^ 23 + (M : Int) := by
      simp [f32SInt, hsign, f32Sig, hexp, hman]
    have hT : (2 ^ 23 + (M : Int)) * 2 ^ ((-23 : Int) - -23).toNat
        - 2 ^ 23 * 2 ^ ((-23 : Int) - -23).toNat = (M : Int) := by
      have h1 : ((-23 : Int) - -23).toNat = 0 := by decide
      rw [h1]
      ring
    have hmin : min (-23 : Int) (-23) = -23 := by decide
    have hsub : subf32 m 0x3f800000 = f32OfInt (M : Int) (-23) false := by
      unfold subf32
      simp only [hsnan, hnan, hinf, o1, o2, o3, o4, o5, o6, hscale, hsint, hsign, hmin,
        if_false, Bool.false_eq_true, Bool.and_self, Bool.not_false, Bool.false_and]
      rw [hT]
    rw [hsub]
    have hp : (2 : ℚ) ^ (((127 : Nat) : Int) - 150) = 1 / 8388608 := by norm_num
    by_cases hz : M = 0
    · subst hz
      have h0 : f32OfInt ((0 : Nat) : Int) (-23) false = 0 := by decide
      rw [h0]
      refine ⟨?_, Or.inl rfl⟩
      rw [hv, hp]
      have hs0 : f32SInt 0 = 0 := by decide
      have : f32Val 0 = 0 := by
        unfold f32Val
        rw [hs0]
        simp
      rw [this]
      norm_num
    · have hof : f32OfInt (M : Int) (-23) false = f32Round false M (-23) := by
        unfold f32OfInt
        have hne : ¬ ((M : Int) = 0) := by omega
        have hneg : decide ((M : Int) < 0) = false := by
          rw [decide_eq_false_iff_not]
          omega
        simp only [hne, hneg, if_false, Int.natAbs_ofNat]
      obtain ⟨hL1, hL2⟩ := ilog2_spec M (by omega)
      have hLhi : ilog2 M ≤ 22 := by
        by_contra hcon
        have : 2 ^ 23 ≤ 2 ^ ilog2 M := Nat.pow_le_pow_right (by norm_num) (by omega)
        omega
      obtain ⟨he, hval⟩ := f32Round_exact false M (-23) (by omega) (by omega)
        (by omega) (by omega)
      rw [hof]
      refine ⟨?_, Or.inr ?_⟩
      · rw [hval, hv, hp]
        have hq : (2 : ℚ) ^ (-23 : Int) = 1 / 8388608 := by norm_num
        rw [hq, if_neg (by decide)]
        push_cast
        ring
      · rw [he]
        omega

/-- C3: for every positive normal finite pattern `u = x i`, the reducer's exponent `n` (the
signed, sign-extending shift of `(u - off) mod 2^32` by 23) and reduced pattern
`m = (((u - off) mod 2^32) & 0x007fffff) + off` satisfy `value(u) = 2^n * value(m)` exactly as
rational numbers, `m` is again a positive normal pattern, and the remainder `r = m - 1.0f` is
computed without rounding: `1 + value(r) = value(m)`. -/
theorem C3_range_reduction_exact (x : float32x4_t) (i : Fin 4) (h : posNormal (x i)) :
    f32Val (x i) = (2 : ℚ) ^ (n_int_of x i) * f32Val (u_of x i) ∧ posNormal (u_of x i)
      ∧ 1 + f32Val (r_of x i) = f32Val (u_of x i) := by
  rw [n_int_of_lane, u_of_lane, r_of_lane]
  have hf := lane_reduce_fields (x i) h
  have hp := h
  unfold posNormal at hp
  have hM : x i % 2 ^ 23 < 2 ^ 23 := Nat.mod_lt _ (by norm_num)
  have hE1 : 1 ≤ x i / 2 ^ 23 := by omega
  have hE2 : x i / 2 ^ 23 ≤ 254 := by omega
  have hu : x i = x i / 2 ^ 23 * 2 ^ 23 + x i % 2 ^ 23 := by omega
  have hv := f32Val_of_fields (x i) (x i / 2 ^ 23) (x i % 2 ^ 23) hE1 hE2 hM hu
  by_cases hc : 0x2aaaab ≤ x i % 2 ^ 23
  · obtain ⟨hn, hm⟩ := hf.1 hc
    have hvm := f32Val_of_fields (lane_u (x i)) 126 (x i % 2 ^ 23) (by norm_num) (by norm_num)
      hM hm
    refine ⟨?_, ?_, ?_⟩
    · rw [hv, hvm, hn, mul_left_comm, ← zpow_add₀ (by norm_num : (2 : ℚ) ≠ 0)]
      congr 2
      push_cast
      ring
    · unfold posNormal
      omega
    · unfold lane_r
      rw [(subf32_one_exact (lane_u (x i)) (by omega) (by omega)).1]
      ring
  · obtain ⟨hn, hm⟩ := hf.2 (by omega)
    have hvm := f32Val_of_fields (lane_u (x i)) 127 (x i % 2 ^ 23) (by norm_num) (by norm_num)
      hM hm
    refine ⟨?_, ?_, ?_⟩
    · rw [hv, hvm, hn, mul_left_comm, ← zpow_add₀ (by norm_num : (2 : ℚ) ≠ 0)]
      congr 2
      push_cast
      ring
    · unfold posNormal
      omega
    · unfold lane_r
      rw [(subf32_one_exact (lane_u (x i)) (by omega) (by omega)).1]
      ring

/-- C3 at the input `{3.0, 1.0, 0.75, 100.0}`, lane 0. -/
theorem C3_range_reduction_exact_witness :
    f32Val ((![0x40400000, 0x3f800000, 0x3f400000, 0x42c80000] : float32x4_t) 0)
        = (2 : ℚ) ^ (n_int_of ![0x40400000, 0x3f800000, 0x3f400000, 0x42c80000] 0)
          * f32Val (u_of ![0x40400000, 0x3f800000, 0x3f400000, 0x42c80000] 0)
      ∧ posNormal (u_of ![0x40400000, 0x3f800000, 0x3f400000, 0x42c80000] 0)
      ∧ 1 + f32Val (r_of ![0x40400000, 0x3f800000, 0x3f400000, 0x42c80000] 0)
          = f32Val (u_of ![0x40400000, 0x3f800000, 0x3f400000, 0x42c80000] 0) :=
  C3_range_reduction_exact ![0x40400000, 0x3f800000, 0x3f400000, 0x42c80000] 0 (by decide)
/-! ## Evaluations of the fast path -/

set_option maxRecDepth 100000 in
/-- The fast path at `1.0` is `+0.0`. -/
theorem lane_fast_one : lane_fast 0x3f800000 = 0 := by decide

/-- C7: a lane equal to `1.0` (pattern `0x3f800000`), in any position and whatever the other
lanes hold, is not flagged, reduces to `n = 0` and `r = +0.0`, and its result is exactly
`+0.0` (pattern `0`). -/
theorem C7_log_one_is_zero (logf : Nat → Nat) (x : float32x4_t) (i : Fin 4)
    (h : x i = 0x3f800000) :
    cmp_of x i = 0 ∧ n_int_of x i = 0 ∧ n_of x i = 0 ∧ u_of x i = 0x3f800000 ∧ r_of x i = 0
      ∧ V_NAME_F1_log logf x i = 0 := by
  rw [cmp_of_lane, n_int_of_lane, n_of_lane, u_of_lane, r_of_lane, V_NAME_F1_log_lane, h]
  have hc : lane_cmp 0x3f800000 = 0 := by decide
  refine ⟨hc, by decide, by decide, by decide, by decide, ?_⟩
  rw [lane_result, if_neg (fun hne => hne hc)]
  exact lane_fast_one

/-- C7 at the input `{0.0, 1.0, NaN, 2.0}`, lane 1, next to two flagged lanes. -/
theorem C7_log_one_is_zero_witness :
    cmp_of ![0, 0x3f800000, 0x7fc00000, 0x40000000] 1 = 0
      ∧ n_int_of ![0, 0x3f800000, 0x7fc00000, 0x40000000] 1 = 0
      ∧ n_of ![0, 0x3f800000, 0x7fc00000, 0x40000000] 1 = 0
      ∧ u_of ![0, 0x3f800000, 0x7fc00000, 0x40000000] 1 = 0x3f800000
      ∧ r_of ![0, 0x3f800000, 0x7fc00000, 0x40000000] 1 = 0
      ∧ V_NAME_F1_log logf_sample ![0, 0x3f800000, 0x7fc00000, 0x40000000] 1 = 0 :=
  C7_log_one_is_zero logf_sample ![0, 0x3f800000, 0x7fc00000, 0x40000000] 1 (by decide)
/-- On a positive normal lane the result is the fast-path value. -/
theorem lane_result_of_posNormal (logf : Nat → Nat) (u : Nat) (h : posNormal u) :
    lane_result logf u = lane_fast u := by
  unfold posNormal at h
  have hc : lane_cmp u = 0 := by
    by_contra hne
    have := (lane_cmp_ne_zero_iff u (by omega)).mp hne
    omega
  rw [lane_result, if_neg (fun hne => hne hc)]

/-- Bounds on the natural logarithm of the value of `0x3f2ab94c`. -/
theorem log_worst_bounds :
    -(135939173 / 335544320 : ℝ) < Real.log (2797139 / 4194304)
      ∧ Real.log (2797139 / 4194304) < -(135939172 / 335544320 : ℝ) := by
  have hx : (0 : ℝ) < 2797139 / 4194304 := by norm_num
  constructor
  · rw [Real.lt_log_iff_exp_lt hx, Real.exp_neg]
    have hs := Real.sum_le_exp_of_nonneg (x := (135939173 / 335544320 : ℝ)) (by norm_num) 10
    have hpos : (0 : ℝ) < Real.exp (135939173 / 335544320) := Real.exp_pos _
    rw [inv_lt_comm₀ hpos hx]
    refine lt_of_lt_of_le ?_ hs
    norm_num [Finset.sum_range_succ, Nat.factorial]
  · rw [Real.log_lt_iff_lt_exp hx, Real.exp_neg]
    have hs := Real.exp_bound' (x := (135939172 / 335544320 : ℝ)) (by norm_num) (by norm_num)
      (n := 10) (by norm_num)
    have hpos : (0 : ℝ) < Real.exp (135939172 / 335544320) := Real.exp_pos _
    rw [lt_inv_comm₀ hx hpos]
    refine lt_of_le_of_lt hs ?_
    norm_num [Finset.sum_range_succ, Nat.factorial]

/-- The unit in the last place in a normal binade. -/
theorem ulp32_of_binade (y : ℝ) (e : ℤ) (he : -126 ≤ e) (h1 : (2 : ℝ) ^ e ≤ |y|)
    (h2 : |y| < (2 : ℝ) ^ (e + 1)) : ulp32 y = (2 : ℝ) ^ (e - 23) := by
  have hy : 0 < |y| := lt_of_lt_of_le (zpow_pos (by norm_num) e) h1
  have hlog : Int.log 2 |y| = e := by
    apply le_antisymm
    · have := (Int.lt_zpow_iff_log_lt (b := 2) (by norm_num) hy).mp (by exact_mod_cast h2)
      omega
    · exact (Int.zpow_le_iff_le_log (b := 2) (by norm_num) hy).mp (by exact_mod_cast h1)
  rw [ulp32, hlog, max_eq_left he]

set_option maxRecDepth 1000000 in
/-- The fast path at `0x3f2ab94c`. -/
theorem lane_fast_worst : lane_fast 0x3f2ab94c = 0xbecf6d3a := by decide!

/-- At the positive normal input `0x3f2ab94c` (about `0.66689`) the result is `0xbecf6d3a`
and differs from the exact natural logarithm by more than 3.2 and by less than 3.3 units in
the last place, so not by at most 2.9. -/
theorem error_exceeds_test_bound :
    posNormal 0x3f2ab94c
      ∧ V_NAME_F1_log logf_sample ![0x3f2ab94c, 0x3f800000, 0x3f800000, 0x3f800000] 0
          = 0xbecf6d3a
      ∧ 3.2 * ulp32 (Real.log (f32Val 0x3f2ab94c))
          < |((f32Val (V_NAME_F1_log logf_sample
                ![0x3f2ab94c, 0x3f800000, 0x3f800000, 0x3f800000] 0) : ℚ) : ℝ)
              - Real.log (f32Val 0x3f2ab94c)|
      ∧ |((f32Val (V_NAME_F1_log logf_sample
                ![0x3f2ab94c, 0x3f800000, 0x3f800000, 0x3f800000] 0) : ℚ) : ℝ)
              - Real.log (f32Val 0x3f2ab94c)|
          < 3.3 * ulp32 (Real.log (f32Val 0x3f2ab94c))
      ∧ ¬ (|((f32Val (V_NAME_F1_log logf_sample
                ![0x3f2ab94c, 0x3f800000, 0x3f800000, 0x3f800000] 0) : ℚ) : ℝ)
              - Real.log (f32Val 0x3f2ab94c)|
          ≤ 2.9 * ulp32 (Real.log (f32Val 0x3f2ab94c))) := by
  have hres : V_NAME_F1_log logf_sample ![0x3f2ab94c, 0x3f800000, 0x3f800000, 0x3f800000] 0
      = 0xbecf6d3a := by
    rw [V_NAME_F1_log_lane]
    exact (lane_result_of_posNormal logf_sample 0x3f2ab94c (by decide)).trans lane_fast_worst
  have hx : ((f32Val 0x3f2ab94c : ℚ) : ℝ) = 2797139 / 4194304 := by
    norm_num [f32Val, f32SInt, f32Sig, f32Scale, f32Sign, f32Exp, f32Man]
  have hr : ((f32Val 0xbecf6d3a : ℚ) : ℝ) = -(13593914 / 33554432) := by
    norm_num [f32Val, f32SInt, f32Sig, f32Scale, f32Sign, f32Exp, f32Man]
  obtain ⟨hlo, hhi⟩ := log_worst_bounds
  have hulp : ulp32 (Real.log (2797139 / 4194304)) = (2 : ℝ) ^ (-25 : ℤ) := by
    have hneg : Real.log (2797139 / 4194304) < 0 := by linarith
    have := ulp32_of_binade (Real.log (2797139 / 4194304)) (-2) (by norm_num)
      (by rw [abs_of_neg hneg]; norm_num; linarith)
      (by rw [abs_of_neg hneg]; norm_num; linarith)
    simpa using this
  rw [hres, hx, hr, hulp]
  have hpos : (0 : ℝ) < -(13593914 / 33554432) - Real.log (2797139 / 4194304) := by linarith
  rw [abs_of_pos hpos]
  have h25 : (2 : ℝ) ^ (-25 : ℤ) = 1 / 33554432 := by norm_num
  rw [h25]
  refine ⟨by decide, rfl, ?_, ?_, ?_⟩
  · linarith
  · linarith
  · intro hle
    linarith

/-- Bounds on the natural logarithm of the value of `0x3faab94c`. -/
theorem log_worst_bounds_hi :
    (1 / 4 : ℝ) < Real.log (2797139 / 2097152)
      ∧ Real.log (2797139 / 2097152) < 4832123 / 16777216 - 3.34 / 2 ^ 25 := by
  have hx : |(-(699987 / 2097152 : ℝ))| < 1 := by
    rw [abs_neg, abs_of_pos (by norm_num)]
    norm_num
  have ht := Real.abs_log_sub_add_sum_range_le hx 23
  rw [abs_neg, abs_of_pos (by norm_num : (0 : ℝ) < 699987 / 2097152)] at ht
  have hl : (1 : ℝ) - -(699987 / 2097152) = 2797139 / 2097152 := by norm_num
  rw [hl] at ht
  obtain ⟨h1, h2⟩ := abs_le.mp ht
  simp only [Finset.sum_range_succ, Finset.sum_range_zero] at h1 h2
  norm_num at h1 h2
  constructor <;> linarith

set_option maxRecDepth 1000000 in
/-- The fast path at `0x3faab94c`. -/
theorem lane_fast_worst_hi : lane_fast 0x3faab94c = 0x3e9376f6 := by decide!

/-- At the positive normal input `0x3faab94c` (about `1.33378`) the result is `0x3e9376f6` and
differs from the exact natural logarithm by more than 3.34 units in the last place. -/
theorem error_exceeds_documented :
    posNormal 0x3faab94c
      ∧ V_NAME_F1_log logf_sample ![0x3faab94c, 0x3f800000, 0x3f800000, 0x3f800000] 0
          = 0x3e9376f6
      ∧ 3.34 * ulp32 (Real.log (f32Val 0x3faab94c))
          < |((f32Val (V_NAME_F1_log logf_sample
                ![0x3faab94c, 0x3f800000, 0x3f800000, 0x3f800000] 0) : ℚ) : ℝ)
              - Real.log (f32Val 0x3faab94c)| := by
  have hres : V_NAME_F1_log logf_sample ![0x3faab94c, 0x3f800000, 0x3f800000, 0x3f800000] 0
      = 0x3e9376f6 := by
    rw [V_NAME_F1_log_lane]
    exact (lane_result_of_posNormal logf_sample 0x3faab94c (by decide)).trans
      lane_fast_worst_hi
  have hx : ((f32Val 0x3faab94c : ℚ) : ℝ) = 2797139 / 2097152 := by
    norm_num [f32Val, f32SInt, f32Sig, f32Scale, f32Sign, f32Exp, f32Man]
  have hr : ((f32Val 0x3e9376f6 : ℚ) : ℝ) = 4832123 / 16777216 := by
    norm_num [f32Val, f32SInt, f32Sig, f32Scale, f32Sign, f32Exp, f32Man]
  obtain ⟨hlo, hhi⟩ := log_worst_bounds_hi
  have hulp : ulp32 (Real.log (2797139 / 2097152)) = (2 : ℝ) ^ (-25 : ℤ) := by
    have hpos : 0 < Real.log (2797139 / 2097152) := by linarith
    have := ulp32_of_binade (Real.log (2797139 / 2097152)) (-2) (by norm_num)
      (by rw [abs_of_pos hpos]; norm_num; linarith)
      (by rw [abs_of_pos hpos]; norm_num at hhi ⊢; linarith)
    simpa using this
  rw [hres, hx, hr, hulp]
  have hpos : (0 : ℝ) < 4832123 / 16777216 - Real.log (2797139 / 2097152) := by
    norm_num at hhi ⊢
    linarith
  rw [abs_of_pos hpos]
  have h25 : (2 : ℝ) ^ (-25 : ℤ) = 1 / 33554432 := by norm_num
  rw [h25]
  refine ⟨by decide, rfl, ?_⟩
  norm_num at hhi ⊢
  linarith

/-- C6, counterexample: at the positive normal input `0x3f2ab94c` (about `0.66689`) the result
is `0xbecf6d3a` and differs from the exact natural logarithm by more than 3.2 and by less
than 3.3 units in the last place, so not by at most 2.9. The figure `3.34 ulp` of the comment
on the coefficient table is not a bound either: at the positive normal input `0x3faab94c`
(about `1.33378`) the result is `0x3e9376f6` and differs from the exact natural logarithm by
more than 3.34 units in the last place. -/
theorem C6_error_exceeds_bound :
    posNormal 0x3f2ab94c
      ∧ V_NAME_F1_log logf_sample ![0x3f2ab94c, 0x3f800000, 0x3f800000, 0x3f800000] 0
          = 0xbecf6d3a
      ∧ 3.2 * ulp32 (Real.log (f32Val 0x3f2ab94c))
          < |((f32Val (V_NAME_F1_log logf_sample
                ![0x3f2ab94c, 0x3f800000, 0x3f800000, 0x3f800000] 0) : ℚ) : ℝ)
              - Real.log (f32Val 0x3f2ab94c)|
      ∧ |((f32Val (V_NAME_F1_log logf_sample
                ![0x3f2ab94c, 0x3f800000, 0x3f800000, 0x3f800000] 0) : ℚ) : ℝ)
              - Real.log (f32Val 0x3f2ab94c)|
          < 3.3 * ulp32 (Real.log (f32Val 0x3f2ab94c))
      ∧ ¬ (|((f32Val (V_NAME_F1_log logf_sample
                ![0x3f2ab94c, 0x3f800000, 0x3f800000, 0x3f800000] 0) : ℚ) : ℝ)
              - Real.log (f32Val 0x3f2ab94c)|
          ≤ 2.9 * ulp32 (Real.log (f32Val 0x3f2ab94c)))
      ∧ posNormal 0x3faab94c
      ∧ V_NAME_F1_log logf_sample ![0x3faab94c, 0x3f800000, 0x3f800000, 0x3f800000] 0
          = 0x3e9376f6
      ∧ 3.34 * ulp32 (Real.log (f32Val 0x3faab94c))
          < |((f32Val (V_NAME_F1_log logf_sample
                ![0x3faab94c, 0x3f800000, 0x3f800000, 0x3f800000] 0) : ℚ) : ℝ)
              - Real.log (f32Val 0x3faab94c)| := by
  obtain ⟨a1, a2, a3, a4, a5⟩ := error_exceeds_test_bound
  exact ⟨a1, a2, a3, a4, a5, error_exceeds_documented⟩

/-- The scale of a pattern is at least `-149`. -/
theorem f32Scale_ge (u : Nat) : -149 ≤ f32Scale u := by
  unfold f32Scale
  split <;> omega

/-- The value of a pattern as a real number. -/
theorem f32Val_real (u : Nat) :
    ((f32Val u : ℚ) : ℝ) = (f32SInt u : ℝ) * (2 : ℝ) ^ f32Scale u := by
  unfold f32Val
  push_cast
  rfl

/-! ## The detector, the reduced pattern and the exponent -/

/-- C17: the detector on the offset-adjusted pattern is the naive detector on the original
pattern. `offset_lower_bound` is `(0x00800000 - 0x3f2aaaab) mod 2^32 = 0xc1555555`,
`special_bound` is the top 16 bits of `0x7f800000 - 0x00800000`, that is `0x7f00`, and for
every 32-bit `u = x i`, `((u - off) - offset_lower_bound) mod 2^32 = (u - 0x00800000) mod 2^32`,
so the lane is flagged exactly when `(u - 0x00800000) mod 2^32 >= 0x7f000000`. -/
theorem C17_detector_is_naive_detector :
    (∀ j, data.offset_lower_bound j = 0xc1555555)
      ∧ (((0x00800000 : Int) - 0x3f2aaaab) % 2 ^ 32).toNat = 0xc1555555
      ∧ (∀ j, data.special_bound j = 0x7f00)
      ∧ (0x7f800000 - 0x00800000) / 2 ^ 16 = 0x7f00
      ∧ (∀ (x : float32x4_t) (i : Fin 4), x i < 2 ^ 32 →
          vsubq_u32 (vsubq_u32 (vreinterpretq_u32_f32 x) data.off) data.offset_lower_bound i
              = ((2 ^ 32 - 0x00800000) + x i) % 2 ^ 32
            ∧ (cmp_of x i ≠ 0 ↔ 0x7f000000 ≤ ((2 ^ 32 - 0x00800000) + x i) % 2 ^ 32)) := by
  refine ⟨data_offset_lower_bound, by decide, fun j => rfl, by decide, ?_⟩
  intro x i hx
  constructor
  · show ((2 ^ 32 - data.offset_lower_bound i % 2 ^ 32) + u_off_of x i) % 2 ^ 32 = _
    rw [data_offset_lower_bound, u_off_of_lane, lane_u_off]
    omega
  · rw [cmp_of_lane, lane_cmp_ne_zero_iff (x i) hx]
    omega

/-- C17 at the input `{0.0, 1.0, -1.0, +inf}`, lane 2. -/
theorem C17_detector_is_naive_detector_witness :
    vsubq_u32 (vsubq_u32 (vreinterpretq_u32_f32 ![0, 0x3f800000, 0xbf800000, 0x7f800000])
        data.off) data.offset_lower_bound 2
      = ((2 ^ 32 - 0x00800000)
          + (![0, 0x3f800000, 0xbf800000, 0x7f800000] : float32x4_t) 2) % 2 ^ 32
      ∧ (cmp_of ![0, 0x3f800000, 0xbf800000, 0x7f800000] 2 ≠ 0 ↔
          0x7f000000 ≤ ((2 ^ 32 - 0x00800000)
            + (![0, 0x3f800000, 0xbf800000, 0x7f800000] : float32x4_t) 2) % 2 ^ 32) :=
  C17_detector_is_naive_detector.2.2.2.2 ![0, 0x3f800000, 0xbf800000, 0x7f800000] 2 (by decide)

/-- The reduced pattern of any lane, by the fraction field of the offset-adjusted pattern. -/
theorem lane_u_eq (u : Nat) : lane_u u = 0x3f2aaaab + lane_u_off u % 2 ^ 23 := by
  have hmask : lane_u_off u &&& 0x007fffff = lane_u_off u % 2 ^ 23 :=
    Nat.and_pow_two_sub_one_eq_mod (lane_u_off u) 23
  rw [lane_u, hmask]
  omega

/-- C11: for every lane pattern whatsoever (zero, subnormal, negative, infinity and NaN
included) the reduced pattern `m = (((u - off) mod 2^32) & 0x007fffff) + off` lies in
`[0x3f2aaaab, 0x3faaaaaa]`; it is a positive normal pattern, neither an infinity nor a NaN nor
a subnormal, and its value `1 + r` satisfies `2/3 < 1 + r < 4/3` strictly, so `|r| < 1/3`. The
remainder `r = m - 1.0f` handed to the polynomial is computed exactly, `|value(r)| < 1/3`, and
its pattern is `+0.0` or a normal number: never an infinity, a NaN or a subnormal. -/
theorem C11_reduced_pattern_in_range (x : float32x4_t) (i : Fin 4) :
    0x3f2aaaab ≤ u_of x i ∧ u_of x i ≤ 0x3faaaaaa
      ∧ posNormal (u_of x i)
      ∧ f32IsNaN (u_of x i) = false ∧ f32IsInf (u_of x i) = false
      ∧ (2 / 3 : ℚ) < f32Val (u_of x i) ∧ f32Val (u_of x i) < 4 / 3
      ∧ |f32Val (u_of x i) - 1| < 1 / 3
      ∧ f32Val (r_of x i) = f32Val (u_of x i) - 1
      ∧ |f32Val (r_of x i)| < 1 / 3
      ∧ (r_of x i = 0 ∨ (1 ≤ f32Exp (r_of x i) ∧ f32Exp (r_of x i) ≤ 127)) := by
  rw [r_of_lane, u_of_lane]
  unfold lane_r
  have hm := lane_u_eq (x i)
  have hlt : lane_u_off (x i) % 2 ^ 23 < 2 ^ 23 := Nat.mod_lt _ (by norm_num)
  generalize lane_u_off (x i) % 2 ^ 23 = t at hm hlt
  generalize lane_u (x i) = m at hm
  have hlo : 0x3f2aaaab ≤ m := by omega
  have hhi : m ≤ 0x3faaaaaa := by omega
  have hexp : f32Exp m = 126 ∨ f32Exp m = 127 := by
    unfold f32Exp
    omega
  have hval : (2 / 3 : ℚ) < f32Val m ∧ f32Val m < 4 / 3 := by
    by_cases hc : m < 0x3f800000
    · obtain ⟨M, hM⟩ : ∃ M, m = 126 * 2 ^ 23 + M := ⟨m - 126 * 2 ^ 23, by omega⟩
      have hv := f32Val_of_fields m 126 M (by norm_num) (by norm_num) (by omega) hM
      have h1 : (2796203 : ℚ) ≤ (M : ℚ) := by
        have : 2796203 ≤ M := by omega
        exact_mod_cast this
      have h2 : (M : ℚ) < 8388608 := by
        have : M < 8388608 := by omega
        exact_mod_cast this
      have hp : (2 : ℚ) ^ (((126 : Nat) : Int) - 150) = 1 / 16777216 := by norm_num
      rw [hv, hp]
      push_cast
      constructor <;> linarith
    · obtain ⟨M, hM⟩ : ∃ M, m = 127 * 2 ^ 23 + M := ⟨m - 127 * 2 ^ 23, by omega⟩
      have hv := f32Val_of_fields m 127 M (by norm_num) (by norm_num) (by omega) hM
      have h1 : (M : ℚ) ≤ 2796202 := by
        have : M ≤ 2796202 := by omega
        exact_mod_cast this
      have h2 : (0 : ℚ) ≤ (M : ℚ) := Nat.cast_nonneg _
      have hp : (2 : ℚ) ^ (((127 : Nat) : Int) - 150) = 1 / 8388608 := by norm_num
      rw [hv, hp]
      push_cast
      constructor <;> linarith
  obtain ⟨hr, hrn⟩ := subf32_one_exact m hlo hhi
  refine ⟨hlo, hhi, ?_, ?_, ?_, hval.1, hval.2, ?_, hr, ?_, hrn⟩
  · unfold posNormal
    omega
  · unfold f32IsNaN
    rcases hexp with h | h <;> simp [h]
  · unfold f32IsInf
    rcases hexp with h | h <;> simp [h]
  · rw [abs_lt]
    constructor <;> linarith [hval.1, hval.2]
  · rw [hr, abs_lt]
    constructor <;> linarith [hval.1, hval.2]

/-- A pattern whose scaled significand is `n * 2^149` has the integer value `n`. -/
theorem f32Val_eq_int (R : Nat) (n : Int)
    (h : f32SInt R * 2 ^ (f32Scale R + 149).toNat = n * 2 ^ 149) : f32Val R = (n : ℚ) := by
  have hs := f32Scale_ge R
  have hz : f32Scale R = (((f32Scale R + 149).toNat : Nat) : Int) - 149 := by
    rw [Int.toNat_of_nonneg (by omega)]
    ring
  have h' := congrArg (fun z : Int => (z : ℚ)) h
  simp only [Int.cast_mul, Int.cast_pow, Int.cast_ofNat] at h'
  have hP : (0 : ℚ) < 2 ^ 149 := by positivity
  unfold f32Val
  rw [hz, zpow_sub₀ (by norm_num : (2 : ℚ) ≠ 0), zpow_natCast,
    show ((2 : ℚ) ^ (149 : ℤ)) = 2 ^ 149 by norm_cast]
  generalize (2 : ℚ) ^ 149 = P at h' hP
  generalize (2 : ℚ) ^ (f32Scale R + 149).toNat = Q at h'
  rw [← mul_div_assoc, h', mul_div_assoc, div_self hP.ne', mul_one]

set_option maxRecDepth 1000000 in
/-- The conversion of every exponent the reducer can produce is exact, by evaluation. -/
theorem cvt_exponent_eval (n : Int) (h1 : -126 ≤ n) (h2 : n ≤ 128) :
    f32SInt (cvtf32s32 n) * 2 ^ (f32Scale (cvtf32s32 n) + 149).toNat = n * 2 ^ 149 := by
  interval_cases n <;> decide!

/-- C14: for every positive normal finite input with exponent field `E = u / 2^23` and fraction
field `M = u mod 2^23`, the sign-extending shift of the offset-adjusted pattern gives
`n = E - 127` when `M < 0x2aaaab` and `n = E - 126` when `M >= 0x2aaaab`; `n` is negative
exactly for inputs below the offset; `-126 <= n <= 128`, and the conversion of `n` to float is
exact. -/
theorem C14_exponent_by_fields (x : float32x4_t) (i : Fin 4) (h : posNormal (x i)) :
    (x i % 2 ^ 23 < 0x2aaaab → n_int_of x i = ((x i / 2 ^ 23 : Nat) : Int) - 127)
      ∧ (0x2aaaab ≤ x i % 2 ^ 23 → n_int_of x i = ((x i / 2 ^ 23 : Nat) : Int) - 126)
      ∧ (n_int_of x i < 0 ↔ x i < 0x3f2aaaab)
      ∧ -126 ≤ n_int_of x i ∧ n_int_of x i ≤ 128
      ∧ f32Val (n_of x i) = (n_int_of x i : ℚ) := by
  rw [n_int_of_lane, n_of_lane]
  have hf := lane_reduce_fields (x i) h
  have hp := h
  unfold posNormal at hp
  have hlo : -126 ≤ lane_n (x i) := by
    by_cases hc : 0x2aaaab ≤ x i % 2 ^ 23
    · have := (hf.1 hc).1
      omega
    · have := (hf.2 (by omega)).1
      omega
  have hhi : lane_n (x i) ≤ 128 := by
    by_cases hc : 0x2aaaab ≤ x i % 2 ^ 23
    · have := (hf.1 hc).1
      omega
    · have := (hf.2 (by omega)).1
      omega
  refine ⟨fun hM => (hf.2 hM).1, fun hM => (hf.1 hM).1, ?_, hlo, hhi, ?_⟩
  · by_cases hc : 0x2aaaab ≤ x i % 2 ^ 23
    · have := (hf.1 hc).1
      omega
    · have := (hf.2 (by omega)).1
      omega
  · exact f32Val_eq_int _ _ (cvt_exponent_eval _ hlo hhi)

/-- C14 at the input `{3.0, 1.0, 0.75, 100.0}`, lane 2 (below the offset, `n = -1`). -/
theorem C14_exponent_by_fields_witness :
    (n_int_of ![0x40400000, 0x3f800000, 0x3f400000, 0x42c80000] 2 < 0 ↔
        (![0x40400000, 0x3f800000, 0x3f400000, 0x42c80000] : float32x4_t) 2 < 0x3f2aaaab)
      ∧ -126 ≤ n_int_of ![0x40400000, 0x3f800000, 0x3f400000, 0x42c80000] 2
      ∧ n_int_of ![0x40400000, 0x3f800000, 0x3f400000, 0x42c80000] 2 ≤ 128
      ∧ f32Val (n_of ![0x40400000, 0x3f800000, 0x3f400000, 0x42c80000] 2)
          = (n_int_of ![0x40400000, 0x3f800000, 0x3f400000, 0x42c80000] 2 : ℚ) :=
  (C14_exponent_by_fields ![0x40400000, 0x3f800000, 0x3f400000, 0x42c80000] 2
    (by decide)).2.2

/-! ## The fast path over exact arithmetic -/

/-- The fast path of the routine is the chain over the binary32 operations. -/
theorem fast_of_eq_chain (x : float32x4_t) (i : Fin 4) :
    fast_of x i
      = fast_chain fmaf32 mulf32 (fun k => P data k i) (data.ln2 i) (n_of x i) (r_of x i) := rfl

/-- C12: over exact arithmetic the chain of fused multiply-adds of the fast path equals
`n*ln2 + r + r2*(P1 + r*P2 + r2*(P3 + r*P4 + r2*(P5 + r*P6 + r2*P7)))` with `r2 = r*r` and
`Pi = poly[7 - i]`, that is `n*ln2 + r + sum over k = 0..6 of poly[k] * r^(8 - k)`: the table
is indexed highest-degree-first. The fast path of the routine is the same chain over the
binary32 fused multiply-add. -/
theorem C12_exact_fast_path_formula (c : Nat → ℚ) (ln2 n r : ℚ) :
    fast_exact c ln2 n r
        = n * ln2 + r + (r * r) * (c 6 + r * c 5 + (r * r) * (c 4 + r * c 3
            + (r * r) * (c 2 + r * c 1 + (r * r) * c 0)))
      ∧ fast_exact c ln2 n r
        = n * ln2 + r + ∑ k ∈ Finset.range 7, c k * r ^ (8 - k)
      ∧ (∀ (x : float32x4_t) (i : Fin 4), fast_of x i
          = fast_chain fmaf32 mulf32 (fun k => P data k i) (data.ln2 i) (n_of x i) (r_of x i))
      ∧ (∀ k : Fin 7, P data (7 - k.val) = data.poly k) := by
  refine ⟨?_, ?_, fast_of_eq_chain, ?_⟩
  · simp only [fast_exact, fast_chain]
    ring
  · simp only [fast_exact, fast_chain, Finset.sum_range_succ, Finset.sum_range_zero]
    ring
  · intro k
    fin_cases k <;> rfl

/-- The fast-path polynomial, expanded: `X + sum over k = 0..6 of poly[k] * X^(8 - k)`. -/
theorem fast_poly_expand :
    fast_poly = Polynomial.C (f32Val (P data 7 0)) * Polynomial.X ^ 8
      + Polynomial.C (f32Val (P data 6 0)) * Polynomial.X ^ 7
      + Polynomial.C (f32Val (P data 5 0)) * Polynomial.X ^ 6
      + Polynomial.C (f32Val (P data 4 0)) * Polynomial.X ^ 5
      + Polynomial.C (f32Val (P data 3 0)) * Polynomial.X ^ 4
      + Polynomial.C (f32Val (P data 2 0)) * Polynomial.X ^ 3
      + Polynomial.C (f32Val (P data 1 0)) * Polynomial.X ^ 2
      + Polynomial.X := by
  simp only [fast_poly, fast_chain]
  ring

/-- The value of the coefficient of highest degree, `poly[0] = -0x1.3e737cp-3`. -/
theorem f32Val_P7 : f32Val (P data 7 0) = -(0x13e737c : ℚ) / 2 ^ 27 := by
  rw [P_data_7]
  norm_num [f32Val, f32SInt, f32Sig, f32Scale, f32Sign, f32Exp, f32Man]

/-- The fast-path polynomial has degree 8. -/
theorem fast_poly_natDegree : fast_poly.natDegree = 8 := by
  have h7 : f32Val (P data 7 0) ≠ 0 := by
    rw [f32Val_P7]
    norm_num
  rw [fast_poly_expand]
  generalize f32Val (P data 7 0) = p7 at h7
  generalize f32Val (P data 6 0) = p6
  generalize f32Val (P data 5 0) = p5
  generalize f32Val (P data 4 0) = p4
  generalize f32Val (P data 3 0) = p3
  generalize f32Val (P data 2 0) = p2
  generalize f32Val (P data 1 0) = p1
  compute_degree!

/-- C13, counterexample: the fast-path approximation of `log (1 + r)`, as a polynomial in `r`
over exact arithmetic, does not have degree 7: its coefficient of `r^8` is
`poly[0] = -0x1.3e737cp-3`, which is not zero. -/
theorem C13_degree_is_not_seven :
    fast_poly.natDegree ≠ 7 ∧ fast_poly.coeff 8 = -(0x13e737c : ℚ) / 2 ^ 27
      ∧ fast_poly.coeff 8 ≠ 0 := by
  have hc : fast_poly.coeff 8 = f32Val (P data 7 0) := by
    rw [fast_poly_expand]
    simp [Polynomial.coeff_X, Polynomial.coeff_C_mul]
  refine ⟨?_, ?_, ?_⟩
  · rw [fast_poly_natDegree]
    decide
  · rw [hc, f32Val_P7]
  · rw [hc, f32Val_P7]
    norm_num

/-- C13, amended: the fast-path approximation of `log (1 + r)`, as a polynomial in `r` over
exact arithmetic, is `r + sum over k = 0..6 of poly[k] * r^(8 - k)`: a polynomial of degree 8
in `r` that evaluates to the exact fast path at `n = 0`; the seven table coefficients are those
of `r^2` to `r^8`. -/
theorem C13_degree_is_eight :
    fast_poly.natDegree = 8
      ∧ (∀ r : ℚ, fast_poly.eval r
          = fast_chain (fun a b d => a + b * d) (fun a b => a * b)
              (fun i => f32Val (P data i 0)) 0 0 r)
      ∧ fast_poly.coeff 0 = 0 ∧ fast_poly.coeff 1 = 1
      ∧ (∀ k : Fin 7, fast_poly.coeff (8 - k.val) = f32Val (data.poly k 0)) := by
  refine ⟨fast_poly_natDegree, ?_, ?_, ?_, ?_⟩
  · intro r
    rw [fast_poly_expand]
    simp only [fast_chain, Polynomial.eval_add, Polynomial.eval_mul, Polynomial.eval_C,
      Polynomial.eval_pow, Polynomial.eval_X]
    ring
  · rw [fast_poly_expand]
    simp [Polynomial.coeff_X, Polynomial.coeff_C_mul]
  · rw [fast_poly_expand]
    simp [Polynomial.coeff_X, Polynomial.coeff_C_mul]
  · intro k
    rw [fast_poly_expand]
    fin_cases k <;> simp [Polynomial.coeff_X, Polynomial.coeff_C_mul] <;> rfl

/-- C15: scaling by a power of two shifts only the exponent term. For a positive normal
pattern `u = x i` and an integer `k` such that `u + k * 2^23` (the pattern `y j`) is still
positive normal, the reducer gives the same reduced pattern `m`, hence the same `r`, and an
exponent larger by exactly `k`; the value is multiplied by `2^k`; so over exact arithmetic
`fast (2^k * x) = fast (x) + k * ln2`. -/
theorem C15_power_of_two_scaling (x y : float32x4_t) (i j : Fin 4) (k : Int)
    (hx : posNormal (x i)) (hy : posNormal (y j)) (hxy : (y j : Int) = (x i : Int) + k * 2 ^ 23) :
    u_of y j = u_of x i ∧ r_of y j = r_of x i ∧ n_int_of y j = n_int_of x i + k
      ∧ f32Val (y j) = (2 : ℚ) ^ k * f32Val (x i)
      ∧ (∀ (c : Nat → ℚ) (ln2 : ℚ),
          fast_exact c ln2 (n_int_of y j) (f32Val (r_of y j))
            = fast_exact c ln2 (n_int_of x i) (f32Val (r_of x i)) + k * ln2) := by
  rw [u_of_lane, u_of_lane, r_of_lane, r_of_lane, n_int_of_lane, n_int_of_lane]
  have hfx := lane_reduce_fields (x i) hx
  have hfy := lane_reduce_fields (y j) hy
  have hpx := hx
  have hpy := hy
  unfold posNormal at hpx hpy
  have hM : y j % 2 ^ 23 = x i % 2 ^ 23 := by omega
  have hE : ((y j / 2 ^ 23 : Nat) : Int) = ((x i / 2 ^ 23 : Nat) : Int) + k := by omega
  have hu : lane_u (y j) = lane_u (x i) := by
    by_cases hc : 0x2aaaab ≤ x i % 2 ^ 23
    · rw [(hfx.1 hc).2, (hfy.1 (by omega)).2, hM]
    · rw [(hfx.2 (by omega)).2, (hfy.2 (by omega)).2, hM]
  have hn : lane_n (y j) = lane_n (x i) + k := by
    by_cases hc : 0x2aaaab ≤ x i % 2 ^ 23
    · rw [(hfx.1 hc).1, (hfy.1 (by omega)).1, hE]
      ring
    · rw [(hfx.2 (by omega)).1, (hfy.2 (by omega)).1, hE]
      ring
  refine ⟨hu, ?_, hn, ?_, ?_⟩
  · rw [lane_r, lane_r, hu]
  · have hvx := f32Val_of_fields (x i) (x i / 2 ^ 23) (x i % 2 ^ 23) (by omega) (by omega)
      (Nat.mod_lt _ (by norm_num)) (by omega)
    have hvy := f32Val_of_fields (y j) (y j / 2 ^ 23) (y j % 2 ^ 23) (by omega) (by omega)
      (Nat.mod_lt _ (by norm_num)) (by omega)
    rw [hvx, hvy, hM, hE, mul_left_comm, ← zpow_add₀ (by norm_num : (2 : ℚ) ≠ 0)]
    congr 2
    ring
  · intro c ln2
    rw [lane_r, lane_r, hu, hn]
    simp only [fast_exact, fast_chain]
    push_cast
    ring

/-- C15 at the input `{3.0, 1.0, 0.75, 100.0}`: lane 0 against `12.0 = 2^2 * 3.0`. -/
theorem C15_power_of_two_scaling_witness :
    u_of ![0x41400000, 0x3f800000, 0x3f800000, 0x3f800000] 0
        = u_of ![0x40400000, 0x3f800000, 0x3f400000, 0x42c80000] 0
      ∧ n_int_of ![0x41400000, 0x3f800000, 0x3f800000, 0x3f800000] 0
        = n_int_of ![0x40400000, 0x3f800000, 0x3f400000, 0x42c80000] 0 + 2 :=
  ⟨(C15_power_of_two_scaling ![0x40400000, 0x3f800000, 0x3f400000, 0x42c80000]
      ![0x41400000, 0x3f800000, 0x3f800000, 0x3f800000] 0 0 2 (by decide) (by decide)
      (by decide)).1,
    (C15_power_of_two_scaling ![0x40400000, 0x3f800000, 0x3f400000, 0x42c80000]
      ![0x41400000, 0x3f800000, 0x3f800000, 0x3f800000] 0 0 2 (by decide) (by decide)
      (by decide)).2.2.1⟩

/-! ## The constant `ln2` -/

/-- The magnitude of the signed significand of a pattern is below `2^24`. -/
theorem f32SInt_abs_lt (u : Nat) : |f32SInt u| < 2 ^ 24 := by
  have hm : f32Man u < 2 ^ 23 := Nat.mod_lt _ (by norm_num)
  have hs : f32Sig u < 2 ^ 24 := by
    unfold f32Sig
    split <;> omega
  unfold f32SInt
  split
  · rw [abs_neg, abs_of_nonneg (by positivity)]
    exact_mod_cast hs
  · rw [abs_of_nonneg (by positivity)]
    exact_mod_cast hs

/-- C16: the table constant `ln2 = 0x1.62e43p-1` has the pattern `0x3f317218` and the value
`11629080 / 2^24`; it differs from `log 2` by at most `2^-25`, half a unit in the last place
for values in `[1/2, 1)`, and no finite binary32 value is nearer to `log 2`: it is `log 2`
correctly rounded to single precision. -/
theorem C16_ln2_correctly_rounded :
    (∀ i, data.ln2 i = 0x3f317218)
      ∧ f32Val 0x3f317218 = 11629080 / 2 ^ 24
      ∧ |((f32Val 0x3f317218 : ℚ) : ℝ) - Real.log 2| ≤ (2 : ℝ) ^ (-25 : ℤ)
      ∧ (∀ v : Nat, |((f32Val 0x3f317218 : ℚ) : ℝ) - Real.log 2|
          ≤ |((f32Val v : ℚ) : ℝ) - Real.log 2|) := by
  have hlo := Real.log_two_gt_d9
  have hhi := Real.log_two_lt_d9
  have hq : f32Val 0x3f317218 = 11629080 / 2 ^ 24 := by
    norm_num [f32Val, f32SInt, f32Sig, f32Scale, f32Sign, f32Exp, f32Man]
  have hc : ((f32Val 0x3f317218 : ℚ) : ℝ) = 11629080 / 16777216 := by
    rw [hq]
    norm_num
  have hd1 : (0 : ℝ) < 11629080 / 16777216 - Real.log 2 := by
    norm_num at hhi ⊢
    linarith
  have hd2 : (11629080 / 16777216 : ℝ) - Real.log 2 < 1 / 400000000 := by
    norm_num at hlo ⊢
    linarith
  refine ⟨data_ln2, hq, ?_, ?_⟩
  · rw [hc, abs_of_pos hd1]
    norm_num
    linarith
  · intro v
    rw [hc, abs_of_pos hd1, f32Val_real]
    have hS := f32SInt_abs_lt v
    have hs := f32Scale_ge v
    by_cases hsc : -24 ≤ f32Scale v
    · -- the value is an integer multiple of `2^-24`
      have hz : f32Scale v = (((f32Scale v + 24).toNat : Nat) : Int) - 24 := by
        rw [Int.toNat_of_nonneg (by omega)]
        ring
      have hw : (f32SInt v : ℝ) * (2 : ℝ) ^ f32Scale v
          = ((f32SInt v * 2 ^ (f32Scale v + 24).toNat : Int) : ℝ) / 16777216 := by
        conv_lhs => rw [hz]
        rw [zpow_sub₀ (by norm_num : (2 : ℝ) ≠ 0), zpow_natCast]
        push_cast
        norm_num
        ring
      rw [hw]
      generalize f32SInt v * 2 ^ (f32Scale v + 24).toNat = z
      by_cases hzc : z = 11629080
      · subst hzc
        push_cast
        rw [abs_of_pos hd1]
      · rcases lt_or_gt_of_ne hzc with h | h
        · have h' : (z : ℝ) ≤ 11629079 := by
            have : z ≤ 11629079 := by omega
            exact_mod_cast this
          rw [abs_of_neg (by linarith)]
          linarith
        · have h' : (11629081 : ℝ) ≤ (z : ℝ) := by
            have : 11629081 ≤ z := by omega
            exact_mod_cast this
          rw [abs_of_pos (by linarith)]
          linarith
    · -- the value is below `1/2`
      have hp : (2 : ℝ) ^ f32Scale v ≤ (2 : ℝ) ^ (-25 : ℤ) :=
        zpow_le_zpow_right₀ (by norm_num) (by omega)
      have hpos : (0 : ℝ) < (2 : ℝ) ^ f32Scale v := zpow_pos (by norm_num) _
      have hSr : (f32SInt v : ℝ) < 2 ^ 24 := by
        have := (abs_lt.mp hS).2
        exact_mod_cast this
      have hw : (f32SInt v : ℝ) * (2 : ℝ) ^ f32Scale v ≤ 1 / 2 := by
        calc (f32SInt v : ℝ) * (2 : ℝ) ^ f32Scale v
            ≤ 2 ^ 24 * (2 : ℝ) ^ f32Scale v := by
              exact mul_le_mul_of_nonneg_right hSr.le hpos.le
          _ ≤ 2 ^ 24 * (2 : ℝ) ^ (-25 : ℤ) := by
              exact mul_le_mul_of_nonneg_left hp (by positivity)
          _ = 1 / 2 := by norm_num
      have hl : (1 / 2 : ℝ) < Real.log 2 := by
        norm_num at hlo ⊢
        linarith
      rw [abs_of_neg (by linarith)]
      norm_num at hlo
      linarith

/-! ## Accuracy of the fast path on every positive normal input

The error of the fast path against the exact logarithm is bounded on the whole domain: the
rounding of every operation is within half a unit in the last place, the polynomial is within
`errBound` of `log (1 + r)` on each interval of the certificate, and the sum of the errors is
compared with the unit in the last place of the logarithm. -/

/-! ## Rounding error of the binary32 operations -/

/-- Rounding a quotient to nearest: the result is between the floor and the ceiling of the
exact quotient and within half a unit of it. -/
theorem rneShift_spec (N k : Nat) :
    N / 2 ^ k ≤ rneShift N k ∧ rneShift N k ≤ N / 2 ^ k + 1
      ∧ 2 * (rneShift N k * 2 ^ k) ≤ 2 * N + 2 ^ k
      ∧ 2 * N ≤ 2 * (rneShift N k * 2 ^ k) + 2 ^ k := by
  have hP : 0 < 2 ^ k := Nat.pos_pow_of_pos k (by norm_num)
  have hdm := Nat.div_add_mod N (2 ^ k)
  have hr := Nat.mod_lt N hP
  unfold rneShift
  simp only []
  generalize 2 ^ k = P at hP hdm hr ⊢
  generalize N / P = q at hdm ⊢
  generalize N % P = r at hdm hr ⊢
  have hmul : (q + 1) * P = P * q + P := by ring
  have hmul0 : q * P = P * q := by ring
  generalize P * q = PQ at hdm hmul hmul0
  split_ifs with h1 h2 h3
  · rw [hmul0]
    omega
  · rw [hmul0]
    omega
  · rw [hmul]
    omega
  · rw [hmul]
    omega

/-- The fields of a signed pattern. -/
theorem f32WithSign_fields (neg : Bool) (mag : Nat) (h : mag < 2 ^ 31) :
    f32Exp (f32WithSign neg mag) = mag / 2 ^ 23 ∧ f32Man (f32WithSign neg mag) = mag % 2 ^ 23
      ∧ f32Sign (f32WithSign neg mag) = neg := by
  refine ⟨?_, ?_, ?_⟩
  · unfold f32Exp f32WithSign
    split <;> omega
  · unfold f32Man f32WithSign
    split <;> omega
  · unfold f32Sign f32WithSign
    cases neg
    · have h0 : mag / 2 ^ 31 % 2 = 0 := by omega
      rw [if_neg (by decide), h0]
      decide
    · have h0 : (2 ^ 31 + mag) / 2 ^ 31 % 2 = 1 := by omega
      rw [if_pos rfl, h0]
      decide

/-- The value of the pattern assembled by the rounding: an exponent field `B` and a
significand `mant` that may be subnormal (then `B = 0`) or may have carried to `2^24`. -/
theorem f32Val_bits (neg : Bool) (B mant : Nat) (hB : B ≤ 252) (hm : mant ≤ 2 ^ 24)
    (hsub : mant < 2 ^ 23 → B = 0) :
    f32Exp (f32WithSign neg (B * 2 ^ 23 + mant)) < 255
      ∧ f32Val (f32WithSign neg (B * 2 ^ 23 + mant))
          = (if neg then -1 else 1) * (mant : ℚ) * (2 : ℚ) ^ ((B : Int) - 149) := by
  by_cases h1 : mant < 2 ^ 23
  · have hB0 := hsub h1
    subst hB0
    obtain ⟨he, hman, hs⟩ := f32WithSign_fields neg (0 * 2 ^ 23 + mant) (by omega)
    have he0 : f32Exp (f32WithSign neg (0 * 2 ^ 23 + mant)) = 0 := by omega
    have hman0 : f32Man (f32WithSign neg (0 * 2 ^ 23 + mant)) = mant := by omega
    refine ⟨by omega, ?_⟩
    unfold f32Val f32SInt f32Sig f32Scale
    rw [hs, he0, hman0, if_pos rfl, if_pos rfl]
    cases neg <;> simp
  · by_cases h2 : mant < 2 ^ 24
    · obtain ⟨he, hv⟩ := f32Val_withSign neg B mant (by omega) (by omega) h2
      refine ⟨by omega, ?_⟩
      rw [hv, show (B : Int) + 1 - 150 = (B : Int) - 149 by ring]
    · have hmant : mant = 2 ^ 24 := by omega
      subst hmant
      obtain ⟨he, hv⟩ := f32Val_withSign neg (B + 1) (2 ^ 23) (by omega) le_rfl (by norm_num)
      have hpat : B * 2 ^ 23 + 2 ^ 24 = (B + 1) * 2 ^ 23 + 2 ^ 23 := by ring
      rw [hpat]
      refine ⟨by omega, ?_⟩
      rw [hv]
      have hz : (((B + 1 : Nat) : Int) + 1 - 150) = ((B : Int) - 149) + 1 := by
        push_cast
        ring
      rw [hz, zpow_add_one₀ (by norm_num : (2 : ℚ) ≠ 0)]
      push_cast
      ring

/-- The rounding of `±N * 2^e`: the result is finite and its value is `±mant * 2^q` on the
grid `2^q` of the binade of the exact value; `mant * 2^q` is the exact value when that lies on
the grid, and is within half a grid step of it otherwise. -/
theorem f32Round_val (neg : Bool) (N : Nat) (e : Int) (hN : 1 ≤ N)
    (hex : (ilog2 N : Int) + e ≤ 126) :
    ∃ mant : Nat,
      f32Exp (f32Round neg N e) < 255
        ∧ f32Val (f32Round neg N e) = (if neg then -1 else 1) * (mant : ℚ)
            * (2 : ℚ) ^ (max ((ilog2 N : Int) + e) (-126) - 23)
        ∧ (max ((ilog2 N : Int) + e) (-126) - 23 ≤ e →
            mant = N * 2 ^ (e - (max ((ilog2 N : Int) + e) (-126) - 23)).toNat)
        ∧ (e < max ((ilog2 N : Int) + e) (-126) - 23 →
            2 * (mant * 2 ^ ((max ((ilog2 N : Int) + e) (-126) - 23) - e).toNat)
                ≤ 2 * N + 2 ^ ((max ((ilog2 N : Int) + e) (-126) - 23) - e).toNat
              ∧ 2 * N ≤ 2 * (mant * 2 ^ ((max ((ilog2 N : Int) + e) (-126) - 23) - e).toNat)
                + 2 ^ ((max ((ilog2 N : Int) + e) (-126) - 23) - e).toNat) := by
  obtain ⟨hL1, hL2⟩ := ilog2_spec N hN
  obtain ⟨L, hLdef⟩ : ∃ L, ilog2 N = L := ⟨_, rfl⟩
  rw [hLdef] at hL1 hL2 hex
  obtain ⟨q, hqdef⟩ : ∃ q : Int, max ((L : Int) + e) (-126) - 23 = q := ⟨_, rfl⟩
  have hq1 : -149 ≤ q := by omega
  have hq2 : q ≤ 103 := by omega
  have hB : ((q + 149).toNat : Int) - 149 = q := by omega
  have hBle : (q + 149).toNat ≤ 252 := by omega
  have key : ∀ mant : Nat, mant ≤ 2 ^ 24 → (mant < 2 ^ 23 → (q + 149).toNat = 0) →
      f32Exp (f32WithSign neg
          (if (q + 149).toNat * 2 ^ 23 + mant ≥ f32PosInf then f32PosInf
            else (q + 149).toNat * 2 ^ 23 + mant)) < 255
        ∧ f32Val (f32WithSign neg
          (if (q + 149).toNat * 2 ^ 23 + mant ≥ f32PosInf then f32PosInf
            else (q + 149).toNat * 2 ^ 23 + mant))
          = (if neg then -1 else 1) * (mant : ℚ) * (2 : ℚ) ^ q := by
    intro mant hm hsub
    have hlt : ¬ ((q + 149).toNat * 2 ^ 23 + mant ≥ f32PosInf) := by
      unfold f32PosInf
      omega
    rw [if_neg hlt]
    have h := f32Val_bits neg (q + 149).toNat mant hBle hm hsub
    rw [hB] at h
    exact h
  unfold f32Round
  simp only [hLdef, hqdef]
  by_cases hq : q ≤ e
  · simp only [if_pos hq]
    have hbound : N * 2 ^ (e - q).toNat ≤ 2 ^ 24
        ∧ (N * 2 ^ (e - q).toNat < 2 ^ 23 → (q + 149).toNat = 0) := by
      by_cases hn : -126 ≤ (L : Int) + e
      · have hk : (e - q).toNat = 23 - L := by omega
        have hL : L ≤ 23 := by omega
        rw [hk]
        have h1 : N * 2 ^ (23 - L) < 2 ^ (L + 1) * 2 ^ (23 - L) :=
          Nat.mul_lt_mul_of_pos_right hL2 (Nat.pos_pow_of_pos _ (by norm_num))
        have h2 : 2 ^ (L + 1) * 2 ^ (23 - L) = 2 ^ 24 := by
          rw [← pow_add]
          congr 1
          omega
        have h3 : 2 ^ L * 2 ^ (23 - L) ≤ N * 2 ^ (23 - L) := Nat.mul_le_mul_right _ hL1
        have h4 : 2 ^ L * 2 ^ (23 - L) = 2 ^ 23 := by
          rw [← pow_add]
          congr 1
          omega
        constructor
        · omega
        · intro h
          omega
      · have hB0 : (q + 149).toNat = 0 := by omega
        refine ⟨?_, fun _ => hB0⟩
        have h1 : N * 2 ^ (e - q).toNat < 2 ^ (L + 1) * 2 ^ (e - q).toNat :=
          Nat.mul_lt_mul_of_pos_right hL2 (Nat.pos_pow_of_pos _ (by norm_num))
        have h2 : 2 ^ (L + 1) * 2 ^ (e - q).toNat ≤ 2 ^ 24 := by
          rw [← pow_add]
          exact Nat.pow_le_pow_right (by norm_num) (by omega)
        omega
    refine ⟨N * 2 ^ (e - q).toNat, (key _ hbound.1 hbound.2).1, (key _ hbound.1 hbound.2).2,
      fun _ => rfl, fun h => absurd h (by omega)⟩
  · simp only [if_neg hq]
    obtain ⟨s1, s2, s3, s4⟩ := rneShift_spec N (q - e).toNat
    have hbound : rneShift N (q - e).toNat ≤ 2 ^ 24
        ∧ (rneShift N (q - e).toNat < 2 ^ 23 → (q + 149).toNat = 0) := by
      by_cases hn : -126 ≤ (L : Int) + e
      · have hk : (q - e).toNat = L - 23 := by omega
        have hL : 23 ≤ L := by omega
        rw [hk] at s1 s2 ⊢
        have h1 : N / 2 ^ (L - 23) < 2 ^ 24 := by
          apply Nat.div_lt_of_lt_mul
          calc N < 2 ^ (L + 1) := hL2
            _ = 2 ^ (L - 23) * 2 ^ 24 := by
                rw [← pow_add]
                congr 1
                omega
        have h2 : 2 ^ 23 ≤ N / 2 ^ (L - 23) := by
          rw [Nat.le_div_iff_mul_le (Nat.pos_pow_of_pos _ (by norm_num))]
          calc 2 ^ 23 * 2 ^ (L - 23) = 2 ^ L := by
                rw [← pow_add]
                congr 1
                omega
            _ ≤ N := hL1
        constructor
        · omega
        · intro h
          omega
      · have hB0 : (q + 149).toNat = 0 := by omega
        refine ⟨?_, fun _ => hB0⟩
        have h1 : N / 2 ^ (q - e).toNat < 2 ^ 23 := by
          apply Nat.div_lt_of_lt_mul
          calc N < 2 ^ (L + 1) := hL2
            _ ≤ 2 ^ ((q - e).toNat + 23) := Nat.pow_le_pow_right (by norm_num) (by omega)
            _ = 2 ^ (q - e).toNat * 2 ^ 23 := by rw [pow_add]
        omega
    refine ⟨rneShift N (q - e).toNat, (key _ hbound.1 hbound.2).1, (key _ hbound.1 hbound.2).2,
      fun h => absurd h hq, fun _ => ⟨s3, s4⟩⟩

/-- The rounding error: when the exact magnitude `N * 2^e` is below `2^(k+1)`, with `k` in
the normal exponent range, the result is finite and within `2^(k-24)` (half a unit in the
last place of the binade `k`) of the exact value. -/
theorem f32Round_err (neg : Bool) (N : Nat) (e k : Int) (hN : 1 ≤ N) (hk1 : -126 ≤ k)
    (hk2 : k ≤ 126) (h : (N : ℚ) * (2 : ℚ) ^ e < (2 : ℚ) ^ (k + 1)) :
    f32Exp (f32Round neg N e) < 255
      ∧ |f32Val (f32Round neg N e) - (if neg then -1 else 1) * (N : ℚ) * (2 : ℚ) ^ e|
          ≤ (2 : ℚ) ^ (k - 24) := by
  obtain ⟨hL1, hL2⟩ := ilog2_spec N hN
  have h2 : (2 : ℚ) ≠ 0 := by norm_num
  have hLk : (ilog2 N : Int) + e ≤ k := by
    have h1 : ((2 : ℚ) ^ (ilog2 N : Int)) ≤ (N : ℚ) := by
      rw [zpow_natCast]
      exact_mod_cast hL1
    have h3 : (2 : ℚ) ^ ((ilog2 N : Int) + e) < (2 : ℚ) ^ (k + 1) := by
      rw [zpow_add₀ h2]
      exact lt_of_le_of_lt (mul_le_mul_of_nonneg_right h1 (zpow_nonneg (by norm_num) e)) h
    have h4 := (zpow_lt_zpow_iff_right₀ (by norm_num : (1 : ℚ) < 2)).mp h3
    omega
  obtain ⟨mant, hfin, hval, hex, hrnd⟩ := f32Round_val neg N e hN (by omega)
  refine ⟨hfin, ?_⟩
  obtain ⟨q, hqdef⟩ : ∃ q : Int, max ((ilog2 N : Int) + e) (-126) - 23 = q := ⟨_, rfl⟩
  rw [hqdef] at hval hex hrnd
  have hqk : q ≤ k - 23 := by omega
  have hpos : (0 : ℚ) ≤ (2 : ℚ) ^ (k - 24) := zpow_nonneg (by norm_num) _
  have hsign : ∀ z : ℚ, |(if neg then (-1 : ℚ) else 1) * z| = |z| := by
    intro z
    cases neg <;> simp
  by_cases hq : q ≤ e
  · have hm := hex hq
    have hz : e = q + (((e - q).toNat : Nat) : Int) := by omega
    have hexact : (mant : ℚ) * (2 : ℚ) ^ q = (N : ℚ) * (2 : ℚ) ^ e := by
      rw [hm]
      conv_rhs => rw [hz, zpow_add₀ h2, zpow_natCast]
      push_cast
      ring
    rw [hval, mul_assoc, hexact, ← mul_assoc, sub_self, abs_zero]
    exact hpos
  · obtain ⟨r1, r2⟩ := hrnd (by omega)
    obtain ⟨j, hj⟩ : ∃ j : Nat, (q - e).toNat = j := ⟨_, rfl⟩
    rw [hj] at r1 r2
    have hz : q = e + (j : Int) := by omega
    have r1q : 2 * ((mant : ℚ) * 2 ^ j) ≤ 2 * (N : ℚ) + 2 ^ j := by exact_mod_cast r1
    have r2q : 2 * (N : ℚ) ≤ 2 * ((mant : ℚ) * 2 ^ j) + 2 ^ j := by exact_mod_cast r2
    have hdiff : f32Val (f32Round neg N e) - (if neg then -1 else 1) * (N : ℚ) * (2 : ℚ) ^ e
        = (if neg then -1 else 1) * (((mant : ℚ) * 2 ^ j - (N : ℚ)) * (2 : ℚ) ^ e) := by
      rw [hval, hz, zpow_add₀ h2, zpow_natCast]
      ring
    have hepos : (0 : ℚ) < (2 : ℚ) ^ e := zpow_pos (by norm_num) e
    have habs : |(mant : ℚ) * 2 ^ j - (N : ℚ)| ≤ 2 ^ j / 2 := by
      rw [abs_le]
      constructor <;> linarith
    rw [hdiff, hsign, abs_mul, abs_of_pos hepos]
    calc |(mant : ℚ) * 2 ^ j - (N : ℚ)| * (2 : ℚ) ^ e ≤ 2 ^ j / 2 * (2 : ℚ) ^ e :=
          mul_le_mul_of_nonneg_right habs hepos.le
      _ = (2 : ℚ) ^ (q - 1) := by
          rw [hz, show e + (j : Int) - 1 = e + (j : Int) + (-1) by ring, zpow_add₀ h2,
            zpow_add₀ h2, zpow_natCast]
          norm_num
          ring
      _ ≤ (2 : ℚ) ^ (k - 24) := zpow_le_zpow_right₀ (by norm_num) (by omega)

/-- The rounding error of an exact integer multiple `T * 2^e` of a power of two. -/
theorem f32OfInt_err (T e k : Int) (z : Bool) (hk1 : -126 ≤ k) (hk2 : k ≤ 126)
    (h : |(T : ℚ)| * (2 : ℚ) ^ e < (2 : ℚ) ^ (k + 1)) :
    f32Exp (f32OfInt T e z) < 255
      ∧ |f32Val (f32OfInt T e z) - (T : ℚ) * (2 : ℚ) ^ e| ≤ (2 : ℚ) ^ (k - 24) := by
  unfold f32OfInt
  by_cases hT : T = 0
  · rw [if_pos hT]
    obtain ⟨he, hm, hs⟩ := f32WithSign_fields z 0 (by norm_num)
    have hs0 : f32SInt (f32WithSign z 0) = 0 := by
      unfold f32SInt f32Sig
      rw [he, hm]
      simp
    refine ⟨by omega, ?_⟩
    unfold f32Val
    rw [hs0, hT]
    simp
    exact zpow_nonneg (by norm_num) _
  · rw [if_neg hT]
    have hN : 1 ≤ T.natAbs := by omega
    have hcast : ((T.natAbs : Nat) : ℚ) = |(T : ℚ)| := by
      rw [Nat.cast_natAbs, Int.cast_abs]
    obtain ⟨hfin, herr⟩ := f32Round_err (decide (T < 0)) T.natAbs e k hN hk1 hk2
      (by rw [hcast]; exact h)
    refine ⟨hfin, ?_⟩
    have hsgn : (if decide (T < 0) = true then (-1 : ℚ) else 1) * ((T.natAbs : Nat) : ℚ)
        = (T : ℚ) := by
      rw [hcast]
      by_cases hneg : T < 0
      · have : (T : ℚ) < 0 := by exact_mod_cast hneg
        simp [hneg, abs_of_neg this]
      · have : (0 : ℚ) ≤ (T : ℚ) := by exact_mod_cast (not_lt.mp hneg)
        simp [hneg, abs_of_nonneg this]
    rw [hsgn] at herr
    exact herr

/-- A pattern whose exponent field is below 255 is finite: no NaN and no infinity. -/
theorem finite_flags (a : Nat) (h : f32Exp a < 255) :
    f32IsNaN a = false ∧ f32IsSNaN a = false ∧ f32IsInf a = false := by
  have hne : ¬ f32Exp a = 255 := by omega
  have h1 : f32IsNaN a = false := by simp [f32IsNaN, hne]
  have h3 : f32IsInf a = false := by simp [f32IsInf, hne]
  refine ⟨h1, ?_, h3⟩
  simp [f32IsSNaN, h1]

/-- A power of two brought to a smaller scale. -/
theorem zpow_toNat_mul (d e0 : Int) (h : e0 ≤ d) :
    (2 : ℚ) ^ (d - e0).toNat * (2 : ℚ) ^ e0 = (2 : ℚ) ^ d := by
  have hz : d = (((d - e0).toNat : Nat) : Int) + e0 := by omega
  conv_rhs => rw [hz, zpow_add₀ (by norm_num : (2 : ℚ) ≠ 0), zpow_natCast]

/-- The fused multiply-add of finite operands: when the exact value `a + b * c` is below
`2^(k+1)` in magnitude, the result is finite and within `2^(k-24)` of it. -/
theorem fmaf32_err (a b c : Nat) (k : Int) (ha : f32Exp a < 255) (hb : f32Exp b < 255)
    (hc : f32Exp c < 255) (hk1 : -126 ≤ k) (hk2 : k ≤ 126)
    (h : |f32Val a + f32Val b * f32Val c| < (2 : ℚ) ^ (k + 1)) :
    f32Exp (fmaf32 a b c) < 255
      ∧ |f32Val (fmaf32 a b c) - (f32Val a + f32Val b * f32Val c)| ≤ (2 : ℚ) ^ (k - 24) := by
  obtain ⟨a1, a2, a3⟩ := finite_flags a ha
  obtain ⟨b1, b2, b3⟩ := finite_flags b hb
  obtain ⟨c1, c2, c3⟩ := finite_flags c hc
  obtain ⟨e0, he0⟩ : ∃ e0 : Int, min (f32Scale a) (f32Scale b + f32Scale c) = e0 := ⟨_, rfl⟩
  have hexact : ((f32SInt a * 2 ^ (f32Scale a - e0).toNat
        + f32SInt b * f32SInt c * 2 ^ (f32Scale b + f32Scale c - e0).toNat : Int) : ℚ)
      * (2 : ℚ) ^ e0 = f32Val a + f32Val b * f32Val c := by
    unfold f32Val
    push_cast
    rw [add_mul, mul_assoc, zpow_toNat_mul _ _ (by omega), mul_assoc (_ * _),
      zpow_toNat_mul _ _ (by omega), zpow_add₀ (by norm_num : (2 : ℚ) ≠ 0)]
    ring
  have hfma : fmaf32 a b c = f32OfInt (f32SInt a * 2 ^ (f32Scale a - e0).toNat
      + f32SInt b * f32SInt c * 2 ^ (f32Scale b + f32Scale c - e0).toNat) e0
      (f32Sign a && xor (f32Sign b) (f32Sign c)) := by
    unfold fmaf32
    simp only [a1, a3, b1, b3, c1, c3, he0, Bool.or_self, Bool.false_and, Bool.and_false,
      Bool.false_eq_true, if_false]
  rw [hfma, ← hexact]
  apply f32OfInt_err _ _ _ _ hk1 hk2
  have hpos : (0 : ℚ) < (2 : ℚ) ^ e0 := zpow_pos (by norm_num) e0
  rw [← abs_of_pos hpos, ← abs_mul, hexact]
  exact h

/-- The product of finite operands: when the exact product is below `2^(k+1)` in magnitude,
the result is finite and within `2^(k-24)` of it. -/
theorem mulf32_err (a b : Nat) (k : Int) (ha : f32Exp a < 255) (hb : f32Exp b < 255)
    (hk1 : -126 ≤ k) (hk2 : k ≤ 126) (h : |f32Val a * f32Val b| < (2 : ℚ) ^ (k + 1)) :
    f32Exp (mulf32 a b) < 255
      ∧ |f32Val (mulf32 a b) - f32Val a * f32Val b| ≤ (2 : ℚ) ^ (k - 24) := by
  obtain ⟨a1, a2, a3⟩ := finite_flags a ha
  obtain ⟨b1, b2, b3⟩ := finite_flags b hb
  have hexact : ((f32SInt a * f32SInt b : Int) : ℚ) * (2 : ℚ) ^ (f32Scale a + f32Scale b)
      = f32Val a * f32Val b := by
    unfold f32Val
    push_cast
    rw [zpow_add₀ (by norm_num : (2 : ℚ) ≠ 0)]
    ring
  have hmul : mulf32 a b = f32OfInt (f32SInt a * f32SInt b) (f32Scale a + f32Scale b)
      (xor (f32Sign a) (f32Sign b)) := by
    unfold mulf32
    simp only [a1, a2, a3, b1, b2, b3, Bool.or_self, Bool.false_and, Bool.and_false,
      Bool.false_eq_true, if_false]
  rw [hmul, ← hexact]
  apply f32OfInt_err _ _ _ _ hk1 hk2
  have hpos : (0 : ℚ) < (2 : ℚ) ^ (f32Scale a + f32Scale b) := zpow_pos (by norm_num) _
  rw [← abs_of_pos hpos, ← abs_mul, hexact]
  exact h

/-- The values of the table coefficients `P1 .. P7` and of `ln2`. -/
theorem coeff_vals :
    f32Val 0xbeffffe4 = -(16777188 / 2 ^ 25) ∧ f32Val 0x3eaaaebe = 11185854 / 2 ^ 25
      ∧ f32Val 0xbe800c3e = -(8391742 / 2 ^ 25) ∧ f32Val 0x3e4b09a4 = 13306276 / 2 ^ 26
      ∧ f32Val 0xbe27cc9a = -(10996890 / 2 ^ 26) ∧ f32Val 0x3e2d4d51 = 11357521 / 2 ^ 26
      ∧ f32Val 0xbe1f39be = -(10435006 / 2 ^ 26) ∧ f32Val 0x3f317218 = 11629080 / 2 ^ 24 := by
  refine ⟨?_, ?_, ?_, ?_, ?_, ?_, ?_, ?_⟩ <;>
    norm_num [f32Val, f32SInt, f32Sig, f32Scale, f32Sign, f32Exp, f32Man]

/-- The table coefficients and `ln2` are finite. -/
theorem coeff_finite :
    f32Exp 0xbeffffe4 < 255 ∧ f32Exp 0x3eaaaebe < 255 ∧ f32Exp 0xbe800c3e < 255
      ∧ f32Exp 0x3e4b09a4 < 255 ∧ f32Exp 0xbe27cc9a < 255 ∧ f32Exp 0x3e2d4d51 < 255
      ∧ f32Exp 0xbe1f39be < 255 ∧ f32Exp 0x3f317218 < 255 := by decide

/-- One fused multiply-add of the chain: operands within `EA`, `EB`, `EC` of exact values
`A`, `B`, `C` bounded by `MA`, `MB`, `MC` give a finite result within the propagated error
plus the rounding error `2^(k-24)` of the exact `A + B * C`. -/
theorem fma_step (a b c : Nat) (k : Int) (A B C EA EB EC MA MB MC : ℚ)
    (ha : f32Exp a < 255) (hb : f32Exp b < 255) (hc : f32Exp c < 255)
    (hk1 : -126 ≤ k) (hk2 : k ≤ 126)
    (hA : |f32Val a - A| ≤ EA) (hB : |f32Val b - B| ≤ EB) (hC : |f32Val c - C| ≤ EC)
    (mA : |A| ≤ MA) (mB : |B| ≤ MB) (mC : |C| ≤ MC)
    (hlt : MA + MB * MC + (EA + (MB + EB) * EC + MC * EB) < (2 : ℚ) ^ (k + 1)) :
    f32Exp (fmaf32 a b c) < 255
      ∧ |f32Val (fmaf32 a b c) - (A + B * C)|
          ≤ (2 : ℚ) ^ (k - 24) + (EA + (MB + EB) * EC + MC * EB)
      ∧ |A + B * C| ≤ MA + MB * MC := by
  have hEB : 0 ≤ EB := le_trans (abs_nonneg _) hB
  have hEC : 0 ≤ EC := le_trans (abs_nonneg _) hC
  have hMC : 0 ≤ MC := le_trans (abs_nonneg _) mC
  have hMB : 0 ≤ MB := le_trans (abs_nonneg _) mB
  have hvb : |f32Val b| ≤ MB + EB := by
    have h1 : |f32Val b| ≤ |f32Val b - B| + |B| := by
      have := abs_add (f32Val b - B) B
      simpa using this
    linarith
  have hprod : |f32Val b * f32Val c - B * C| ≤ (MB + EB) * EC + MC * EB := by
    have h1 : f32Val b * f32Val c - B * C = f32Val b * (f32Val c - C) + C * (f32Val b - B) := by
      ring
    rw [h1]
    have h2 := abs_add (f32Val b * (f32Val c - C)) (C * (f32Val b - B))
    have h3 : |f32Val b * (f32Val c - C)| ≤ (MB + EB) * EC := by
      rw [abs_mul]
      exact mul_le_mul hvb hC (abs_nonneg _) (by linarith)
    have h4 : |C * (f32Val b - B)| ≤ MC * EB := by
      rw [abs_mul]
      exact mul_le_mul mC hB (abs_nonneg _) hMC
    linarith
  have hexact : |A + B * C| ≤ MA + MB * MC := by
    have h1 := abs_add A (B * C)
    have h2 : |B * C| ≤ MB * MC := by
      rw [abs_mul]
      exact mul_le_mul mB mC (abs_nonneg _) hMB
    linarith
  have hdiff : |f32Val a + f32Val b * f32Val c - (A + B * C)|
      ≤ EA + (MB + EB) * EC + MC * EB := by
    have h1 : f32Val a + f32Val b * f32Val c - (A + B * C)
        = (f32Val a - A) + (f32Val b * f32Val c - B * C) := by ring
    rw [h1]
    have h2 := abs_add (f32Val a - A) (f32Val b * f32Val c - B * C)
    linarith
  have hmag : |f32Val a + f32Val b * f32Val c| < (2 : ℚ) ^ (k + 1) := by
    have h1 : |f32Val a + f32Val b * f32Val c|
        ≤ |f32Val a + f32Val b * f32Val c - (A + B * C)| + |A + B * C| := by
      have := abs_add (f32Val a + f32Val b * f32Val c - (A + B * C)) (A + B * C)
      simpa using this
    linarith
  obtain ⟨hfin, herr⟩ := fmaf32_err a b c k ha hb hc hk1 hk2 hmag
  refine ⟨hfin, ?_, hexact⟩
  have h1 : f32Val (fmaf32 a b c) - (A + B * C)
      = (f32Val (fmaf32 a b c) - (f32Val a + f32Val b * f32Val c))
        + (f32Val a + f32Val b * f32Val c - (A + B * C)) := by ring
  rw [h1]
  have h2 := abs_add (f32Val (fmaf32 a b c) - (f32Val a + f32Val b * f32Val c))
    (f32Val a + f32Val b * f32Val c - (A + B * C))
  linarith

/-- The round-off of the polynomial part: for a finite remainder `r` with `|r| <= 1/3` the
square `r2` and the value `y` are finite, `r2` is within `2^-28` of `r*r`, and `y` is within
`9 * 2^-27` of the polynomial over exact arithmetic, which is at most `11/16` in magnitude. -/
theorem poly_roundoff (r : Nat) (hr : f32Exp r < 255) (hR : |f32Val r| ≤ 1 / 3) :
    f32Exp (mulf32 r r) < 255
      ∧ |f32Val (mulf32 r r) - f32Val r * f32Val r| ≤ (2 : ℚ) ^ (-28 : Int)
      ∧ f32Exp (fmaf32 (fmaf32 0xbeffffe4 0x3eaaaebe r)
          (fmaf32 (fmaf32 0xbe800c3e 0x3e4b09a4 r)
            (fmaf32 (fmaf32 0xbe27cc9a 0x3e2d4d51 r) 0xbe1f39be (mulf32 r r)) (mulf32 r r))
          (mulf32 r r)) < 255
      ∧ |f32Val (fmaf32 (fmaf32 0xbeffffe4 0x3eaaaebe r)
          (fmaf32 (fmaf32 0xbe800c3e 0x3e4b09a4 r)
            (fmaf32 (fmaf32 0xbe27cc9a 0x3e2d4d51 r) 0xbe1f39be (mulf32 r r)) (mulf32 r r))
          (mulf32 r r)) - poly_exact (f32Val r)| ≤ 9 / 2 ^ 27
      ∧ |poly_exact (f32Val r)| ≤ 11 / 16 := by
  obtain ⟨v1, v2, v3, v4, v5, v6, v7, -⟩ := coeff_vals
  obtain ⟨f1, f2, f3, f4, f5, f6, f7, -⟩ := coeff_finite
  have hsq : |f32Val r * f32Val r| ≤ 1 / 9 := by
    rw [abs_mul]
    calc |f32Val r| * |f32Val r| ≤ (1 / 3) * (1 / 3) :=
          mul_le_mul hR hR (abs_nonneg _) (by norm_num)
      _ = 1 / 9 := by norm_num
  obtain ⟨hf2, he2⟩ := mulf32_err r r (-4) hr hr (by norm_num) (by norm_num)
    (lt_of_le_of_lt hsq (by norm_num))
  have he2' : |f32Val (mulf32 r r) - f32Val r * f32Val r| ≤ (1 / 2 ^ 28 : ℚ) :=
    le_trans he2 (by norm_num)
  have hz : ∀ c : Nat, |f32Val c - f32Val c| ≤ (0 : ℚ) := by
    intro c
    simp
  -- p = P5 + P6 * r
  obtain ⟨hfp1, hep1, hmp1⟩ := fma_step 0xbe27cc9a 0x3e2d4d51 r (-3) _ _ _ 0 0 0
    (10996890 / 2 ^ 26) (11357521 / 2 ^ 26) (1 / 3) f5 f6 hr (by norm_num) (by norm_num)
    (hz _) (hz _) (hz _) (by rw [v5]; norm_num [abs_of_pos])
    (by rw [v6]; norm_num [abs_of_pos]) hR (by norm_num)
  -- p = p + P7 * r2
  obtain ⟨hfp2, hep2, hmp2⟩ := fma_step _ 0xbe1f39be (mulf32 r r) (-3) _ _ _ _ 0 (1 / 2 ^ 28)
    _ (10435006 / 2 ^ 26) (1 / 9) hfp1 f7 hf2 (by norm_num) (by norm_num)
    hep1 (hz _) he2' hmp1 (by rw [v7]; norm_num [abs_of_pos]) hsq (by norm_num)
  -- q = P3 + P4 * r
  obtain ⟨hfq1, heq1, hmq1⟩ := fma_step 0xbe800c3e 0x3e4b09a4 r (-2) _ _ _ 0 0 0
    (8391742 / 2 ^ 25) (13306276 / 2 ^ 26) (1 / 3) f3 f4 hr (by norm_num) (by norm_num)
    (hz _) (hz _) (hz _) (by rw [v3]; norm_num [abs_of_pos])
    (by rw [v4]; norm_num [abs_of_pos]) hR (by norm_num)
  -- q = q + p * r2
  obtain ⟨hfq2, heq2, hmq2⟩ := fma_step _ _ (mulf32 r r) (-2) _ _ _ _ _ (1 / 2 ^ 28)
    _ _ (1 / 9) hfq1 hfp2 hf2 (by norm_num) (by norm_num)
    heq1 hep2 he2' hmq1 hmp2 hsq (by norm_num)
  -- y = P1 + P2 * r
  obtain ⟨hfy1, hey1, hmy1⟩ := fma_step 0xbeffffe4 0x3eaaaebe r (-1) _ _ _ 0 0 0
    (16777188 / 2 ^ 25) (11185854 / 2 ^ 25) (1 / 3) f1 f2 hr (by norm_num) (by norm_num)
    (hz _) (hz _) (hz _) (by rw [v1]; norm_num [abs_of_pos])
    (by rw [v2]; norm_num [abs_of_pos]) hR (by norm_num)
  -- y = y + q * r2
  obtain ⟨hfy2, hey2, hmy2⟩ := fma_step _ _ (mulf32 r r) (-1) _ _ _ _ _ (1 / 2 ^ 28)
    _ _ (1 / 9) hfy1 hfq2 hf2 (by norm_num) (by norm_num)
    hey1 heq2 he2' hmy1 hmq2 hsq (by norm_num)
  refine ⟨hf2, he2, hfy2, le_trans hey2 (by norm_num), le_trans hmy2 (by norm_num)⟩

/-! ## Soundness of the polynomial bounds -/

theorem polyEval_add (p q : List Int) (x : Int) :
    polyEval (polyAdd p q) x = polyEval p x + polyEval q x := by
  induction p generalizing q with
  | nil => simp [polyAdd, polyEval]
  | cons a p ih =>
    cases q with
    | nil => simp [polyAdd, polyEval]
    | cons b q =>
      simp only [polyAdd, polyEval, ih]
      ring

theorem polyEval_map_mul (c : Int) (p : List Int) (x : Int) :
    polyEval (p.map (fun b => c * b)) x = c * polyEval p x := by
  induction p with
  | nil => simp [polyEval]
  | cons a p ih =>
    simp only [List.map, polyEval, ih]
    ring

/-- The shifted coefficients evaluate to the polynomial at the shifted point. -/
theorem polyEval_shift (c : Int) (p : List Int) (s : Int) :
    polyEval (polyShift c p) s = polyEval p (c + s) := by
  induction p with
  | nil => simp [polyShift, polyEval]
  | cons a p ih =>
    simp only [polyShift, polyEval, polyEval_add, polyEval_map_mul, ih]
    ring

/-- The sum of the absolute values of the terms bounds the polynomial. -/
theorem polyEval_abs_le (p : List Int) (s h : Int) (hs : |s| ≤ h) :
    |polyEval p s| ≤ polyAbs p h := by
  have hh : 0 ≤ h := le_trans (abs_nonneg _) hs
  induction p with
  | nil => simp [polyEval, polyAbs]
  | cons a p ih =>
    simp only [polyEval, polyAbs]
    have h1 := abs_add a (s * polyEval p s)
    have h2 : |s * polyEval p s| ≤ h * polyAbs p h := by
      rw [abs_mul]
      exact mul_le_mul hs ih (abs_nonneg _) hh
    have h3 : ((a.natAbs : Nat) : Int) = |a| := Int.natCast_natAbs a
    linarith

/-- The polynomial on an interval `|X - m| <= H`, bounded through its Taylor shift. -/
theorem polyEval_interval (p : List Int) (X m : Int) (H : Nat) (h : |X - m| ≤ (H : Int)) :
    |polyEval p X| ≤ polyAbs (polyShift m p) H := by
  have h1 := polyEval_shift m p (X - m)
  rw [show m + (X - m) = X by ring] at h1
  rw [← h1]
  exact polyEval_abs_le _ _ _ h

/-- The scaled coefficients evaluate, at an integer `X`, to the polynomial at `X / 2^W`. -/
theorem polyEval_scale (W : Nat) (p : List Int) (X : Int) :
    ((polyEval (polyScale W p) X : Int) : ℚ) * (2 : ℚ) ^ W
      = (2 : ℚ) ^ (W * p.length) * polyEvalQ p ((X : ℚ) / (2 : ℚ) ^ W) := by
  have hW : (2 : ℚ) ^ W ≠ 0 := pow_ne_zero _ (by norm_num)
  induction p with
  | nil => simp [polyScale, polyEval, polyEvalQ]
  | cons a p ih =>
    simp only [polyScale, polyEval, polyEvalQ, List.length_cons]
    push_cast
    have hX : (X : ℚ) = (2 : ℚ) ^ W * ((X : ℚ) / (2 : ℚ) ^ W) := by
      field_simp
    have e1 : (2 : ℚ) ^ (W * (p.length + 1)) = (2 : ℚ) ^ (W * p.length) * (2 : ℚ) ^ W := by
      rw [← pow_add]
      congr 1
    rw [add_mul, mul_assoc ((X : ℚ)), ih, e1]
    generalize polyEvalQ p ((X : ℚ) / (2 : ℚ) ^ W) = v
    nth_rewrite 1 [hX]
    ring

/-- The coefficient list `polyCoeffs` is `2^26 * Q`. -/
theorem polyCoeffs_eval (r : ℚ) : polyEvalQ polyCoeffs r = 2 ^ 26 * log_poly r := by
  obtain ⟨v1, v2, v3, v4, v5, v6, v7, -⟩ := coeff_vals
  simp only [polyEvalQ, polyCoeffs, log_poly, poly_exact, v1, v2, v3, v4, v5, v6, v7]
  push_cast
  ring

/-- The coefficient list `diffCoeffs` is `diffDen * (T - Q)`, with `T` the Taylor polynomial
of `log (1 + r)` of degree 18. -/
theorem diffCoeffs_eval (r : ℚ) :
    polyEvalQ diffCoeffs r
      = (diffDen : ℚ) * (-(∑ i ∈ Finset.range 18, (-r) ^ (i + 1) / ((i : ℚ) + 1)) - log_poly r) := by
  obtain ⟨v1, v2, v3, v4, v5, v6, v7, -⟩ := coeff_vals
  simp only [polyEvalQ, diffCoeffs, diffDen, log_poly, poly_exact, v1, v2, v3, v4, v5, v6, v7,
    Finset.sum_range_succ, Finset.sum_range_zero]
  push_cast
  ring

/-- Soundness of `errBound`: on the interval `|X - m| <= H` of `X = r * 2^24`, inside
`|r| <= 1/3`, the polynomial `Q` is within `errBound m H` of `log (1 + r)`. -/
theorem errBound_sound (X m : Int) (H : Nat) (h : |X - m| ≤ (H : Int))
    (hR : 3 * (m.natAbs + H) ≤ 16777216) :
    |Real.log (1 + (((X : ℚ) / 2 ^ 24 : ℚ) : ℝ)) - ((log_poly ((X : ℚ) / 2 ^ 24) : ℚ) : ℝ)|
      ≤ ((errBound m H : ℚ) : ℝ) := by
  unfold errBound
  obtain ⟨B, hBdef⟩ : ∃ B : Int, polyAbs (polyShift m (polyScale 24 diffCoeffs)) H = B :=
    ⟨_, rfl⟩
  have hpoly := polyEval_interval (polyScale 24 diffCoeffs) X m H h
  rw [hBdef] at hpoly ⊢
  have hscale := polyEval_scale 24 diffCoeffs X
  obtain ⟨V, hVdef⟩ : ∃ V : Int, polyEval (polyScale 24 diffCoeffs) X = V := ⟨_, rfl⟩
  rw [hVdef] at hpoly hscale
  have hlen : diffCoeffs.length = 19 := by decide
  rw [hlen, show 24 * 19 = 24 * 18 + 24 by norm_num, pow_add] at hscale
  have hGcast : ((diffDen * 2 ^ (24 * 18) : Nat) : ℚ) = (diffDen : ℚ) * (2 : ℚ) ^ (24 * 18) := by
    simp only [Nat.cast_mul, Nat.cast_pow, Nat.cast_ofNat]
  rw [hGcast]
  have hP : (0 : ℚ) < (2 : ℚ) ^ (24 * 18) := pow_pos (by norm_num) _
  generalize (2 : ℚ) ^ (24 * 18) = P at hscale hP ⊢
  have hden : (0 : ℚ) < (diffDen : ℚ) := by
    have : 0 < diffDen := by decide
    exact_mod_cast this
  obtain ⟨A, hAdef⟩ : ∃ A : Nat, m.natAbs = A := ⟨_, rfl⟩
  have hAm : (A : Int) = |m| := by
    rw [← hAdef]
    exact Int.natCast_natAbs m
  rw [hAdef] at hR ⊢
  obtain ⟨r, hrdef⟩ : ∃ r : ℚ, (X : ℚ) / 2 ^ 24 = r := ⟨_, rfl⟩
  rw [hrdef] at hscale ⊢
  rw [diffCoeffs_eval] at hscale
  generalize (diffDen : ℚ) = dd at hscale hden ⊢
  -- the size of `r`
  have hXabs : |X| ≤ (A : Int) + (H : Int) := by
    have h1 : |X| ≤ |X - m| + |m| := by
      have := abs_add (X - m) m
      simpa using this
    linarith
  have hXq : |(X : ℚ)| ≤ (A : ℚ) + (H : ℚ) := by
    have := (Int.cast_le (R := ℚ)).mpr hXabs
    rw [Int.cast_abs] at this
    push_cast at this
    exact this
  have hcastR : ((A + H : Nat) : ℚ) / ((2 ^ 24 : Nat) : ℚ) = ((A : ℚ) + (H : ℚ)) / 2 ^ 24 := by
    push_cast
    rfl
  rw [hcastR]
  obtain ⟨R, hRdef⟩ : ∃ R : ℚ, ((A : ℚ) + (H : ℚ)) / 2 ^ 24 = R := ⟨_, rfl⟩
  rw [hRdef]
  have hR3 : R ≤ 1 / 3 := by
    rw [← hRdef, div_le_iff₀ (by norm_num)]
    have : ((3 * (A + H) : Nat) : ℚ) ≤ ((16777216 : Nat) : ℚ) := by exact_mod_cast hR
    push_cast at this
    linarith
  have hrR : |r| ≤ R := by
    rw [← hrdef, ← hRdef, abs_div, abs_of_pos (by norm_num : (0 : ℚ) < 2 ^ 24)]
    exact div_le_div_of_nonneg_right hXq (by norm_num)
  have hR0 : 0 ≤ R := le_trans (abs_nonneg _) hrR
  -- the polynomial part
  obtain ⟨D, hDdef⟩ : ∃ D : ℚ,
      -(∑ i ∈ Finset.range 18, (-r) ^ (i + 1) / ((i : ℚ) + 1)) - log_poly r = D := ⟨_, rfl⟩
  rw [hDdef] at hscale
  have hVD : (V : ℚ) = P * (dd * D) := by
    have h24 : (2 : ℚ) ^ 24 ≠ 0 := by norm_num
    apply mul_right_cancel₀ h24
    rw [hscale]
    ring
  have hVB : |(V : ℚ)| ≤ (B : ℚ) := by
    rw [← Int.cast_abs]
    exact_mod_cast hpoly
  have hD : |D| ≤ (B : ℚ) / (dd * P) := by
    rw [le_div_iff₀ (by positivity)]
    have : |(V : ℚ)| = |D| * (dd * P) := by
      rw [hVD, abs_mul, abs_mul, abs_of_pos hP, abs_of_pos hden]
      ring
    rw [← this]
    exact hVB
  -- the Taylor remainder
  have hr1 : |(-(r : ℝ))| < 1 := by
    rw [abs_neg]
    have : (|r| : ℚ) < 1 := by linarith
    exact_mod_cast this
  have ht := Real.abs_log_sub_add_sum_range_le hr1 18
  rw [abs_neg, sub_neg_eq_add] at ht
  have hrRr : |(r : ℝ)| ≤ (R : ℝ) := by exact_mod_cast hrR
  have hrem : |(r : ℝ)| ^ (18 + 1) / (1 - |(r : ℝ)|) ≤ 3 / 2 * (R : ℝ) ^ 19 := by
    have hR3r : (R : ℝ) ≤ 1 / 3 := by
      have := (Rat.cast_le (K := ℝ)).mpr hR3
      push_cast at this
      exact this
    have h1 : |(r : ℝ)| ^ 19 ≤ (R : ℝ) ^ 19 := pow_le_pow_left₀ (abs_nonneg _) hrRr 19
    have h2 : (0 : ℝ) < 1 - |(r : ℝ)| := by linarith
    rw [div_le_iff₀ h2]
    have h3 : (0 : ℝ) ≤ (R : ℝ) ^ 19 := pow_nonneg (by exact_mod_cast hR0) 19
    have h4 : (2 / 3 : ℝ) ≤ 1 - |(r : ℝ)| := by linarith
    calc |(r : ℝ)| ^ (18 + 1) ≤ (R : ℝ) ^ 19 := h1
      _ = 3 / 2 * (R : ℝ) ^ 19 * (2 / 3) := by ring
      _ ≤ 3 / 2 * (R : ℝ) ^ 19 * (1 - |(r : ℝ)|) :=
          mul_le_mul_of_nonneg_left h4 (by positivity)
  have hsplit : Real.log (1 + (r : ℝ)) - ((log_poly r : ℚ) : ℝ)
      = ((∑ i ∈ Finset.range 18, (-(r : ℝ)) ^ (i + 1) / ((i : ℝ) + 1)) + Real.log (1 + (r : ℝ)))
        + ((D : ℚ) : ℝ) := by
    rw [← hDdef]
    push_cast
    ring
  rw [hsplit]
  have hDr : |((D : ℚ) : ℝ)| ≤ (((B : ℚ) / (dd * P) : ℚ) : ℝ) := by
    rw [← Rat.cast_abs]
    exact_mod_cast hD
  have hfin := abs_add ((∑ i ∈ Finset.range 18, (-(r : ℝ)) ^ (i + 1) / ((i : ℝ) + 1))
    + Real.log (1 + (r : ℝ))) ((D : ℚ) : ℝ)
  push_cast at hDr ⊢
  linarith

/-- The rational `pow2 k` is the power `2^k`. -/
theorem pow2_eq (k : Int) : pow2 k = (2 : ℚ) ^ k := by
  unfold pow2
  split
  · rename_i h
    have hk : k = ((k.toNat : Nat) : Int) := by omega
    conv_rhs => rw [hk, zpow_natCast]
    push_cast
    rfl
  · rename_i h
    have hk : k = -(((-k).toNat : Nat) : Int) := by omega
    conv_rhs => rw [hk, zpow_neg, zpow_natCast]
    push_cast
    rw [one_div]

/-- The polynomial `Q` at `X / 2^24`, evaluated through the scaled integer coefficients. -/
theorem polyAt_eq (X : Int) : polyAt X = log_poly ((X : ℚ) / 2 ^ 24) := by
  unfold polyAt
  have hscale := polyEval_scale 24 polyCoeffs X
  have hlen : polyCoeffs.length = 9 := by decide
  rw [hlen, polyCoeffs_eval, show 24 * 9 = 24 * 8 + 24 by norm_num, pow_add] at hscale
  have hc : ((2 ^ (26 + 24 * 8) : Nat) : ℚ) = (2 : ℚ) ^ 26 * (2 : ℚ) ^ (24 * 8) := by
    rw [Nat.cast_pow, Nat.cast_ofNat, pow_add]
  rw [hc]
  have hP : (0 : ℚ) < (2 : ℚ) ^ (24 * 8) := pow_pos (by norm_num) _
  generalize (2 : ℚ) ^ (24 * 8) = P at hscale hP ⊢
  generalize ((polyEval (polyScale 24 polyCoeffs) X : Int) : ℚ) = V at hscale ⊢
  generalize log_poly ((X : ℚ) / 2 ^ 24) = Q at hscale ⊢
  have h24 : (2 : ℚ) ^ 24 ≠ 0 := by norm_num
  have hV : V = 2 ^ 26 * P * Q := by
    apply mul_right_cancel₀ h24
    rw [hscale]
    ring
  rw [hV]
  field_simp

/-- The unit in the last place of a real whose magnitude is at least `2^kap`. -/
theorem ulp32_ge (y : ℝ) (kap : Int) (h : (2 : ℝ) ^ kap ≤ |y|) :
    (2 : ℝ) ^ (kap - 23) ≤ ulp32 y := by
  have hy : 0 < |y| := lt_of_lt_of_le (zpow_pos (by norm_num) kap) h
  have hlog : kap ≤ Int.log 2 |y| := by
    have := (Int.zpow_le_iff_le_log (b := 2) (by norm_num) hy (x := kap)).mp
      (by exact_mod_cast h)
    exact this
  unfold ulp32
  apply zpow_le_zpow_right₀ (by norm_num)
  have := le_max_left (Int.log 2 |y|) (-126)
  omega

/-- The bounds of Mathlib on `log 2`, as the rationals of the certificate. -/
theorem ln2_bounds : ((ln2Lo : ℚ) : ℝ) < Real.log 2 ∧ Real.log 2 < ((ln2Hi : ℚ) : ℝ)
    ∧ ln2Hi < ln2Val := by
  refine ⟨?_, ?_, ?_⟩
  · have := Real.log_two_gt_d9
    unfold ln2Lo
    push_cast
    linarith
  · have := Real.log_two_lt_d9
    unfold ln2Hi
    push_cast
    linarith
  · unfold ln2Hi ln2Val
    norm_num

/-- The value of the table constant `ln2`. -/
theorem ln2Val_eq : f32Val 0x3f317218 = ln2Val := by
  rw [coeff_vals.2.2.2.2.2.2.2]
  unfold ln2Val
  norm_num

/-- The error of the fast path before its last rounding: the exact sum `p + y * r2` of the
computed `p`, `y` and `r2` is within the rounding error of `p`, the error of the constant
`ln2`, the round-off of the polynomial part and the approximation error of the polynomial of
the logarithm `n * log 2 + log (1 + r)`. -/
theorem lane_pre_err (u : Nat) (n : Int) (R eE p3err : ℚ) (k2 : Int)
    (hr : f32Exp (lane_r u) < 255) (hR : |f32Val (lane_r u)| ≤ R) (hR3 : R ≤ 1 / 3)
    (hk2a : -126 ≤ k2) (hk2b : k2 ≤ 126) (hRk : R * R < pow2 (k2 + 1))
    (hp3 : |f32Val (lane_p u) - (f32Val (lane_r u) + ln2Val * (n : ℚ))| ≤ p3err)
    (hE : |Real.log (1 + ((f32Val (lane_r u) : ℚ) : ℝ))
        - ((log_poly (f32Val (lane_r u)) : ℚ) : ℝ)| ≤ ((eE : ℚ) : ℝ)) :
    f32Exp (lane_y u) < 255 ∧ f32Exp (mulf32 (lane_r u) (lane_r u)) < 255
      ∧ |((f32Val (lane_p u) + f32Val (lane_y u) * f32Val (mulf32 (lane_r u) (lane_r u)) : ℚ) : ℝ)
          - ((n : ℝ) * Real.log 2 + Real.log (1 + ((f32Val (lane_r u) : ℚ) : ℝ)))|
        ≤ ((p3err + |(n : ℚ)| * (ln2Val - ln2Lo) + chainBound R k2 + eE : ℚ) : ℝ) := by
  have hy : lane_y u = fmaf32 (fmaf32 0xbeffffe4 0x3eaaaebe (lane_r u))
      (fmaf32 (fmaf32 0xbe800c3e 0x3e4b09a4 (lane_r u))
        (fmaf32 (fmaf32 0xbe27cc9a 0x3e2d4d51 (lane_r u)) 0xbe1f39be
          (mulf32 (lane_r u) (lane_r u))) (mulf32 (lane_r u) (lane_r u)))
      (mulf32 (lane_r u) (lane_r u)) := rfl
  rw [hy]
  generalize lane_r u = r at hr hR hp3 hE ⊢
  generalize lane_p u = p at hp3 ⊢
  have hR0 : 0 ≤ R := le_trans (abs_nonneg _) hR
  obtain ⟨hf2, -, hfy, hey, hmy⟩ := poly_roundoff r hr (le_trans hR hR3)
  have hsq : |f32Val r * f32Val r| ≤ R * R := by
    rw [abs_mul]
    exact mul_le_mul hR hR (abs_nonneg _) hR0
  rw [pow2_eq] at hRk
  obtain ⟨-, he2⟩ := mulf32_err r r k2 hr hr hk2a hk2b (lt_of_le_of_lt hsq hRk)
  refine ⟨hfy, hf2, ?_⟩
  generalize mulf32 r r = r2 at hf2 hfy hey he2 ⊢
  generalize fmaf32 (fmaf32 0xbeffffe4 0x3eaaaebe r)
      (fmaf32 (fmaf32 0xbe800c3e 0x3e4b09a4 r)
        (fmaf32 (fmaf32 0xbe27cc9a 0x3e2d4d51 r) 0xbe1f39be r2) r2) r2 = y at hfy hey ⊢
  -- the round-off of `y * r2`
  have hyabs : |f32Val y| ≤ 3 / 4 := by
    have h1 : |f32Val y| ≤ |f32Val y - poly_exact (f32Val r)| + |poly_exact (f32Val r)| := by
      have := abs_add (f32Val y - poly_exact (f32Val r)) (poly_exact (f32Val r))
      simpa using this
    have : (9 : ℚ) / 2 ^ 27 + 11 / 16 ≤ 3 / 4 := by norm_num
    linarith
  have hch : |f32Val y * f32Val r2 - poly_exact (f32Val r) * (f32Val r * f32Val r)|
      ≤ chainBound R k2 := by
    have h1 : f32Val y * f32Val r2 - poly_exact (f32Val r) * (f32Val r * f32Val r)
        = f32Val y * (f32Val r2 - f32Val r * f32Val r)
          + (f32Val r * f32Val r) * (f32Val y - poly_exact (f32Val r)) := by ring
    rw [h1]
    have h2 := abs_add (f32Val y * (f32Val r2 - f32Val r * f32Val r))
      ((f32Val r * f32Val r) * (f32Val y - poly_exact (f32Val r)))
    have h3 : |f32Val y * (f32Val r2 - f32Val r * f32Val r)| ≤ 3 / 4 * (2 : ℚ) ^ (k2 - 24) := by
      rw [abs_mul]
      exact mul_le_mul hyabs he2 (abs_nonneg _) (by norm_num)
    have h4 : |(f32Val r * f32Val r) * (f32Val y - poly_exact (f32Val r))|
        ≤ R * R * (9 / 134217728) := by
      rw [abs_mul]
      exact mul_le_mul hsq (le_trans hey (by norm_num)) (abs_nonneg _) (mul_nonneg hR0 hR0)
    unfold chainBound
    rw [pow2_eq]
    linarith
  -- the constant `ln2`
  obtain ⟨l1, l2, l3⟩ := ln2_bounds
  have hln : |(n : ℝ) * (((ln2Val : ℚ) : ℝ) - Real.log 2)|
      ≤ ((|(n : ℚ)| * (ln2Val - ln2Lo) : ℚ) : ℝ) := by
    have l3r : ((ln2Hi : ℚ) : ℝ) < ((ln2Val : ℚ) : ℝ) := by exact_mod_cast l3
    rw [abs_mul, abs_of_pos (by linarith : (0 : ℝ) < ((ln2Val : ℚ) : ℝ) - Real.log 2)]
    push_cast
    exact mul_le_mul_of_nonneg_left (by linarith) (abs_nonneg _)
  -- the sum
  have hp3r : |((f32Val p : ℚ) : ℝ) - (((f32Val r : ℚ) : ℝ) + ((ln2Val : ℚ) : ℝ) * (n : ℝ))|
      ≤ ((p3err : ℚ) : ℝ) := by
    have := (Rat.cast_le (K := ℝ)).mpr hp3
    rw [Rat.cast_abs] at this
    push_cast at this
    exact this
  have hchr : |((f32Val y : ℚ) : ℝ) * ((f32Val r2 : ℚ) : ℝ)
      - ((poly_exact (f32Val r) : ℚ) : ℝ) * (((f32Val r : ℚ) : ℝ) * ((f32Val r : ℚ) : ℝ))|
      ≤ ((chainBound R k2 : ℚ) : ℝ) := by
    have := (Rat.cast_le (K := ℝ)).mpr hch
    rw [Rat.cast_abs] at this
    push_cast at this
    exact this
  have hlp : ((log_poly (f32Val r) : ℚ) : ℝ)
      = ((f32Val r : ℚ) : ℝ)
        + ((poly_exact (f32Val r) : ℚ) : ℝ) * (((f32Val r : ℚ) : ℝ) * ((f32Val r : ℚ) : ℝ)) := by
    unfold log_poly
    push_cast
    rfl
  rw [hlp] at hE
  have hsplit : ((f32Val p + f32Val y * f32Val r2 : ℚ) : ℝ)
        - ((n : ℝ) * Real.log 2 + Real.log (1 + ((f32Val r : ℚ) : ℝ)))
      = (((f32Val p : ℚ) : ℝ) - (((f32Val r : ℚ) : ℝ) + ((ln2Val : ℚ) : ℝ) * (n : ℝ)))
        + (n : ℝ) * (((ln2Val : ℚ) : ℝ) - Real.log 2)
        + (((f32Val y : ℚ) : ℝ) * ((f32Val r2 : ℚ) : ℝ)
            - ((poly_exact (f32Val r) : ℚ) : ℝ)
              * (((f32Val r : ℚ) : ℝ) * ((f32Val r : ℚ) : ℝ)))
        - (Real.log (1 + ((f32Val r : ℚ) : ℝ))
            - (((f32Val r : ℚ) : ℝ) + ((poly_exact (f32Val r) : ℚ) : ℝ)
              * (((f32Val r : ℚ) : ℝ) * ((f32Val r : ℚ) : ℝ)))) := by
    push_cast
    ring
  rw [hsplit]
  have t1 := abs_sub (((((f32Val p : ℚ) : ℝ) - (((f32Val r : ℚ) : ℝ) + ((ln2Val : ℚ) : ℝ) * (n : ℝ)))
        + (n : ℝ) * (((ln2Val : ℚ) : ℝ) - Real.log 2)
        + (((f32Val y : ℚ) : ℝ) * ((f32Val r2 : ℚ) : ℝ)
            - ((poly_exact (f32Val r) : ℚ) : ℝ)
              * (((f32Val r : ℚ) : ℝ) * ((f32Val r : ℚ) : ℝ)))))
    (Real.log (1 + ((f32Val r : ℚ) : ℝ))
            - (((f32Val r : ℚ) : ℝ) + ((poly_exact (f32Val r) : ℚ) : ℝ)
              * (((f32Val r : ℚ) : ℝ) * ((f32Val r : ℚ) : ℝ))))
  have t2 := abs_add ((((f32Val p : ℚ) : ℝ) - (((f32Val r : ℚ) : ℝ) + ((ln2Val : ℚ) : ℝ) * (n : ℝ)))
        + (n : ℝ) * (((ln2Val : ℚ) : ℝ) - Real.log 2))
    (((f32Val y : ℚ) : ℝ) * ((f32Val r2 : ℚ) : ℝ)
            - ((poly_exact (f32Val r) : ℚ) : ℝ)
              * (((f32Val r : ℚ) : ℝ) * ((f32Val r : ℚ) : ℝ)))
  have t3 := abs_add (((f32Val p : ℚ) : ℝ) - (((f32Val r : ℚ) : ℝ) + ((ln2Val : ℚ) : ℝ) * (n : ℝ)))
    ((n : ℝ) * (((ln2Val : ℚ) : ℝ) - Real.log 2))
  push_cast at hln ⊢
  linarith

/-- The last rounding: when the exact sum `p + y * r2` is within `A` of the logarithm `L`,
`|L|` lies between `lam >= 2^kap` and `lmax`, the sum stays below `2^(kt+1)` and
`A + 2^(kt-24) <= 9/2 * 2^(kap-23)`, the rounded result is within `9/2` units in the last
place of `L`. -/
theorem final_round (p y r2 : Nat) (L : ℝ) (A lam lmax : ℚ) (kap kt : Int)
    (hp : f32Exp p < 255) (hy : f32Exp y < 255) (hr2 : f32Exp r2 < 255)
    (hA : |((f32Val p + f32Val y * f32Val r2 : ℚ) : ℝ) - L| ≤ ((A : ℚ) : ℝ))
    (hlam : ((lam : ℚ) : ℝ) ≤ |L|) (hlmax : |L| ≤ ((lmax : ℚ) : ℝ))
    (hkt1 : -126 ≤ kt) (hkt2 : kt ≤ 126) (h1 : pow2 kap ≤ lam)
    (h2 : lmax + A < pow2 (kt + 1)) (h3 : A + pow2 (kt - 24) ≤ 9 / 2 * pow2 (kap - 23)) :
    |((f32Val (fmaf32 p y r2) : ℚ) : ℝ) - L| ≤ 9 / 2 * ulp32 L := by
  rw [pow2_eq] at h1 h2
  rw [pow2_eq, pow2_eq] at h3
  have hmag : |f32Val p + f32Val y * f32Val r2| < (2 : ℚ) ^ (kt + 1) := by
    have h4 : |((f32Val p + f32Val y * f32Val r2 : ℚ) : ℝ)|
        ≤ |((f32Val p + f32Val y * f32Val r2 : ℚ) : ℝ) - L| + |L| := by
      have := abs_add (((f32Val p + f32Val y * f32Val r2 : ℚ) : ℝ) - L) L
      simpa using this
    have h5 : ((|f32Val p + f32Val y * f32Val r2| : ℚ) : ℝ) < (((2 : ℚ) ^ (kt + 1) : ℚ) : ℝ) := by
      have h6 := (Rat.cast_lt (K := ℝ)).mpr h2
      have hA' := hA
      rw [Rat.cast_abs]
      push_cast at h6 h4 hA' ⊢
      linarith
    exact_mod_cast h5
  obtain ⟨-, herr⟩ := fmaf32_err p y r2 kt hp hy hr2 hkt1 hkt2 hmag
  have herr' : |((f32Val (fmaf32 p y r2) : ℚ) : ℝ) - ((f32Val p + f32Val y * f32Val r2 : ℚ) : ℝ)|
      ≤ (((2 : ℚ) ^ (kt - 24) : ℚ) : ℝ) := by
    have := (Rat.cast_le (K := ℝ)).mpr herr
    rw [Rat.cast_abs] at this
    push_cast at this ⊢
    exact this
  have hulp : (2 : ℝ) ^ (kap - 23) ≤ ulp32 L := by
    apply ulp32_ge
    have := (Rat.cast_le (K := ℝ)).mpr h1
    push_cast at this
    linarith
  have h3r := (Rat.cast_le (K := ℝ)).mpr h3
  push_cast at h3r herr'
  have hsplit : ((f32Val (fmaf32 p y r2) : ℚ) : ℝ) - L
      = (((f32Val (fmaf32 p y r2) : ℚ) : ℝ) - ((f32Val p + f32Val y * f32Val r2 : ℚ) : ℝ))
        + (((f32Val p + f32Val y * f32Val r2 : ℚ) : ℝ) - L) := by ring
  rw [hsplit]
  have t1 := abs_add (((f32Val (fmaf32 p y r2) : ℚ) : ℝ)
    - ((f32Val p + f32Val y * f32Val r2 : ℚ) : ℝ))
    (((f32Val p + f32Val y * f32Val r2 : ℚ) : ℝ) - L)
  push_cast at t1 hA ⊢
  linarith

/-- The rounding is exact on a 24-bit significand followed by `J` zero bits, in the normal
range. -/
theorem f32Round_exact_mul (neg : Bool) (S J : Nat) (e : Int) (hS1 : 2 ^ 23 ≤ S)
    (hS2 : S < 2 ^ 24) (hlo : -126 ≤ 23 + (J : Int) + e) (hhi : 23 + (J : Int) + e ≤ 126) :
    f32Exp (f32Round neg (S * 2 ^ J) e) < 255
      ∧ f32Val (f32Round neg (S * 2 ^ J) e)
          = (if neg then -1 else 1) * (S : ℚ) * (2 : ℚ) ^ ((J : Int) + e) := by
  have hP : 0 < 2 ^ J := Nat.pos_pow_of_pos J (by norm_num)
  have hN : 1 ≤ S * 2 ^ J := Nat.mul_pos (by omega) hP
  obtain ⟨hL1, hL2⟩ := ilog2_spec (S * 2 ^ J) hN
  have hlog : ilog2 (S * 2 ^ J) = 23 + J := by
    have h1 : 2 ^ (23 + J) ≤ S * 2 ^ J := by
      rw [pow_add]
      exact Nat.mul_le_mul_right _ hS1
    have h2 : S * 2 ^ J < 2 ^ (24 + J) := by
      rw [pow_add]
      exact Nat.mul_lt_mul_of_pos_right hS2 hP
    have h3 : 2 ^ ilog2 (S * 2 ^ J) < 2 ^ (24 + J) := lt_of_le_of_lt hL1 h2
    have h4 : 2 ^ (23 + J) < 2 ^ (ilog2 (S * 2 ^ J) + 1) := lt_of_le_of_lt h1 hL2
    have h5 := (Nat.pow_lt_pow_iff_right (by norm_num : 1 < 2)).mp h3
    have h6 := (Nat.pow_lt_pow_iff_right (by norm_num : 1 < 2)).mp h4
    omega
  obtain ⟨mant, hfin, hval, hex, hrnd⟩ := f32Round_val neg (S * 2 ^ J) e hN
    (by rw [hlog]; push_cast; omega)
  rw [hlog] at hval hex hrnd
  have hq : max ((((23 + J : Nat) : Int)) + e) (-126) - 23 = (J : Int) + e := by
    push_cast
    omega
  rw [hq] at hval hex hrnd
  refine ⟨hfin, ?_⟩
  have hmant : mant = S := by
    by_cases hJ : J = 0
    · subst hJ
      have := hex (by push_cast; omega)
      rw [this]
      have h0 : (e - (((0 : Nat) : Int) + e)).toNat = 0 := by
        push_cast
        omega
      rw [h0]
      ring
    · obtain ⟨r1, r2⟩ := hrnd (by omega)
      have hj : ((J : Int) + e - e).toNat = J := by omega
      rw [hj] at r1 r2
      have a1 : (2 * mant) * 2 ^ J ≤ (2 * S + 1) * 2 ^ J := by
        have : (2 * S + 1) * 2 ^ J = 2 * (S * 2 ^ J) + 2 ^ J := by ring
        rw [this, mul_assoc]
        exact r1
      have a2 : (2 * S) * 2 ^ J ≤ (2 * mant + 1) * 2 ^ J := by
        have : (2 * mant + 1) * 2 ^ J = 2 * (mant * 2 ^ J) + 2 ^ J := by ring
        rw [this, mul_assoc]
        exact r2
      have b1 := Nat.le_of_mul_le_mul_right a1 hP
      have b2 := Nat.le_of_mul_le_mul_right a2 hP
      omega
  rw [hval, hmant]

/-- Adding a zero product to a remainder `r` that is `+0.0` or normal does not change its
value: `r + ln2 * 0` is `r`. -/
theorem fmaf32_zero_exact (r : Nat)
    (hr : r = 0 ∨ (1 ≤ f32Exp r ∧ f32Exp r ≤ 127)) :
    f32Exp (fmaf32 r 0x3f317218 0) < 255 ∧ f32Val (fmaf32 r 0x3f317218 0) = f32Val r := by
  rcases hr with h0 | ⟨h1, h2⟩
  · subst h0
    have h : fmaf32 0 0x3f317218 0 = 0 := by decide
    rw [h]
    exact ⟨by decide, rfl⟩
  · obtain ⟨a1, a2, a3⟩ := finite_flags r (by omega)
    have hl : f32IsNaN 0x3f317218 = false ∧ f32IsInf 0x3f317218 = false
        ∧ f32Scale 0x3f317218 = -24 := by decide
    have hz : f32IsNaN 0 = false ∧ f32IsInf 0 = false ∧ f32Scale 0 = -149
        ∧ f32SInt 0 = 0 := by decide
    obtain ⟨l1, l2, l3⟩ := hl
    obtain ⟨z1, z2, z3, z4⟩ := hz
    have hsc : f32Scale r = (f32Exp r : Int) - 150 := by
      unfold f32Scale
      rw [if_neg (by omega)]
    have hmin : min (f32Scale r) (-24 + -149) = -173 := by
      rw [hsc]
      omega
    have hsig : f32Sig r = 2 ^ 23 + f32Man r := by
      unfold f32Sig
      rw [if_neg (by omega)]
    have hman : f32Man r < 2 ^ 23 := Nat.mod_lt _ (by norm_num)
    obtain ⟨J, hJ⟩ : ∃ J : Nat, (f32Scale r - -173).toNat = J := ⟨_, rfl⟩
    have hJv : (J : Int) = (f32Exp r : Int) + 23 := by
      rw [← hJ, hsc]
      omega
    have hfma : fmaf32 r 0x3f317218 0
        = f32OfInt (f32SInt r * 2 ^ J) (-173) (f32Sign r && xor (f32Sign 0x3f317218) (f32Sign 0)) := by
      unfold fmaf32
      simp only [a1, a3, l1, l2, l3, z1, z2, z3, z4, hmin, hJ, Bool.or_self, Bool.false_and,
        Bool.and_false, Bool.false_eq_true, if_false, mul_zero, zero_mul, add_zero]
    rw [hfma]
    unfold f32OfInt
    have hS1 : 2 ^ 23 ≤ f32Sig r := by omega
    have hS2 : f32Sig r < 2 ^ 24 := by omega
    have hP : (0 : Int) < 2 ^ J := by positivity
    have hT : f32SInt r * 2 ^ J ≠ 0 := by
      apply mul_ne_zero _ hP.ne'
      unfold f32SInt
      split <;> omega
    rw [if_neg hT]
    have habs : (f32SInt r * 2 ^ J).natAbs = f32Sig r * 2 ^ J := by
      rw [Int.natAbs_mul, Int.natAbs_pow]
      congr 1
      unfold f32SInt
      split <;> simp
    have hneg : decide (f32SInt r * 2 ^ J < 0) = f32Sign r := by
      unfold f32SInt
      cases hs : f32Sign r
      · simp only [Bool.false_eq_true, if_false, decide_eq_false_iff_not, not_lt]
        positivity
      · simp only [if_true, decide_eq_true_eq]
        apply mul_neg_of_neg_of_pos _ hP
        omega
    rw [habs, hneg]
    obtain ⟨hfin, hval⟩ := f32Round_exact_mul (f32Sign r) (f32Sig r) J (-173) hS1 hS2
      (by omega) (by omega)
    refine ⟨hfin, ?_⟩
    rw [hval]
    unfold f32Val f32SInt
    rw [hsc, show (J : Int) + -173 = (f32Exp r : Int) - 150 by omega]
    cases f32Sign r <;> simp

/-- The reduction of a positive normal lane, in values: the remainder is `X / 2^24` for an
integer `X` between `-5592405` and `5592404`, it is `+0.0` or normal, the input is
`2^n * (1 + r)`, `n` lies between `-126` and `128`, and `r = 0` with `n = 0` only at `1.0`. -/
theorem lane_reduce_val (u : Nat) (h : posNormal u) :
    ∃ X : Int, -5592405 ≤ X ∧ X ≤ 5592404
      ∧ f32Val (lane_r u) = (X : ℚ) / 2 ^ 24
      ∧ (lane_r u = 0 ∨ (1 ≤ f32Exp (lane_r u) ∧ f32Exp (lane_r u) ≤ 127))
      ∧ f32Val u = (2 : ℚ) ^ (lane_n u) * (1 + f32Val (lane_r u))
      ∧ -126 ≤ lane_n u ∧ lane_n u ≤ 128
      ∧ (X = 0 → lane_n u = 0 → u = 0x3f800000) := by
  have hf := lane_reduce_fields u h
  have hp := h
  unfold posNormal at hp
  have hM : u % 2 ^ 23 < 2 ^ 23 := Nat.mod_lt _ (by norm_num)
  have hE1 : 1 ≤ u / 2 ^ 23 := by omega
  have hE2 : u / 2 ^ 23 ≤ 254 := by omega
  have hu : u = u / 2 ^ 23 * 2 ^ 23 + u % 2 ^ 23 := by omega
  have hv := f32Val_of_fields u (u / 2 ^ 23) (u % 2 ^ 23) hE1 hE2 hM hu
  have hlr : lane_r u = subf32 (lane_u u) 0x3f800000 := rfl
  obtain ⟨E, hEdef⟩ : ∃ E : Nat, u / 2 ^ 23 = E := ⟨_, rfl⟩
  obtain ⟨M, hMdef⟩ : ∃ M : Nat, u % 2 ^ 23 = M := ⟨_, rfl⟩
  rw [hEdef, hMdef] at hv hf hu
  rw [hEdef] at hE1 hE2
  rw [hMdef] at hM
  have h2 : (2 : ℚ) ≠ 0 := by norm_num
  by_cases hc : 0x2aaaab ≤ M
  · obtain ⟨hn, hm⟩ := hf.1 hc
    have hvm := f32Val_of_fields (lane_u u) 126 M (by norm_num) (by norm_num) hM hm
    obtain ⟨hsub, hnz⟩ := subf32_one_exact (lane_u u) (by omega) (by omega)
    rw [← hlr] at hsub hnz
    have hp126 : (2 : ℚ) ^ (((126 : Nat) : Int) - 150) = 1 / 2 ^ 24 := by norm_num
    rw [hp126] at hvm
    refine ⟨(M : Int) - 2 ^ 23, by omega, by omega, ?_, hnz, ?_, by omega, by omega,
      fun h0 => absurd h0 (by omega)⟩
    · rw [hsub, hvm]
      push_cast
      ring
    · rw [hsub, hv, hn, show (1 : ℚ) + (f32Val (lane_u u) - 1) = f32Val (lane_u u) by ring, hvm,
        show ((E : Int) - 150) = ((E : Int) - 126) + (-24) by ring, zpow_add₀ h2]
      norm_num
      ring
  · obtain ⟨hn, hm⟩ := hf.2 (by omega)
    have hvm := f32Val_of_fields (lane_u u) 127 M (by norm_num) (by norm_num) hM hm
    obtain ⟨hsub, hnz⟩ := subf32_one_exact (lane_u u) (by omega) (by omega)
    rw [← hlr] at hsub hnz
    have hp127 : (2 : ℚ) ^ (((127 : Nat) : Int) - 150) = 1 / 2 ^ 23 := by norm_num
    rw [hp127] at hvm
    refine ⟨2 * (M : Int), by omega, by omega, ?_, hnz, ?_, by omega, by omega,
      fun h0 hn0 => by omega⟩
    · rw [hsub, hvm]
      push_cast
      ring
    · rw [hsub, hv, hn, show (1 : ℚ) + (f32Val (lane_u u) - 1) = f32Val (lane_u u) by ring, hvm,
        show ((E : Int) - 150) = ((E : Int) - 127) + (-23) by ring, zpow_add₀ h2]
      norm_num
      ring

/-- The logarithm of `2^n * (1 + r)`. -/
theorem log_reduce (x r : ℚ) (n : Int) (hx : x = (2 : ℚ) ^ n * (1 + r)) (hr : -1 < r) :
    Real.log ((x : ℚ) : ℝ) = (n : ℝ) * Real.log 2 + Real.log (1 + ((r : ℚ) : ℝ)) := by
  have hr' : (0 : ℝ) < 1 + ((r : ℚ) : ℝ) := by
    have : ((-1 : ℚ) : ℝ) < ((r : ℚ) : ℝ) := by exact_mod_cast hr
    push_cast at this
    linarith
  rw [hx]
  push_cast
  rw [Real.log_mul (zpow_ne_zero _ (by norm_num)) hr'.ne', Real.log_zpow]

/-- The conversion of the exponent is finite and exact. -/
theorem cvt_val (n : Int) (h1 : -126 ≤ n) (h2 : n ≤ 128) :
    f32Exp (cvtf32s32 n) < 255 ∧ f32Val (cvtf32s32 n) = (n : ℚ) := by
  refine ⟨?_, f32Val_eq_int _ _ (cvt_exponent_eval n h1 h2)⟩
  unfold cvtf32s32
  refine (f32OfInt_err n 0 7 false (by norm_num) (by norm_num) ?_).1
  have : |(n : ℚ)| < 256 := by
    rw [abs_lt]
    constructor
    · have : ((-256 : Int) : ℚ) < (n : ℚ) := by exact_mod_cast (by omega : (-256 : Int) < n)
      push_cast at this
      exact this
    · have : (n : ℚ) < ((256 : Int) : ℚ) := by exact_mod_cast (by omega : n < (256 : Int))
      push_cast at this
      exact this
  norm_num
  exact this

/-- The value `p = r + ln2 * n` of a lane with `n` not zero: finite and within `2^(kv-24)` of
the exact sum when that is below `2^(kv+1)`. -/
theorem lane_p_err (u : Nat) (kv : Int) (hn1 : -126 ≤ lane_n u) (hn2 : lane_n u ≤ 128)
    (hr : f32Exp (lane_r u) < 255) (hk1 : -126 ≤ kv) (hk2 : kv ≤ 126)
    (hmag : |f32Val (lane_r u) + ln2Val * (lane_n u : ℚ)| < pow2 (kv + 1)) :
    f32Exp (lane_p u) < 255
      ∧ |f32Val (lane_p u) - (f32Val (lane_r u) + ln2Val * (lane_n u : ℚ))| ≤ pow2 (kv - 24) := by
  obtain ⟨hcf, hcv⟩ := cvt_val (lane_n u) hn1 hn2
  have hl : f32Exp 0x3f317218 < 255 := by decide
  rw [pow2_eq] at hmag ⊢
  have := fmaf32_err (lane_r u) 0x3f317218 (cvtf32s32 (lane_n u)) kv hr hl hcf hk1 hk2
    (by rw [ln2Val_eq, hcv]; exact hmag)
  rw [ln2Val_eq, hcv] at this
  exact this

/-- The value `p` of a lane with `n = 0` is the remainder itself. -/
theorem lane_p_zero (u : Nat) (hn : lane_n u = 0)
    (hr : lane_r u = 0 ∨ (1 ≤ f32Exp (lane_r u) ∧ f32Exp (lane_r u) ≤ 127)) :
    f32Exp (lane_p u) < 255 ∧ f32Val (lane_p u) = f32Val (lane_r u) := by
  have hp : lane_p u = fmaf32 (lane_r u) 0x3f317218 (cvtf32s32 (lane_n u)) := rfl
  have hc : cvtf32s32 0 = 0 := by decide
  rw [hp, hn, hc]
  exact fmaf32_zero_exact _ hr

/-- Soundness of the budget of one exponent: with the remainder bounded by `R`, the
approximation error by `eE`, the rounding error of `p` by `p3`, and the logarithm `L` or its
negative between `lam` and `lmax`, a budget that passes bounds the error of the fast path by
`9/2` units in the last place of `L`. -/
theorem budget_sound (u : Nat) (n : Int) (R eE absn p3 lam lmax : ℚ) (k2 kap kt : Int)
    (hb : rowBudget R eE k2 absn p3 lam lmax kap kt = true) (habs : |(n : ℚ)| = absn)
    (hr : f32Exp (lane_r u) < 255) (hR : |f32Val (lane_r u)| ≤ R) (hR3 : R ≤ 1 / 3)
    (hk2a : -126 ≤ k2) (hk2b : k2 ≤ 126) (hRk : R * R < pow2 (k2 + 1))
    (hpf : f32Exp (lane_p u) < 255)
    (hp3 : |f32Val (lane_p u) - (f32Val (lane_r u) + ln2Val * (n : ℚ))| ≤ p3)
    (hE : |Real.log (1 + ((f32Val (lane_r u) : ℚ) : ℝ))
        - ((log_poly (f32Val (lane_r u)) : ℚ) : ℝ)| ≤ ((eE : ℚ) : ℝ))
    (hL : (((lam : ℚ) : ℝ) ≤ (n : ℝ) * Real.log 2 + Real.log (1 + ((f32Val (lane_r u) : ℚ) : ℝ))
          ∧ (n : ℝ) * Real.log 2 + Real.log (1 + ((f32Val (lane_r u) : ℚ) : ℝ)) ≤ ((lmax : ℚ) : ℝ))
        ∨ (((lam : ℚ) : ℝ)
            ≤ -((n : ℝ) * Real.log 2 + Real.log (1 + ((f32Val (lane_r u) : ℚ) : ℝ)))
          ∧ -((n : ℝ) * Real.log 2 + Real.log (1 + ((f32Val (lane_r u) : ℚ) : ℝ)))
            ≤ ((lmax : ℚ) : ℝ))) :
    |((f32Val (lane_fast u) : ℚ) : ℝ)
        - ((n : ℝ) * Real.log 2 + Real.log (1 + ((f32Val (lane_r u) : ℚ) : ℝ)))|
      ≤ 9 / 2 * ulp32 ((n : ℝ) * Real.log 2 + Real.log (1 + ((f32Val (lane_r u) : ℚ) : ℝ))) := by
  simp only [rowBudget, Bool.and_eq_true, decide_eq_true_eq] at hb
  obtain ⟨⟨⟨⟨⟨c1, c2⟩, c3⟩, c4⟩, c5⟩, c6⟩ := hb
  obtain ⟨hfy, hf2, hpre⟩ := lane_pre_err u n R eE p3 k2 hr hR hR3 hk2a hk2b hRk hp3 hE
  rw [habs] at hpre
  have hfast : lane_fast u
      = fmaf32 (lane_p u) (lane_y u) (mulf32 (lane_r u) (lane_r u)) := rfl
  rw [hfast]
  have hlampos : (0 : ℝ) < ((lam : ℚ) : ℝ) := by
    have h1 : (0 : ℚ) < pow2 kap := by
      rw [pow2_eq]
      exact zpow_pos (by norm_num) _
    exact_mod_cast lt_of_lt_of_le h1 c4
  generalize (n : ℝ) * Real.log 2 + Real.log (1 + ((f32Val (lane_r u) : ℚ) : ℝ)) = L
    at hL hpre ⊢
  have habsL : ((lam : ℚ) : ℝ) ≤ |L| ∧ |L| ≤ ((lmax : ℚ) : ℝ) := by
    rcases hL with ⟨h1, h2⟩ | ⟨h1, h2⟩
    · rw [abs_of_pos (by linarith)]
      exact ⟨h1, h2⟩
    · rw [abs_of_neg (by linarith)]
      exact ⟨h1, h2⟩
  exact final_round (lane_p u) (lane_y u) (mulf32 (lane_r u) (lane_r u)) L _ lam lmax kap kt
    hpf hfy hf2 hpre habsL.1 habsL.2 c2 c3 c4 c5 c6

/-- The facts of one interval `|X - m| <= H` of the certificate: the size of the remainder
`r = X / 2^24`, the approximation error at `r`, and the bounds on `log (1 + r)` from the
polynomial at the two ends of the interval. -/
theorem row_interval (m X : Int) (H : Nat) (hX : |X - m| ≤ (H : Int))
    (hR : 3 * (m.natAbs + H) ≤ 16777216) :
    |(X : ℚ) / 2 ^ 24| ≤ ((m.natAbs + H : Nat) : ℚ) / 16777216
      ∧ ((m.natAbs + H : Nat) : ℚ) / 16777216 ≤ 1 / 3
      ∧ ((m - H : Int) : ℚ) / 16777216 ≤ (X : ℚ) / 2 ^ 24
      ∧ (X : ℚ) / 2 ^ 24 ≤ ((m + H : Int) : ℚ) / 16777216
      ∧ -(1 / 3) ≤ (X : ℚ) / 2 ^ 24
      ∧ |Real.log (1 + (((X : ℚ) / 2 ^ 24 : ℚ) : ℝ)) - ((log_poly ((X : ℚ) / 2 ^ 24) : ℚ) : ℝ)|
          ≤ ((errBound m H : ℚ) : ℝ)
      ∧ ((polyAt (m - H) - errBound m H : ℚ) : ℝ) ≤ Real.log (1 + (((X : ℚ) / 2 ^ 24 : ℚ) : ℝ))
      ∧ Real.log (1 + (((X : ℚ) / 2 ^ 24 : ℚ) : ℝ)) ≤ ((polyAt (m + H) + errBound m H : ℚ) : ℝ) := by
  obtain ⟨A, hAdef⟩ : ∃ A : Nat, m.natAbs = A := ⟨_, rfl⟩
  have hAm : (A : Int) = |m| := by
    rw [← hAdef]
    exact Int.natCast_natAbs m
  have hE := errBound_sound X m H hX hR
  have hEa := errBound_sound (m - H) m H (by simp) hR
  have hEb := errBound_sound (m + H) m H (by simp) hR
  rw [← polyAt_eq] at hEa hEb
  rw [hAdef] at hR ⊢
  obtain ⟨hX1, hX2⟩ := abs_le.mp hX
  have hm1 : m ≤ (A : Int) := by
    rw [hAm]
    exact le_abs_self m
  have hm2 : -(A : Int) ≤ m := by
    rw [hAm]
    exact neg_abs_le m
  have i1 : -((A : Int) + H) ≤ X := by omega
  have i2 : X ≤ (A : Int) + H := by omega
  have i3 : 3 * ((A : Int) + H) ≤ 16777216 := by omega
  have q1 : -((A : ℚ) + H) ≤ (X : ℚ) := by exact_mod_cast i1
  have q2 : (X : ℚ) ≤ (A : ℚ) + H := by exact_mod_cast i2
  have q3 : 3 * ((A : ℚ) + H) ≤ 16777216 := by exact_mod_cast i3
  have q4 : ((m - H : Int) : ℚ) ≤ (X : ℚ) := by exact_mod_cast (by omega : m - H ≤ X)
  have q5 : (X : ℚ) ≤ ((m + H : Int) : ℚ) := by exact_mod_cast (by omega : X ≤ m + H)
  have q6 : -((A : ℚ) + H) ≤ ((m - H : Int) : ℚ) := by
    exact_mod_cast (by omega : -((A : Int) + H) ≤ m - H)
  have e24 : (2 : ℚ) ^ 24 = 16777216 := by norm_num
  rw [e24] at hE hEa hEb ⊢
  have hρ1 : ((m - H : Int) : ℚ) / 16777216 ≤ (X : ℚ) / 16777216 :=
    div_le_div_of_nonneg_right q4 (by norm_num)
  have hρ2 : (X : ℚ) / 16777216 ≤ ((m + H : Int) : ℚ) / 16777216 :=
    div_le_div_of_nonneg_right q5 (by norm_num)
  have hlo : -(1 / 3 : ℚ) ≤ (X : ℚ) / 16777216 := by
    rw [le_div_iff₀ (by norm_num)]
    linarith
  have hloa : -(1 / 3 : ℚ) ≤ ((m - H : Int) : ℚ) / 16777216 := by
    rw [le_div_iff₀ (by norm_num)]
    linarith
  refine ⟨?_, ?_, hρ1, hρ2, hlo, hE, ?_, ?_⟩
  · rw [abs_le]
    push_cast
    constructor
    · rw [le_div_iff₀ (by norm_num)]
      have : -(((A : ℚ) + H) / 16777216) * 16777216 = -((A : ℚ) + H) := by ring
      rw [this]
      exact q1
    · exact div_le_div_of_nonneg_right q2 (by norm_num)
  · push_cast
    rw [div_le_iff₀ (by norm_num)]
    linarith
  · have hmono : Real.log (1 + ((((m - H : Int) : ℚ) / 16777216 : ℚ) : ℝ))
        ≤ Real.log (1 + (((X : ℚ) / 16777216 : ℚ) : ℝ)) := by
      apply Real.log_le_log
      · have := (Rat.cast_le (K := ℝ)).mpr hloa
        push_cast at this ⊢
        linarith
      · have := (Rat.cast_le (K := ℝ)).mpr hρ1
        linarith
    have := (abs_le.mp hEa).1
    push_cast at this hmono ⊢
    linarith
  · have hmono : Real.log (1 + (((X : ℚ) / 16777216 : ℚ) : ℝ))
        ≤ Real.log (1 + ((((m + H : Int) : ℚ) / 16777216 : ℚ) : ℝ)) := by
      apply Real.log_le_log
      · have := (Rat.cast_le (K := ℝ)).mpr hlo
        push_cast at this ⊢
        linarith
      · have := (Rat.cast_le (K := ℝ)).mpr hρ2
        linarith
    have := (abs_le.mp hEb).2
    push_cast at this hmono ⊢
    linarith

/-- Soundness of one row of the certificate: on a lane whose remainder is `X / 2^24` with
`X` in the interval of the row and whose exponent `n` is `-1`, `0` (with `X` not zero) or `1`,
the fast path is within `9/2` units in the last place of `n * log 2 + log (1 + r)`. -/
theorem row_sound (c : CertRow) (hc : rowCheck c = true) (u : Nat) (X : Int)
    (hX : |X - c.m| ≤ (c.H : Int)) (hval : f32Val (lane_r u) = (X : ℚ) / 2 ^ 24)
    (hrz : lane_r u = 0 ∨ (1 ≤ f32Exp (lane_r u) ∧ f32Exp (lane_r u) ≤ 127))
    (hn : lane_n u = -1 ∨ (lane_n u = 0 ∧ X ≠ 0) ∨ lane_n u = 1) :
    |((f32Val (lane_fast u) : ℚ) : ℝ)
        - ((lane_n u : ℝ) * Real.log 2 + Real.log (1 + ((f32Val (lane_r u) : ℚ) : ℝ)))|
      ≤ 9 / 2 * ulp32 ((lane_n u : ℝ) * Real.log 2
          + Real.log (1 + ((f32Val (lane_r u) : ℚ) : ℝ))) := by
  simp only [rowCheck, Bool.and_eq_true, Bool.or_eq_true, decide_eq_true_eq] at hc
  obtain ⟨⟨⟨⟨⟨⟨⟨⟨⟨⟨⟨⟨⟨c1, c2⟩, c3⟩, c4⟩, c5⟩, c6⟩, c7⟩, c8⟩, c9⟩, c10⟩, c11⟩, c12⟩, c13⟩, c14⟩ := hc
  obtain ⟨i1, i2, i3, i4, i5, i6, i7, i8⟩ := row_interval c.m X c.H hX c1
  rw [← hval] at i1 i3 i4 i5 i6 i7 i8
  have hr : f32Exp (lane_r u) < 255 := by
    rcases hrz with h0 | h1
    · rw [h0]
      decide
    · omega
  obtain ⟨l1, l2, l3⟩ := ln2_bounds
  have hlv : (69 / 100 : ℚ) < ln2Val := by
    unfold ln2Val
    norm_num
  have hi3 : ((f32Val (lane_r u) : ℚ) : ℝ) ≤ 1 / 3 := by
    have h1 : f32Val (lane_r u) ≤ 1 / 3 := le_trans (le_abs_self _) (le_trans i1 i2)
    have := (Rat.cast_le (K := ℝ)).mpr h1
    push_cast at this
    exact this
  rcases hn with hn | ⟨hn, hX0⟩ | hn
  · -- n = -1
    have hmag : |f32Val (lane_r u) + ln2Val * ((lane_n u : Int) : ℚ)| < pow2 (c.kvm + 1) := by
      rw [hn]
      have h1 : f32Val (lane_r u) ≤ 1 / 3 := le_trans (le_abs_self _) (le_trans i1 i2)
      rw [abs_of_neg (by push_cast; linarith)]
      push_cast
      linarith
    obtain ⟨hpf, hp3⟩ := lane_p_err u c.kvm (by rw [hn]; norm_num) (by rw [hn]; norm_num) hr
      c6 c7 hmag
    rw [hn] at hp3 ⊢
    refine budget_sound u (-1) _ _ 1 _ _ _ _ _ _ c9 (by norm_num) hr i1 i2 c3 c4 c5 hpf hp3 i6
      (Or.inr ⟨?_, ?_⟩)
    · push_cast at i8 ⊢
      linarith
    · push_cast at i7 ⊢
      linarith
  · -- n = 0
    obtain ⟨hpf, hp0⟩ := lane_p_zero u hn hrz
    have hp3 : |f32Val (lane_p u) - (f32Val (lane_r u) + ln2Val * ((0 : Int) : ℚ))| ≤ 0 := by
      rw [hp0]
      simp
    rw [hn]
    rcases c14 with ⟨⟨hm0, hH0⟩ | ⟨hpos, hb⟩⟩ | ⟨hneg, hb⟩
    · exfalso
      apply hX0
      rw [hm0, hH0] at hX
      simpa using hX
    · refine budget_sound u 0 _ _ 0 _ _ _ _ _ _ hb (by norm_num) hr i1 i2 c3 c4 c5 hpf hp3 i6
        (Or.inl ⟨?_, ?_⟩)
      · push_cast at i7 ⊢
        linarith
      · push_cast at i8 ⊢
        linarith
    · refine budget_sound u 0 _ _ 0 _ _ _ _ _ _ hb (by norm_num) hr i1 i2 c3 c4 c5 hpf hp3 i6
        (Or.inr ⟨?_, ?_⟩)
      · push_cast at i8 ⊢
        linarith
      · push_cast at i7 ⊢
        linarith
  · -- n = 1
    have hmag : |f32Val (lane_r u) + ln2Val * ((lane_n u : Int) : ℚ)| < pow2 (c.kvp + 1) := by
      rw [hn]
      rw [abs_of_pos (by push_cast; linarith)]
      push_cast
      linarith
    obtain ⟨hpf, hp3⟩ := lane_p_err u c.kvp (by rw [hn]; norm_num) (by rw [hn]; norm_num) hr
      c10 c11 hmag
    rw [hn] at hp3 ⊢
    refine budget_sound u 1 _ _ 1 _ _ _ _ _ _ c13 (by norm_num) hr i1 i2 c3 c4 c5 hpf hp3 i6
      (Or.inl ⟨?_, ?_⟩)
    · push_cast at i7 ⊢
      linarith
    · push_cast at i8 ⊢
      linarith

/-- The rows of exponents pass their checks, by evaluation. -/
theorem expAll_ok : expAll = true := by decide!

/-- The certificate holds, by evaluation. -/
theorem certCheck_ok : certCheck = true := by decide!

/-- Rows that cover the integers from `lo` to `hi` contain every `X` in between. -/
theorem rowsCover_sound (cs : List CertRow) (lo hi : Int) (h : rowsCover cs lo = some hi)
    (X : Int) (h1 : lo ≤ X) (h2 : X ≤ hi) : ∃ c ∈ cs, |X - c.m| ≤ (c.H : Int) := by
  induction cs generalizing lo with
  | nil =>
    simp only [rowsCover, Option.some.injEq] at h
    omega
  | cons c cs ih =>
    unfold rowsCover at h
    split_ifs at h with hcond
    by_cases hX : X ≤ c.m + c.H
    · refine ⟨c, List.mem_cons_self _ _, ?_⟩
      rw [abs_le]
      constructor <;> omega
    · obtain ⟨c', hc', hX'⟩ := ih (c.m + c.H + 1) h (by omega)
      exact ⟨c', List.mem_cons_of_mem _ hc', hX'⟩

/-- Every `X` in the range of the remainder lies in a row that passes its check. -/
theorem cert_rows (X : Int) (h1 : -5592405 ≤ X) (h2 : X ≤ 5592404) :
    ∃ c : CertRow, rowCheck c = true ∧ |X - c.m| ≤ (c.H : Int) := by
  have h := certCheck_ok
  unfold certCheck at h
  rw [Bool.and_eq_true] at h
  obtain ⟨hall, hcov⟩ := h
  generalize certRows = cs at hall hcov
  cases hc : rowsCover cs (-5592405) with
  | none =>
    rw [hc] at hcov
    exact absurd hcov (by simp)
  | some hi =>
    rw [hc] at hcov
    simp only [decide_eq_true_eq] at hcov
    obtain ⟨c, hmem, hX⟩ := rowsCover_sound cs _ hi hc X h1 (by omega)
    exact ⟨c, (List.all_eq_true.mp hall) c hmem, hX⟩

/-- Every `N` from 2 to 128 has exponents that pass the check. -/
theorem exp_rows (N : Nat) (h1 : 2 ≤ N) (h2 : N ≤ 128) :
    ∃ e : Nat × Int × Int × Int, e.1 = N ∧ expCheck e = true := by
  have h := expAll_ok
  unfold expAll at h
  have hN := (List.all_eq_true.mp h) N (List.mem_range.mpr (by omega))
  generalize expRows = rows at hN
  simp only [Bool.or_eq_true, decide_eq_true_eq] at hN
  rcases hN with hlt | hm
  · omega
  · cases hf : rows.find? (fun e => e.1 == N) with
    | none =>
      rw [hf] at hm
      exact absurd hm (by simp)
    | some e =>
      rw [hf] at hm
      have := List.find?_some hf
      simp only [beq_iff_eq] at this
      exact ⟨e, this, hm⟩

/-- Crude bounds on `log (1 + r)` over the range of the remainder. -/
theorem log_one_add_bounds (r : ℝ) (h1 : -(1 / 3) ≤ r) (h2 : r ≤ 1 / 3) :
    -(1 / 2) ≤ Real.log (1 + r) ∧ Real.log (1 + r) ≤ 1 / 3 := by
  have hpos : (0 : ℝ) < 1 + r := by linarith
  constructor
  · have h := Real.one_sub_inv_le_log_of_pos hpos
    have hinv : (1 + r)⁻¹ ≤ 3 / 2 := by
      rw [inv_le_comm₀ hpos (by norm_num)]
      norm_num
      linarith
    linarith
  · have h := Real.log_le_sub_one_of_pos hpos
    linarith

/-- A row that passes its check lies inside `|r| <= 1/3` and its approximation error is at
most `errMax`. -/
theorem rowCheck_err (c : CertRow) (hc : rowCheck c = true) :
    3 * (c.m.natAbs + c.H) ≤ 16777216 ∧ errBound c.m c.H ≤ errMax := by
  simp only [rowCheck, Bool.and_eq_true, Bool.or_eq_true, decide_eq_true_eq] at hc
  obtain ⟨⟨⟨⟨⟨⟨⟨⟨⟨⟨⟨⟨⟨c1, c2⟩, -⟩, -⟩, -⟩, -⟩, -⟩, -⟩, -⟩, -⟩, -⟩, -⟩, -⟩, -⟩ := hc
  exact ⟨c1, c2⟩

/-- A lane with `|n| >= 2`: the fast path is within `9/2` units in the last place of
`n * log 2 + log (1 + r)`. -/
theorem exp_sound (u : Nat) (X : Int) (hX1 : -5592405 ≤ X) (hX2 : X ≤ 5592404)
    (hval : f32Val (lane_r u) = (X : ℚ) / 2 ^ 24)
    (hrz : lane_r u = 0 ∨ (1 ≤ f32Exp (lane_r u) ∧ f32Exp (lane_r u) ≤ 127))
    (hn1 : -126 ≤ lane_n u) (hn2 : lane_n u ≤ 128) (hn : 2 ≤ (lane_n u).natAbs) :
    |((f32Val (lane_fast u) : ℚ) : ℝ)
        - ((lane_n u : ℝ) * Real.log 2 + Real.log (1 + ((f32Val (lane_r u) : ℚ) : ℝ)))|
      ≤ 9 / 2 * ulp32 ((lane_n u : ℝ) * Real.log 2
          + Real.log (1 + ((f32Val (lane_r u) : ℚ) : ℝ))) := by
  obtain ⟨c, hc, hXc⟩ := cert_rows X hX1 hX2
  obtain ⟨c1, c2⟩ := rowCheck_err c hc
  obtain ⟨i1, i2, -, -, i5, i6, -, -⟩ := row_interval c.m X c.H hXc c1
  rw [← hval] at i1 i5 i6
  have hR : |f32Val (lane_r u)| ≤ 1 / 3 := le_trans i1 i2
  have hE : |Real.log (1 + ((f32Val (lane_r u) : ℚ) : ℝ))
      - ((log_poly (f32Val (lane_r u)) : ℚ) : ℝ)| ≤ ((errMax : ℚ) : ℝ) :=
    le_trans i6 (by exact_mod_cast c2)
  have hr : f32Exp (lane_r u) < 255 := by
    rcases hrz with h0 | h1
    · rw [h0]
      decide
    · omega
  obtain ⟨N, hNdef⟩ : ∃ N : Nat, (lane_n u).natAbs = N := ⟨_, rfl⟩
  rw [hNdef] at hn
  obtain ⟨e, he1, hcheck⟩ := exp_rows N hn (by omega)
  simp only [expCheck, Bool.and_eq_true, decide_eq_true_eq] at hcheck
  obtain ⟨⟨⟨e1, e2⟩, e3⟩, hb⟩ := hcheck
  rw [he1] at e3 hb
  have habs : |((lane_n u : Int) : ℚ)| = (N : ℚ) := by
    rw [← hNdef, Nat.cast_natAbs, Int.cast_abs]
  obtain ⟨l1, l2, l3⟩ := ln2_bounds
  have hlv : (0 : ℚ) < ln2Val := by
    unfold ln2Val
    norm_num
  have hmag : |f32Val (lane_r u) + ln2Val * ((lane_n u : Int) : ℚ)| < pow2 (e.2.2.1 + 1) := by
    have t1 := abs_add (f32Val (lane_r u)) (ln2Val * ((lane_n u : Int) : ℚ))
    rw [abs_mul, abs_of_pos hlv, habs] at t1
    linarith
  obtain ⟨hpf, hp3⟩ := lane_p_err u e.2.2.1 hn1 hn2 hr e1 e2 hmag
  obtain ⟨hR1, hR2⟩ := abs_le.mp hR
  have hR1r : -(1 / 3 : ℝ) ≤ ((f32Val (lane_r u) : ℚ) : ℝ) := by
    have := (Rat.cast_le (K := ℝ)).mpr hR1
    push_cast at this
    exact this
  have hR2r : ((f32Val (lane_r u) : ℚ) : ℝ) ≤ 1 / 3 := by
    have := (Rat.cast_le (K := ℝ)).mpr hR2
    push_cast at this
    exact this
  obtain ⟨g1, g2⟩ := log_one_add_bounds _ hR1r hR2r
  have hRk : (1 / 3 : ℚ) * (1 / 3) < pow2 (-4 + 1) := by
    rw [pow2_eq]
    norm_num
  have hN0 : (0 : ℝ) ≤ (N : ℝ) := Nat.cast_nonneg N
  have m1 : (N : ℝ) * ((ln2Lo : ℚ) : ℝ) ≤ (N : ℝ) * Real.log 2 :=
    mul_le_mul_of_nonneg_left l1.le hN0
  have m2 : (N : ℝ) * Real.log 2 ≤ (N : ℝ) * ((ln2Hi : ℚ) : ℝ) :=
    mul_le_mul_of_nonneg_left l2.le hN0
  refine budget_sound u (lane_n u) (1 / 3) errMax (N : ℚ) _ _ _ (-4) _ _ hb habs hr hR le_rfl
    (by norm_num) (by norm_num) hRk hpf hp3 hE ?_
  by_cases hsign : 0 ≤ lane_n u
  · have hnN : ((lane_n u : Int) : ℝ) = (N : ℝ) := by
      have : lane_n u = (N : Int) := by omega
      rw [this]
      push_cast
      rfl
    rw [hnN]
    left
    push_cast
    constructor <;> linarith
  · have hnN : ((lane_n u : Int) : ℝ) = -(N : ℝ) := by
      have : lane_n u = -(N : Int) := by omega
      rw [this]
      push_cast
      rfl
    rw [hnN]
    right
    push_cast
    constructor <;> linarith

/-- The fast path on every positive normal lane is within `9/2` units in the last place of
the exact natural logarithm of the lane. -/
theorem lane_fast_ulp (u : Nat) (h : posNormal u) :
    |((f32Val (lane_fast u) : ℚ) : ℝ) - Real.log ((f32Val u : ℚ) : ℝ)|
      ≤ 9 / 2 * ulp32 (Real.log ((f32Val u : ℚ) : ℝ)) := by
  obtain ⟨X, hX1, hX2, hval, hrz, hu, hn1, hn2, hone⟩ := lane_reduce_val u h
  have hr1 : -1 < f32Val (lane_r u) := by
    rw [hval, lt_div_iff₀ (by norm_num)]
    have : ((-5592405 : Int) : ℚ) ≤ (X : ℚ) := by exact_mod_cast hX1
    push_cast at this
    linarith
  rw [log_reduce (f32Val u) (f32Val (lane_r u)) (lane_n u) hu hr1]
  by_cases h2 : 2 ≤ (lane_n u).natAbs
  · exact exp_sound u X hX1 hX2 hval hrz hn1 hn2 h2
  · by_cases h0 : lane_n u = 0 ∧ X = 0
    · have hu1 := hone h0.2 h0.1
      have hf : lane_fast u = 0 := by
        rw [hu1]
        exact lane_fast_one
      have hv0 : f32Val 0 = 0 := by
        have hs0 : f32SInt 0 = 0 := by decide
        unfold f32Val
        rw [hs0]
        simp
      rw [hf, hval, h0.1, h0.2, hv0]
      have : (0 : ℝ) < ulp32 (((0 : Int) : ℝ) * Real.log 2
          + Real.log (1 + ((((0 : Int) : ℚ) / 2 ^ 24 : ℚ) : ℝ))) := zpow_pos (by norm_num) _
      simp only [Int.cast_zero, zero_mul, zero_div, Rat.cast_zero, add_zero, Real.log_one,
        sub_self, abs_zero] at this ⊢
      linarith
    · obtain ⟨c, hc, hXc⟩ := cert_rows X hX1 hX2
      refine row_sound c hc u X hXc hval hrz ?_
      have : lane_n u = -1 ∨ lane_n u = 0 ∨ lane_n u = 1 := by omega
      rcases this with hm | hz | hp
      · exact Or.inl hm
      · exact Or.inr (Or.inl ⟨hz, fun hx => h0 ⟨hz, hx⟩⟩)
      · exact Or.inr (Or.inr hp)

/-- C6, amended: for every positive normal finite lane, the result of the routine in that
lane differs from the exact natural logarithm of the lane by at most 4.5 units in the last
place, whatever the other lanes hold and whatever the scalar reference is. The bound covers
the approximation error of the polynomial on `2/3 < 1 + r < 4/3`, the error of the constant
`ln2` and every rounding of the chain of fused multiply-adds. -/
theorem C6_error_within_4_5_ulp (logf : Nat → Nat) (x : float32x4_t) (i : Fin 4)
    (h : posNormal (x i)) :
    |((f32Val (V_NAME_F1_log logf x i) : ℚ) : ℝ) - Real.log ((f32Val (x i) : ℚ) : ℝ)|
      ≤ 4.5 * ulp32 (Real.log ((f32Val (x i) : ℚ) : ℝ)) := by
  rw [V_NAME_F1_log_lane, lane_result_of_posNormal logf (x i) h]
  have := lane_fast_ulp (x i) h
  norm_num at this ⊢
  linarith

/-- C6, amended, at the input `{0.66689, 0.0, 1.0, 1.0}`, lane 0: the lane of the
counterexample, next to a lane that takes the special path. -/
theorem C6_error_within_4_5_ulp_witness :
    posNormal ((![0x3f2ab94c, 0x00000000, 0x3f800000, 0x3f800000] : float32x4_t) 0)
      ∧ |((f32Val (V_NAME_F1_log logf_sample
            ![0x3f2ab94c, 0x00000000, 0x3f800000, 0x3f800000] 0) : ℚ) : ℝ)
          - Real.log ((f32Val
            ((![0x3f2ab94c, 0x00000000, 0x3f800000, 0x3f800000] : float32x4_t) 0) : ℚ) : ℝ)|
        ≤ 4.5 * ulp32 (Real.log ((f32Val
            ((![0x3f2ab94c, 0x00000000, 0x3f800000, 0x3f800000] : float32x4_t) 0) : ℚ) : ℝ)) :=
  ⟨by decide, C6_error_within_4_5_ulp logf_sample
    ![0x3f2ab94c, 0x00000000, 0x3f800000, 0x3f800000] 0 (by decide)⟩

end VLogf
